import Mathlib

/-!
# claude-agent-gen: crawl controller, URL filter and content extractor

A shallow embedding of `FlexibleDocumentationCrawler` (src/scraper/simple-scraper.js)
and the properties of its breadth-first crawl.

Conventions of the embedding.

* The installed scraper (`this.scraper`) is an arbitrary state-passing object over a
  world type `σ`: every call may change the world and may throw (`none`). Successive
  fetches of one URL may therefore answer differently.
* The platform `URL` class is a parameter `parseUrl`; `none` stands for the `TypeError`
  thrown by `new URL(x)`.
* A numeric option that is `0` stands for any falsy value (the number `0` or an absent
  option); `x || dflt` turns it into the default.
* The `while` loop of `crawl` is run with fuel; `crawl_terminates` shows that enough fuel
  always exists.
* `Trace` is instrumentation only: it records calls the code makes and is never read by
  the code.

The second part embeds `validateConfig` (src/cli/config.js), the entry `generateAgent`
(src/index.js) up to its crawling phase, the `ContentExtractor`
(src/processor/content-extractor.js) and the knowledge-base methods of the
`AgentGenerator` (src/generator/agent-generator.js).

* A JavaScript string is a Lean string, one character per UTF-16 code unit.
* The regular expressions of the extractor are values of `Regex`, run by a backtracking
  matcher with the priorities of ECMAScript.
* What the extractor asks of the runtime and of cheerio is the parameter `Host`.
* A loop that pushes onto an array is a `foldl`; the `exec` loop of
  `extractConfigOptions` is run with fuel, and `extractConfigOptions_spec` shows that ten
  units are enough.
-/

namespace ClaudeAgentGen

/-! ## Data model -/

/-- An element of `headings[]`. -/
structure Heading where
  level : Nat
  text : String
  id : String
deriving DecidableEq

/-- An element of `codeBlocks[]`. -/
structure CodeBlock where
  code : String
  language : String
deriving DecidableEq

/-- An element of `links[]` and of `navigation.items`. -/
structure Link where
  href : String
  text : String
deriving DecidableEq

/-- The value resolved by `scraper.getPageContent(url)`. -/
structure PageContent where
  title : String
  html : String
  text : String
  headings : List Heading
  codeBlocks : List CodeBlock
  links : List Link
  navigation : List Link
deriving DecidableEq

/-- The `pageData` object built in `crawlPage` and appended to `this.pages`. -/
structure PageData where
  url : String
  depth : Nat
  title : String
  content : String
  html : String
  headings : List Heading
  codeBlocks : List CodeBlock
  links : List Link
  navigation : List Link
  timestamp : String
deriving DecidableEq

/-- An element of `this.queue`: `{ url, depth }`. -/
structure FrontierEntry where
  url : String
  depth : Nat
deriving DecidableEq

/-- The options read by the crawler. `excludePatterns` and `includePatterns` are `none`
when the option is absent (an empty array is truthy in JavaScript and stays empty). -/
structure Options where
  depth : Int
  maxPages : Int
  excludePatterns : Option (List String)
  includePatterns : Option (List String)
deriving DecidableEq

/-- What `new URL(x)` exposes to the crawler. -/
structure ParsedUrl where
  origin : String
  pathname : String
deriving DecidableEq

/-- The scraper interface used by the controller. `getPageContent` and `getPageLinks`
answer `none` when the awaited promise rejects; `now` is the clock read by
`new Date().toISOString()`. -/
structure Scraper (σ : Type) where
  getPageContent : σ → String → σ × Option PageContent
  getPageLinks : σ → String → String → σ × Option (List String)
  now : σ → String

/-- Instrumentation: `fetched` lists the URLs handed to `scraper.getPageContent` by
`crawlPage`, `discovered` the answers of `scraper.getPageLinks` with the page they were
asked for, `pushed` every entry given to `queue.push`, each in call order. -/
structure Trace where
  fetched : List String
  discovered : List (String × List String)
  pushed : List FrontierEntry
deriving DecidableEq

/-- The fields of a `FlexibleDocumentationCrawler` instance, with the scraper's world. -/
structure Crawler (σ : Type) where
  visited : List String
  queue : List FrontierEntry
  pages : List PageData
  baseUrl : String
  world : σ
  trace : Trace

/-- The state set up by the constructor. -/
def Crawler.fresh {σ : Type} (w : σ) : Crawler σ :=
  { visited := [], queue := [], pages := [], baseUrl := "", world := w,
    trace := { fetched := [], discovered := [], pushed := [] } }

/-! ## Option defaults -/

/-- The expression `this.options.depth || 2`. -/
def depthLimit (o : Options) : Int :=
  if o.depth = 0 then 2 else o.depth

/-- The expression `this.options.maxPages || 50`. -/
def maxPagesLimit (o : Options) : Int :=
  if o.maxPages = 0 then 50 else o.maxPages

/-- The default of `this.options.excludePatterns || [...]`. -/
def defaultExcludePatterns : List String :=
  ["/changelog", "/blog", "/news", "404", "search", "login", "signup"]

/-- The expression `this.options.excludePatterns || [...]`. -/
def excludePatterns (o : Options) : List String :=
  o.excludePatterns.getD defaultExcludePatterns

/-- The expression `this.options.includePatterns || []`. -/
def includePatterns (o : Options) : List String :=
  o.includePatterns.getD []

/-! ## String helpers -/

/-- Model of `String.prototype.toLowerCase` on a URL path. A parsed URL's `pathname` is ASCII
(other characters are percent-encoded), where lower-casing maps `A`-`Z` to `a`-`z`. -/
def toLowerCase (s : String) : String :=
  ⟨s.data.map Char.toLower⟩

/-- Model of `String.prototype.includes`: `pattern` occurs in `s` as a contiguous substring. -/
def includes (s pattern : String) : Bool :=
  decide (pattern.data <:+: s.data)

/-! ## URL filter -/

/-- The method `isValidDocumentationUrl(url)`; `baseUrl` is `this.baseUrl`. The `try`
block throws only in `new URL(url)`, where the `catch` returns false. -/
def isValidDocumentationUrl (parseUrl : String → Option ParsedUrl) (o : Options)
    (baseUrl : String) (url : String) : Bool :=
  match parseUrl url with
  | none => false
  | some parsedUrl =>
    let path := toLowerCase parsedUrl.pathname
    if parsedUrl.origin ≠ baseUrl then false
    else if (excludePatterns o).any (fun pattern => includes path pattern) then false
    else if (includePatterns o).length > 0 then
      if !((includePatterns o).any (fun pattern => includes path pattern)) then false
      else true
    else true

/-! ## Crawl controller -/

/-- The body of `links.forEach(link => ...)` in `crawlPage`. -/
def enqueueLink {σ : Type} (parseUrl : String → Option ParsedUrl) (o : Options)
    (depth : Nat) (s : Crawler σ) (link : String) : Crawler σ :=
  if !s.visited.contains link && isValidDocumentationUrl parseUrl o s.baseUrl link then
    { s with
      queue := s.queue ++ [{ url := link, depth := depth + 1 }]
      trace := { s.trace with pushed := s.trace.pushed ++ [{ url := link, depth := depth + 1 }] } }
  else s

/-- The method `crawlPage(url, depth)`. A rejected `getPageContent` leaves through the outer
`catch`, a rejected `getPageLinks` through the inner one. -/
def crawlPage {σ : Type} (sc : Scraper σ) (parseUrl : String → Option ParsedUrl)
    (o : Options) (s : Crawler σ) (url : String) (depth : Nat) : Crawler σ :=
  if s.visited.contains url then s
  else
    let s1 : Crawler σ :=
      { s with
        visited := s.visited ++ [url]
        trace := { s.trace with fetched := s.trace.fetched ++ [url] } }
    match sc.getPageContent s1.world url with
    | (w, none) => { s1 with world := w }
    | (w, some content) =>
      let pageData : PageData :=
        { url := url, depth := depth, title := content.title, content := content.text,
          html := content.html, headings := content.headings,
          codeBlocks := content.codeBlocks, links := content.links,
          navigation := content.navigation, timestamp := sc.now w }
      let s2 : Crawler σ := { s1 with world := w, pages := s1.pages ++ [pageData] }
      if (depth : Int) < depthLimit o then
        match sc.getPageLinks s2.world url s2.baseUrl with
        | (w2, none) => { s2 with world := w2 }
        | (w2, some links) =>
          links.foldl (enqueueLink parseUrl o depth)
            { s2 with
              world := w2
              trace := { s2.trace with discovered := s2.trace.discovered ++ [(url, links)] } }
      else s2

/-- The loop test `this.queue.length > 0 && this.pages.length < maxPages`. -/
def loopCond {σ : Type} (o : Options) (s : Crawler σ) : Bool :=
  decide (s.queue.length > 0) && decide ((s.pages.length : Int) < maxPagesLimit o)

/-- One pass through the body of the `while` loop (the state is unchanged when the
queue is empty, where the loop test is false). -/
def loopBody {σ : Type} (sc : Scraper σ) (parseUrl : String → Option ParsedUrl)
    (o : Options) (s : Crawler σ) : Crawler σ :=
  match s.queue with
  | [] => s
  | current :: rest =>
    let s1 : Crawler σ := { s with queue := rest }
    if s1.visited.contains current.url || decide ((current.depth : Int) > depthLimit o) then s1
    else crawlPage sc parseUrl o s1 current.url current.depth

/-- The `while` loop of `crawl`, with fuel: `none` when the fuel runs out before the
loop test fails. -/
def crawlLoop {σ : Type} (sc : Scraper σ) (parseUrl : String → Option ParsedUrl)
    (o : Options) : Nat → Crawler σ → Option (Crawler σ)
  | fuel, s =>
    if loopCond o s then
      match fuel with
      | 0 => none
      | fuel + 1 => crawlLoop sc parseUrl o fuel (loopBody sc parseUrl o s)
    else some s

/-- The state after `n` passes of the loop (fewer when the loop test fails earlier). -/
def crawlIter {σ : Type} (sc : Scraper σ) (parseUrl : String → Option ParsedUrl)
    (o : Options) : Nat → Crawler σ → Crawler σ
  | 0, s => s
  | n + 1, s =>
    if loopCond o s then crawlIter sc parseUrl o n (loopBody sc parseUrl o s) else s

/-- The method `initialize(startUrl)`: `this.baseUrl = new URL(startUrl).origin`, which throws when
the seed does not parse. The scraper it installs is the parameter `sc` of `crawl`. -/
def initCrawler {σ : Type} (parseUrl : String → Option ParsedUrl) (s : Crawler σ)
    (startUrl : String) : Option (Crawler σ) :=
  match parseUrl startUrl with
  | none => none
  | some u => some { s with baseUrl := u.origin }

/-- The seeding statement `this.queue.push({ url: startUrl, depth: 0 })`. -/
def pushSeed {σ : Type} (s : Crawler σ) (startUrl : String) : Crawler σ :=
  { s with
    queue := s.queue ++ [{ url := startUrl, depth := 0 }]
    trace := { s.trace with pushed := s.trace.pushed ++ [{ url := startUrl, depth := 0 }] } }

/-- How a call of `crawl` ends. -/
inductive CrawlResult (σ : Type) where
  | outOfFuel : CrawlResult σ
  | raised : CrawlResult σ
  | returned : Crawler σ → CrawlResult σ

/-- The method `crawl(startUrl)`: the final controller state, whose `pages` is the value
returned. It raises only when `initialize` does; `scraper.close()` in the `finally`
block only logs. -/
def crawl {σ : Type} (sc : Scraper σ) (parseUrl : String → Option ParsedUrl)
    (o : Options) (fuel : Nat) (s : Crawler σ) (startUrl : String) : CrawlResult σ :=
  match initCrawler parseUrl s startUrl with
  | none => CrawlResult.raised
  | some s1 =>
    match crawlLoop sc parseUrl o fuel (pushSeed s1 startUrl) with
    | none => CrawlResult.outOfFuel
    | some s2 => CrawlResult.returned s2

/-- The page records returned by `crawl`, when it returns. -/
def CrawlResult.pages {σ : Type} : CrawlResult σ → Option (List PageData)
  | CrawlResult.returned s => some s.pages
  | _ => none

/-! ## The direct HTTP scraper -/

/-- The world of a `SimpleScraper`: the state of the network and, as instrumentation,
the URLs requested through `fetch`, in order. -/
structure SimpleWorld (ν : Type) where
  net : ν
  requests : List String

/-- The method `SimpleScraper.getPageContent(url)`: one HTTP request followed by `extractContent`.
`fetchPage` is the network with the HTML extraction applied; it answers `none` when the
request fails, the response is not ok, or the extraction throws. -/
def SimpleScraper.getPageContent {ν : Type} (fetchPage : ν → String → ν × Option PageContent)
    (w : SimpleWorld ν) (url : String) : SimpleWorld ν × Option PageContent :=
  match fetchPage w.net url with
  | (n, r) => ({ net := n, requests := w.requests ++ [url] }, r)

/-- The method `SimpleScraper.getPageLinks(url, baseUrl)`. `resolveUrl href base` is
`new URL(href, base).href`; a link whose resolution or parsing throws is skipped, and a
failed fetch gives the empty list. -/
def SimpleScraper.getPageLinks {ν : Type} (fetchPage : ν → String → ν × Option PageContent)
    (parseUrl : String → Option ParsedUrl) (resolveUrl : String → String → Option String)
    (w : SimpleWorld ν) (url baseUrl : String) : SimpleWorld ν × Option (List String) :=
  match SimpleScraper.getPageContent fetchPage w url with
  | (w1, none) => (w1, some [])
  | (w1, some content) =>
    (w1, some (content.links.filterMap (fun link =>
      match resolveUrl link.href baseUrl with
      | none => none
      | some fullUrl =>
        match parseUrl fullUrl with
        | none => none
        | some parsedUrl =>
          match parseUrl baseUrl with
          | none => none
          | some base => if parsedUrl.origin = base.origin then some fullUrl else none)))

/-- A `SimpleScraper` as the controller sees it. -/
def simpleScraper {ν : Type} (fetchPage : ν → String → ν × Option PageContent)
    (parseUrl : String → Option ParsedUrl) (resolveUrl : String → String → Option String)
    (clock : ν → String) : Scraper (SimpleWorld ν) :=
  { getPageContent := SimpleScraper.getPageContent fetchPage
    getPageLinks := SimpleScraper.getPageLinks fetchPage parseUrl resolveUrl
    now := fun w => clock w.net }

/-! ## A small site used for the concrete runs -/

/-- The constructor `new URL(x)` on the URLs of the example site `https://x.com`. -/
def demoParseUrl (x : String) : Option ParsedUrl :=
  [("https://x.com", ParsedUrl.mk "https://x.com" "/"),
   ("https://x.com/docs/a", ParsedUrl.mk "https://x.com" "/docs/a"),
   ("https://x.com/docs/b", ParsedUrl.mk "https://x.com" "/docs/b"),
   ("https://x.com/blog/post", ParsedUrl.mk "https://x.com" "/blog/post")].lookup x

/-- The value `new URL(href, base).href` on the example site: its links are absolute already. -/
def demoResolveUrl (href : String) (_base : String) : Option String :=
  (demoParseUrl href).map (fun _ => href)

/-- The content served for page `a`: it links to page `b` twice and to a blog post. -/
def demoContentA : PageContent :=
  { title := "A", html := "", text := "page a", headings := [], codeBlocks := [],
    links := [⟨"https://x.com/docs/b", "b"⟩, ⟨"https://x.com/docs/b", "b again"⟩,
      ⟨"https://x.com/blog/post", "post"⟩],
    navigation := [] }

/-- The content served for page `b`, which links back to page `a`. -/
def demoContentB : PageContent :=
  { title := "B", html := "", text := "page b", headings := [], codeBlocks := [],
    links := [⟨"https://x.com/docs/a", "a"⟩], navigation := [] }

/-- The example network: page `a` is served, page `b` is served unless `bFails`, every
other request fails. -/
def demoFetch (bFails : Bool) (n : Unit) (url : String) : Unit × Option PageContent :=
  if url = "https://x.com/docs/a" then (n, some demoContentA)
  else if url = "https://x.com/docs/b" then (n, if bFails then none else some demoContentB)
  else (n, none)

/-- The example site behind a `SimpleScraper`. -/
def demoScraper (bFails : Bool) : Scraper (SimpleWorld Unit) :=
  simpleScraper (demoFetch bFails) demoParseUrl demoResolveUrl (fun _ => "t")

/-- The world before the first request. -/
def demoWorld : SimpleWorld Unit :=
  { net := (), requests := [] }

/-- Options of the example runs: the given depth and page limit, `/blog` excluded. -/
def demoOptions (depth maxPages : Int) : Options :=
  { depth := depth, maxPages := maxPages, excludePatterns := some ["/blog"],
    includePatterns := none }

/-! ## Characterisations used by the proofs -/

/-- The entries pushed by `links.forEach(...)` in `crawlPage`, given the visited set and
base URL at that point (neither is changed by the pushes). -/
def newEntries (parseUrl : String → Option ParsedUrl) (o : Options) (baseUrl : String)
    (visited : List String) (depth : Nat) (links : List String) : List FrontierEntry :=
  (links.filter (fun link =>
      !visited.contains link && isValidDocumentationUrl parseUrl o baseUrl link)).map
    (fun link => { url := link, depth := depth + 1 })

/-- The record `crawlPage(url, depth)` stores for a fetched `content`. -/
def pageDataOf (url : String) (depth : Nat) (content : PageContent) (timestamp : String) :
    PageData :=
  { url := url, depth := depth, title := content.title, content := content.text,
    html := content.html, headings := content.headings, codeBlocks := content.codeBlocks,
    links := content.links, navigation := content.navigation, timestamp := timestamp }


/-- Termination weight of a frontier entry: the number of levels left below it, plus one;
`0` for an entry deeper than the depth limit. -/
def entryWeight (o : Options) (e : FrontierEntry) : Nat :=
  (depthLimit o + 1 - (e.depth : Int)).toNat

/-- Termination measure of the loop: the multiset of the weights of the frontier. -/
def queueMeasure {σ : Type} (o : Options) (s : Crawler σ) : Multiset Nat :=
  ↑(s.queue.map (entryWeight o))

/-- Invariant of the visited set: every stored record's URL is visited, no two records
share a URL, and the URLs fetched by `crawlPage` are the visited set, each once. -/
def VisitInv {σ : Type} (s : Crawler σ) : Prop :=
  (∀ p ∈ s.pages, p.url ∈ s.visited) ∧
    s.pages.Pairwise (fun p q => p.url ≠ q.url) ∧
    s.trace.fetched = s.visited ∧ s.visited.Nodup

/-- The string `s` contains `pattern` as a substring: `s = a ++ pattern ++ b` for some
strings `a` and `b`. -/
def ContainsSubstring (s pattern : String) : Prop :=
  ∃ a b : String, s = a ++ pattern ++ b

/-- Every entry pushed after the seed passed the URL filter. -/
def PushInv {σ : Type} (parseUrl : String → Option ParsedUrl) (o : Options)
    (s : Crawler σ) : Prop :=
  s.trace.pushed ≠ [] ∧
    ∀ e ∈ s.trace.pushed.tail, isValidDocumentationUrl parseUrl o s.baseUrl e.url = true

/-- Breadth-first invariant: the frontier and the records are sorted by depth, the
frontier spans at most two consecutive depths, and no record is deeper than a frontier
entry. -/
def BfsInv {σ : Type} (s : Crawler σ) : Prop :=
  s.queue.Pairwise (fun a b => a.depth ≤ b.depth) ∧
    (∀ a ∈ s.queue, ∀ b ∈ s.queue, b.depth ≤ a.depth + 1) ∧
    s.pages.Pairwise (fun p q => p.depth ≤ q.depth) ∧
    (∀ p ∈ s.pages, ∀ e ∈ s.queue, p.depth ≤ e.depth)

/-- Link discovery on one of the records `pages` answered a list containing `url`, and
`depth` is one more than that record's depth. -/
def HasParent (pages : List PageData) (discovered : List (String × List String))
    (url : String) (depth : Nat) : Prop :=
  ∃ q ∈ pages, ∃ links : List String,
    (q.url, links) ∈ discovered ∧ url ∈ links ∧ depth = q.depth + 1

/-- Depth-accounting invariant for a crawl seeded with `seed`. -/
def DepthInv {σ : Type} (seed : String) (s : Crawler σ) : Prop :=
  (seed ∈ s.visited ∨ ((∀ e ∈ s.queue, e = { url := seed, depth := 0 }) ∧ s.pages = [])) ∧
    (∀ e ∈ s.queue, e = { url := seed, depth := 0 } ∨
      (e.url ≠ seed ∧ HasParent s.pages s.trace.discovered e.url e.depth)) ∧
    (∀ (before : List PageData) (p : PageData) (after : List PageData),
      s.pages = before ++ p :: after →
      (p.url = seed ∧ p.depth = 0) ∨
        (p.url ≠ seed ∧ HasParent before s.trace.discovered p.url p.depth))

/-! ## A page with a relative link -/

/-- The constructor `new URL(x)` on the URLs of the example site `https://ex.com`. -/
def exParseUrl (x : String) : Option ParsedUrl :=
  [("https://ex.com", ParsedUrl.mk "https://ex.com" "/"),
   ("https://ex.com/docs/a/", ParsedUrl.mk "https://ex.com" "/docs/a/"),
   ("https://ex.com/b", ParsedUrl.mk "https://ex.com" "/b"),
   ("https://ex.com/docs/a/b", ParsedUrl.mk "https://ex.com" "/docs/a/b")].lookup x

/-- The value `new URL(href, base).href` for the relative href `b` of the example: it
replaces the last path segment of the base. -/
def exResolveUrl (href base : String) : Option String :=
  [(("b", "https://ex.com"), "https://ex.com/b"),
   (("b", "https://ex.com/docs/a/"), "https://ex.com/docs/a/b")].lookup (href, base)

/-- The content of the page `https://ex.com/docs/a/`: one link with the relative
href `b`. -/
def exContent : PageContent :=
  { title := "A", html := "", text := "page a", headings := [], codeBlocks := [],
    links := [⟨"b", "b"⟩], navigation := [] }

/-- The example network: only `https://ex.com/docs/a/` is served. -/
def exFetch (n : Unit) (url : String) : Unit × Option PageContent :=
  if url = "https://ex.com/docs/a/" then (n, some exContent) else (n, none)

/-- The example site behind a `SimpleScraper`. -/
def exScraper : Scraper (SimpleWorld Unit) :=
  simpleScraper exFetch exParseUrl exResolveUrl (fun _ => "t")

/-- Options of the example: depth 1, no exclude and no include pattern. -/
def exOptions : Options :=
  { depth := 1, maxPages := 5, excludePatterns := some [], includePatterns := none }

/-- Invariant for link resolution: the base URL is `origin`, and every discovered link
is some href resolved against `origin`. -/
def ResolveInv {σ : Type} (resolveUrl : String → String → Option String) (origin : String)
    (s : Crawler σ) : Prop :=
  s.baseUrl = origin ∧
    ∀ x ∈ s.trace.discovered, ∀ l ∈ x.2, ∃ href : String, resolveUrl href origin = some l

/-! ## Configuration check and entry point -/

/-- The options object handed to `generateAgent`. A field is `none` when the property is
absent; `depth` and `maxPages` are numbers. -/
structure ConfigOptions where
  url : Option String
  depth : Option Int
  maxPages : Option Int
  excludePatterns : Option (List String)
  includePatterns : Option (List String)
deriving DecidableEq

/-- The crawler fields of `DEFAULT_CONFIG` (src/cli/config.js); it has no `depth`. -/
def DEFAULT_CONFIG : Options :=
  { depth := 0
    maxPages := 50
    excludePatterns := some ["/changelog", "/blog", "/news", "404", "search", "login", "signup"]
    includePatterns := some ["/docs", "/documentation", "/api", "/guide", "/tutorial",
      "/reference"] }

/-- The function `validateConfig(options)`. `!options.url` holds for an absent and for
an empty URL; `new URL(undefined)` parses the string `undefined`; `options.depth` is
truthy when it is a number other than zero, and an integer depth is never `NaN`. -/
def validateConfig (parseUrl : String → Option ParsedUrl) (options : ConfigOptions) :
    List String :=
  let errors : List String := []
  let errors :=
    if options.url = none ∨ options.url = some "" then errors ++ ["URL is required"]
    else errors
  let errors :=
    match parseUrl (options.url.getD "undefined") with
    | none => errors ++ ["Invalid URL format"]
    | some _ => errors
  let errors :=
    match options.depth with
    | none => errors
    | some d =>
      if d ≠ 0 ∧ d < 1 then errors ++ ["Depth must be a positive number"] else errors
  errors

/-- The options of the `DocumentationCrawler` built by `generateAgent`:
`{ ...DEFAULT_CONFIG, ...options }`. -/
def mergedOptions (options : ConfigOptions) : Options :=
  { depth := options.depth.getD DEFAULT_CONFIG.depth
    maxPages := options.maxPages.getD DEFAULT_CONFIG.maxPages
    excludePatterns :=
      match options.excludePatterns with
      | some l => some l
      | none => DEFAULT_CONFIG.excludePatterns
    includePatterns :=
      match options.includePatterns with
      | some l => some l
      | none => DEFAULT_CONFIG.includePatterns }

/-- How `generateAgent` leaves its validation and crawling phase. `configError` carries
the untouched world: no crawler was built and no request made. -/
inductive GenerateResult (σ : Type) where
  | configError : List String → σ → GenerateResult σ
  | crawlRaised : GenerateResult σ
  | outOfFuel : GenerateResult σ
  | crawled : Crawler σ → GenerateResult σ

/-- The function `generateAgent(options)` up to the end of its crawling phase: it throws
on configuration errors, otherwise builds a crawler with the merged options and crawls
`options.url`. The later phases only read the pages collected. -/
def generateAgent {σ : Type} (sc : Scraper σ) (parseUrl : String → Option ParsedUrl)
    (fuel : Nat) (w : σ) (options : ConfigOptions) : GenerateResult σ :=
  let configErrors := validateConfig parseUrl options
  if configErrors.length > 0 then GenerateResult.configError configErrors w
  else
    match crawl sc parseUrl (mergedOptions options) fuel (Crawler.fresh w)
        (options.url.getD "undefined") with
    | CrawlResult.raised => GenerateResult.crawlRaised
    | CrawlResult.outOfFuel => GenerateResult.outOfFuel
    | CrawlResult.returned s => GenerateResult.crawled s

/-! ## JavaScript strings

A JavaScript string is modelled by a Lean string, one character per UTF-16 code unit
(text outside the Basic Multilingual Plane is outside the model), so `length`,
`substring` and the regular expressions below count characters. -/

/-- The class `\s` of a regular expression, which is also what `trim` strips: the
white space and line terminator characters of ECMAScript. -/
def isJsWhitespace (c : Char) : Bool :=
  (9 ≤ c.toNat && c.toNat ≤ 13) || c.toNat = 32 || c.toNat = 160 || c.toNat = 5760 ||
    (8192 ≤ c.toNat && c.toNat ≤ 8202) || c.toNat = 8232 || c.toNat = 8233 ||
    c.toNat = 8239 || c.toNat = 8287 || c.toNat = 12288 || c.toNat = 65279

/-- The class `\w`: `[A-Za-z0-9_]`. -/
def isWordChar (c : Char) : Bool :=
  (65 ≤ c.toNat && c.toNat ≤ 90) || (97 ≤ c.toNat && c.toNat ≤ 122) ||
    (48 ≤ c.toNat && c.toNat ≤ 57) || c.toNat = 95

/-- The class `\d`: `[0-9]`. -/
def isDigit (c : Char) : Bool :=
  48 ≤ c.toNat && c.toNat ≤ 57

/-- The class `[^\n]`. -/
def isNotNewline (c : Char) : Bool :=
  c.toNat != 10

/-- The class `[.!?]`. -/
def isSentenceEnd (c : Char) : Bool :=
  c.toNat = 46 || c.toNat = 33 || c.toNat = 63

/-- Model of `String.prototype.trim`. -/
def jsTrim (s : String) : String :=
  ⟨((s.data.dropWhile isJsWhitespace).reverse.dropWhile isJsWhitespace).reverse⟩

/-- Model of `s.substring(0, n)`. -/
def jsSubstring (s : String) (n : Nat) : String :=
  ⟨s.data.take n⟩

/-- Model of `String.prototype.toUpperCase` on ASCII text (the only text it is applied
to here is a match of `GET|POST|PUT|DELETE|PATCH`). -/
def toUpperCase (s : String) : String :=
  ⟨s.data.map Char.toUpper⟩

/-- Splitting at every maximal run of characters of class `p`, as `s.split(/[p]+/)`
does: `cur` holds the piece being read, reversed, and `inRun` tells that the previous
character was a separator. A separator at either end gives an empty piece there. -/
def splitOnRunsAux (p : Char → Bool) : List Char → Bool → List Char → List (List Char)
  | cur, _, [] => [cur.reverse]
  | cur, inRun, c :: cs =>
    if p c then
      if inRun then splitOnRunsAux p [] true cs
      else cur.reverse :: splitOnRunsAux p [] true cs
    else splitOnRunsAux p (c :: cur) false cs

/-- Model of `s.split(/[p]+/)` for a character class `p`. -/
def splitOnRuns (p : Char → Bool) (s : String) : List String :=
  (splitOnRunsAux p [] false s.data).map String.mk

/-- Splitting at every single character of class `p`, as `s.split(/[p]/)` does. -/
def splitOnCharsAux (p : Char → Bool) : List Char → List Char → List (List Char)
  | cur, [] => [cur.reverse]
  | cur, c :: cs =>
    if p c then cur.reverse :: splitOnCharsAux p [] cs
    else splitOnCharsAux p (c :: cur) cs

/-- Model of `s.split(/[p]/)` and, for a one-character class, of `s.split(c)`. -/
def splitOnChars (p : Char → Bool) (s : String) : List String :=
  (splitOnCharsAux p [] s.data).map String.mk

/-- Replacing every maximal run of characters of class `p` by the text `repl`, as
`s.replace(/[p]+/g, repl)` does. -/
def replaceRunsAux (p : Char → Bool) (repl : List Char) : Bool → List Char → List Char
  | _, [] => []
  | inRun, c :: cs =>
    if p c then
      if inRun then replaceRunsAux p repl true cs
      else repl ++ replaceRunsAux p repl true cs
    else c :: replaceRunsAux p repl false cs

/-- Model of `s.replace(/[p]+/g, repl)` for a character class `p`. -/
def replaceRuns (p : Char → Bool) (repl : String) (s : String) : String :=
  ⟨replaceRunsAux p repl.data false s.data⟩

/-- Model of `Array.prototype.join`. -/
def jsJoin (sep : String) : List String → String
  | [] => ""
  | [a] => a
  | a :: b :: rest => a ++ sep ++ jsJoin sep (b :: rest)

/-! ## Regular expressions

A backtracking matcher with the priorities of ECMAScript: alternatives left to right,
`*` greedy. `run r s caps` lists, best first, the ways `r` can match a beginning of
`s`, each as the input left over and the captures made. -/

/-- The patterns used by the extractor. `cls p` matches one character of class `p`. -/
inductive Regex where
  | eps : Regex
  | cls : (Char → Bool) → Regex
  | seq : Regex → Regex → Regex
  | alt : Regex → Regex → Regex
  | star : Regex → Regex
  | group : Nat → Regex → Regex

/-- The captures of a match: group number and captured text. -/
abbrev Captures := List (Nat × List Char)

/-- Greedy iteration of a matcher `f`: at most `fuel` rounds, each of which must consume
input (an empty round is rejected, as in ECMAScript). Called with `fuel` the length
of the input, which no iteration count can exceed. -/
def Regex.starRun (f : List Char → Captures → List (List Char × Captures)) :
    Nat → List Char → Captures → List (List Char × Captures)
  | 0, s, caps => [(s, caps)]
  | fuel + 1, s, caps =>
    ((f s caps).filter (fun r => decide (r.1.length < s.length))).flatMap
        (fun r => Regex.starRun f fuel r.1 r.2) ++ [(s, caps)]

/-- All ways `r` matches a beginning of `s`, in backtracking order. -/
def Regex.run : Regex → List Char → Captures → List (List Char × Captures)
  | Regex.eps, s, caps => [(s, caps)]
  | Regex.cls _, [], _ => []
  | Regex.cls p, c :: s, caps => if p c then [(s, caps)] else []
  | Regex.seq a b, s, caps => (Regex.run a s caps).flatMap (fun r => Regex.run b r.1 r.2)
  | Regex.alt a b, s, caps => Regex.run a s caps ++ Regex.run b s caps
  | Regex.star a, s, caps => Regex.starRun (fun s1 c1 => Regex.run a s1 c1) s.length s caps
  | Regex.group i a, s, caps =>
    (Regex.run a s caps).map
      (fun r => (r.1, (i, s.take (s.length - r.1.length)) :: r.2))

/-- The quantifier `+`. -/
def Regex.plus (a : Regex) : Regex :=
  Regex.seq a (Regex.star a)

/-- The quantifier `?`. -/
def Regex.opt (a : Regex) : Regex :=
  Regex.alt a Regex.eps

/-- A sequence of patterns. -/
def Regex.seqs : List Regex → Regex
  | [] => Regex.eps
  | [a] => a
  | a :: rest => Regex.seq a (Regex.seqs rest)

/-- A literal text, matched exactly. -/
def Regex.lit (s : String) : Regex :=
  Regex.seqs (s.data.map (fun c => Regex.cls (fun x => x == c)))

/-- A literal text under the flag `i`. The literals used here are ASCII, for which
ECMAScript matches exactly the two ASCII cases of a letter. -/
def Regex.litCI (s : String) : Regex :=
  Regex.seqs (s.data.map (fun c => Regex.cls (fun x => x == c.toLower || x == c.toUpper)))

/-- One match: the matched text and the captures. -/
structure RegexMatch where
  text : List Char
  captures : Captures

/-- The text of capture group `i` (empty if the group took no part). -/
def RegexMatch.group (m : RegexMatch) (i : Nat) : String :=
  ⟨(m.captures.lookup i).getD []⟩

/-- The preferred match of `r` at the very beginning of `s`, with the input left. -/
def Regex.matchAt (r : Regex) (s : List Char) : Option (RegexMatch × List Char) :=
  match Regex.run r s [] with
  | [] => none
  | res :: _ => some ({ text := s.take (s.length - res.1.length), captures := res.2 }, res.1)

/-- The successive matches of a global pattern over the input still to read, as
`String.prototype.match` collects them: `skip` characters belong to the previous match;
an empty match moves the search on by one character. -/
def Regex.scan (r : Regex) : Nat → List Char → List RegexMatch
  | 0, [] =>
    match Regex.matchAt r [] with
    | none => []
    | some (m, _) => [m]
  | _ + 1, [] => []
  | skip + 1, _ :: s => Regex.scan r skip s
  | 0, c :: s =>
    match Regex.matchAt r (c :: s) with
    | none => Regex.scan r 0 s
    | some (m, _) => m :: Regex.scan r (m.text.length - 1) s

/-- Model of `content.match(pattern) || []` for a pattern with the flag `g`. -/
def jsMatchAll (r : Regex) (content : String) : List String :=
  (Regex.scan r 0 content.data).map (fun m => String.mk m.text)

/-- Model of `pattern.exec(content)` for a pattern with the flag `g`: `s` is the
content from `lastIndex` on; the answer is the first match found from there and the
content from the new `lastIndex` on, which is the end of the match. -/
def Regex.exec (r : Regex) : List Char → Option (RegexMatch × List Char)
  | [] => Regex.matchAt r []
  | c :: s =>
    match Regex.matchAt r (c :: s) with
    | some res => some res
    | none => Regex.exec r s

/-! ## Content extractor: records -/

/-- What the extractor takes from the JavaScript runtime and from cheerio. `toLowerCase`
is `String.prototype.toLowerCase`; the other fields answer the selector queries made on
a page's HTML, in document order. The first three selectors are constants of the source
and their queries succeed; the selector of the last one is built from a heading's id, and
cheerio throws when the text so built is no selector it accepts. -/
structure Host where
  /-- The method `String.prototype.toLowerCase`. -/
  toLowerCase : String → String
  /-- For `$('code, .method, .function')`: each element's text and its parent's text. -/
  methodElements : String → List (String × String)
  /-- For `$('table tr, .param, .parameter')`: each element's text. -/
  parameterElements : String → List String
  /-- For `$('pre code')`: each element's text, then the texts of the previous and of
  the next sibling of its parent. -/
  preCodeElements : String → List (String × String × String)
  /-- For `$('#' + id)`, the selection `heading` and the successive values of
  `heading.next()`, `.next()`, ...: `none` when cheerio throws on the selector `'#' + id`
  (as it does for `#sec:intro`, an id being interpolated unescaped into the selector);
  otherwise the non-empty selections reached by `next()`, each with its text and whether
  it `is('h1, h2, h3, h4, h5, h6')`; empty when the selector matches no element. -/
  sectionSiblings : String → String → Option (List (String × Bool))

/-- A record of the Overview bucket. -/
structure OverviewRecord where
  title : String
  url : String
  content : String
  headings : List Heading
  keyPoints : List String
deriving DecidableEq

/-- An entry of `methods`. -/
structure MethodInfo where
  name : String
  signature : String
  description : String
deriving DecidableEq

/-- An entry of `parameters`; `description` is `none` when `split(...)[1]` is undefined. -/
structure ParameterInfo where
  name : String
  description : Option String
  required : Bool
deriving DecidableEq

/-- An entry made by `extractCodeExamples`. -/
structure CodeExample where
  language : String
  code : String
  runnable : Bool
deriving DecidableEq

/-- An entry of `endpoints`; `path` is `none` when the match has no second part. -/
structure Endpoint where
  method : String
  path : Option String
deriving DecidableEq

/-- A record of the APIs bucket. -/
structure ApiRecord where
  title : String
  url : String
  methods : List MethodInfo
  parameters : List ParameterInfo
  examples : List CodeExample
  endpoints : List Endpoint
deriving DecidableEq

/-- A record of the Examples bucket. -/
structure ExampleRecord where
  title : String
  language : String
  code : String
  description : String
  source : String
  category : String
deriving DecidableEq

/-- A record of the Concepts bucket. -/
structure ConceptRecord where
  title : String
  level : Nat
  content : String
  url : String
  tags : List String
deriving DecidableEq

/-- A record of the Patterns bucket; `type` is the indicator. -/
structure PatternRecord where
  type : String
  description : String
  source : String
  examples : List CodeExample
deriving DecidableEq

/-- A record of the Troubleshooting bucket. -/
structure TroubleshootingRecord where
  title : String
  url : String
  issues : List String
  solutions : List String
  errorCodes : List String
deriving DecidableEq

/-- An entry of a configuration record's `options`. -/
structure ConfigOption where
  name : String
  value : String
  description : String
deriving DecidableEq

/-- A record of the Configuration bucket. -/
structure ConfigurationRecord where
  title : String
  url : String
  options : List ConfigOption
  examples : List CodeExample
  prerequisites : List String
deriving DecidableEq

/-- The knowledge aggregate built by `processPages`. -/
structure Knowledge where
  overview : List OverviewRecord
  apis : List ApiRecord
  examples : List ExampleRecord
  concepts : List ConceptRecord
  patterns : List PatternRecord
  troubleshooting : List TroubleshootingRecord
  configuration : List ConfigurationRecord
deriving DecidableEq

/-! ## Content extractor: helper methods -/

/-- The method `isOverviewPage(url)`. -/
def isOverviewPage (url : String) : Bool :=
  ["/introduction", "/getting-started", "/overview", "/guide", "/docs/", "/docs/index"].any
    (fun pattern => includes url pattern)

/-- The method `cleanContent(content)`:
`content.replace(/\n+/g, '\n').replace(/\s+/g, ' ').trim()`. -/
def cleanContent (content : String) : String :=
  jsTrim (replaceRuns isJsWhitespace " " (replaceRuns (fun c => c.toNat == 10) "\n" content))

/-- The method `extractKeyPoints(content)`. The cue words are looked up in the sentence
as it stands, without lower-casing. -/
def extractKeyPoints (content : String) : List String :=
  let sentences := splitOnRuns isSentenceEnd content
  ((sentences.filter (fun sentence =>
      decide (sentence.length > 20) &&
        (includes sentence "important" || includes sentence "note" ||
          includes sentence "remember"))).map
    (fun sentence => jsTrim sentence)).take 5

/-- The method `extractMethods(html)`. -/
def extractMethods (host : Host) (html : String) : List MethodInfo :=
  (host.methodElements html).foldl
    (fun methods el =>
      if includes el.1 "(" && includes el.1 ")" then
        methods ++ [{ name := jsTrim ((splitOnChars (fun c => c == '(') el.1).headD ""),
                      signature := el.1, description := el.2 }]
      else methods)
    []

/-- The method `extractParameters(html)`. -/
def extractParameters (host : Host) (html : String) : List ParameterInfo :=
  (host.parameterElements html).foldl
    (fun parameters text =>
      if includes text ":" || includes text "=" then
        parameters ++
          [{ name := jsTrim ((splitOnChars (fun c => c == ':' || c == '=') text).headD ""),
             description :=
               ((splitOnChars (fun c => c == ':' || c == '=') text).get? 1).map jsTrim,
             required := includes text "required" || includes text "*" }]
      else parameters)
    []

/-- The method `isRunnableCode(code, language)`. -/
def isRunnableCode (host : Host) (code language : String) : Bool :=
  if language = "" then false
  else
    ["javascript", "js", "python", "bash", "sh"].contains (host.toLowerCase language) &&
      decide (code.length > 10) && !includes code "..."

/-- The method `extractCodeExamples(codeBlocks)`. -/
def extractCodeExamples (host : Host) (codeBlocks : List CodeBlock) : List CodeExample :=
  codeBlocks.map (fun block =>
    { language := if block.language = "" then "text" else block.language,
      code := block.code,
      runnable := isRunnableCode host block.code block.language })

/-- The pattern of `extractEndpoints`, with the flags `gi`: the group
`(GET|POST|PUT|DELETE|PATCH)`, then `\s+`, then the group of a slash followed by one or
more characters that are a word character, a slash or a hyphen. -/
def endpointRegex : Regex :=
  Regex.seqs
    [Regex.group 1
      (Regex.alt (Regex.litCI "GET") (Regex.alt (Regex.litCI "POST")
        (Regex.alt (Regex.litCI "PUT") (Regex.alt (Regex.litCI "DELETE")
          (Regex.litCI "PATCH"))))),
     Regex.plus (Regex.cls isJsWhitespace),
     Regex.group 2 (Regex.seq (Regex.cls (fun c => c == '/'))
       (Regex.plus (Regex.cls (fun c => isWordChar c || c == '/' || c == '-'))))]

/-- The method `extractEndpoints(content)`. -/
def extractEndpoints (content : String) : List Endpoint :=
  (jsMatchAll endpointRegex content).map (fun m =>
    let parts := splitOnRuns isJsWhitespace m
    { method := toUpperCase (parts.headD ""), path := parts.get? 1 })

/-- The method `generateExampleTitle(pageTitle, codeBlock)`. -/
def generateExampleTitle (pageTitle : String) (codeBlock : CodeBlock) : String :=
  if codeBlock.language ≠ "" then pageTitle ++ " - " ++ codeBlock.language ++ " Example"
  else pageTitle ++ " - Code Example"

/-- The method `findExampleDescription(html, codeBlock)`. -/
def findExampleDescription (host : Host) (html : String) (codeBlock : CodeBlock) : String :=
  let description := (host.preCodeElements html).foldl
    (fun description el =>
      if includes el.1 (jsSubstring codeBlock.code 50) then
        if el.2.1 ≠ "" then el.2.1 else if el.2.2 ≠ "" then el.2.2 else ""
      else description)
    ""
  jsSubstring description 200

/-- The method `categorizeExample(url, codeBlock)`. -/
def categorizeExample (url : String) (codeBlock : CodeBlock) : String :=
  if includes url "api" then "api"
  else if includes url "tutorial" then "tutorial"
  else if includes url "guide" then "guide"
  else if codeBlock.language = "javascript" ∨ codeBlock.language = "js" then "javascript"
  else if codeBlock.language = "python" then "python"
  else "general"

/-- The method `extractSectionContent(html, headingId)`; `none` when it throws, which it
does when `$('#' + headingId)` does. The selector is built and queried only for a truthy
(non-empty) id. -/
def extractSectionContent (host : Host) (html headingId : String) : Option String :=
  if headingId ≠ "" then
    match host.sectionSiblings html headingId with
    | none => none
    | some siblings =>
      let content :=
        (siblings.takeWhile (fun sib => !sib.2)).foldl
          (fun content sib => content ++ sib.1 ++ " ") ""
      some (jsSubstring (jsTrim content) 500)
  else some (jsSubstring (jsTrim "") 500)

/-- The method `extractTags(title, content)`. -/
def extractTags (host : Host) (title content : String) : List String :=
  ["api", "config", "setup", "tutorial", "guide", "reference"].foldl
    (fun foundTags tag =>
      if includes (host.toLowerCase title) tag || includes (host.toLowerCase content) tag then
        foundTags ++ [tag]
      else foundTags)
    []

/-- The method `extractPatternDescription(content, indicator)`. -/
def extractPatternDescription (host : Host) (content indicator : String) : String :=
  let sentences := splitOnRuns isSentenceEnd content
  let relevantSentences :=
    sentences.filter (fun sentence => includes (host.toLowerCase sentence) indicator)
  jsTrim (jsJoin ". " (relevantSentences.take 2))

/-- The pattern `/word[:\s]+([^\n]+)/gi` for a literal `word`. -/
def labelledLineRegex (word : Regex) : Regex :=
  Regex.seqs
    [word,
     Regex.plus (Regex.cls (fun c => c == ':' || isJsWhitespace c)),
     Regex.group 1 (Regex.plus (Regex.cls isNotNewline))]

/-- The list `issuePatterns` of `extractIssues`. -/
def issuePatterns : List Regex :=
  [labelledLineRegex (Regex.litCI "error"),
   labelledLineRegex (Regex.litCI "problem"),
   labelledLineRegex (Regex.litCI "issue")]

/-- The method `extractIssues(content)`. -/
def extractIssues (content : String) : List String :=
  issuePatterns.foldl
    (fun issues pattern => issues ++ (jsMatchAll pattern content).take 3) []

/-- The list `solutionPatterns` of `extractSolutions`. -/
def solutionPatterns : List Regex :=
  [labelledLineRegex (Regex.litCI "solution"),
   labelledLineRegex (Regex.litCI "fix"),
   labelledLineRegex (Regex.litCI "resolve")]

/-- The method `extractSolutions(content)`. -/
def extractSolutions (content : String) : List String :=
  solutionPatterns.foldl
    (fun solutions pattern => solutions ++ (jsMatchAll pattern content).take 3) []

/-- The pattern `/error\s+(\d{3,4}|[A-Z_]+\d+)/gi`; under the flag `i` the class
`[A-Z_]` also takes the lower-case letters. -/
def errorCodePattern : Regex :=
  Regex.seqs
    [Regex.litCI "error",
     Regex.plus (Regex.cls isJsWhitespace),
     Regex.group 1
       (Regex.alt
         (Regex.seqs [Regex.cls isDigit, Regex.cls isDigit, Regex.cls isDigit,
           Regex.opt (Regex.cls isDigit)])
         (Regex.seq
           (Regex.plus (Regex.cls (fun c =>
             (65 ≤ c.toNat && c.toNat ≤ 90) || (97 ≤ c.toNat && c.toNat ≤ 122) || c == '_')))
           (Regex.plus (Regex.cls isDigit))))]

/-- The method `extractErrorCodes(content)`. -/
def extractErrorCodes (content : String) : List String :=
  jsMatchAll errorCodePattern content

/-- The first pattern of `configPatterns`: `([\w_]+)\s*[=:]\s*([^\n]+)` with the
flag `g`. -/
def keyValuePattern : Regex :=
  Regex.seqs
    [Regex.group 1 (Regex.plus (Regex.cls (fun c => isWordChar c || c == '_'))),
     Regex.star (Regex.cls isJsWhitespace),
     Regex.cls (fun c => c == '=' || c == ':'),
     Regex.star (Regex.cls isJsWhitespace),
     Regex.group 2 (Regex.plus (Regex.cls isNotNewline))]

/-- The second pattern of `configPatterns`: two hyphens followed by
`([\w-]+)\s+([^\n]+)`, with the flag `g`. -/
def flagPattern : Regex :=
  Regex.seqs
    [Regex.lit "--",
     Regex.group 1 (Regex.plus (Regex.cls (fun c => isWordChar c || c == '-'))),
     Regex.plus (Regex.cls isJsWhitespace),
     Regex.group 2 (Regex.plus (Regex.cls isNotNewline))]

/-- The list `configPatterns` of `extractConfigOptions`. -/
def configPatterns : List Regex :=
  [keyValuePattern, flagPattern]

/-- The option pushed for a match: `{ name: match[1], value: match[2].trim(),
description: '' }`. -/
def configOptionOf (m : RegexMatch) : ConfigOption :=
  { name := m.group 1, value := jsTrim (m.group 2), description := "" }

/-- The loop `while ((match = pattern.exec(content)) !== null && options.length < 10)`
of `extractConfigOptions`, with fuel: `s` is the content from `lastIndex` on, and the
answer is `none` when the fuel runs out. -/
def configOptionsLoop (pattern : Regex) :
    Nat → List Char → List ConfigOption → Option (List ConfigOption)
  | fuel, s, options =>
    match Regex.exec pattern s with
    | none => some options
    | some (m, rest) =>
      if options.length < 10 then
        match fuel with
        | 0 => none
        | fuel + 1 =>
          configOptionsLoop pattern fuel rest (options ++ [configOptionOf m])
      else some options

/-- The method `extractConfigOptions(content)`: the loop is run for each pattern in
turn, every pattern starting from the beginning of the content. -/
def extractConfigOptions (fuel : Nat) (content : String) : Option (List ConfigOption) :=
  configPatterns.foldl
    (fun options pattern =>
      match options with
      | none => none
      | some opts => configOptionsLoop pattern fuel content.data opts)
    (some [])

/-- The list `prereqPatterns` of `extractPrerequisites`. -/
def prereqPatterns : List Regex :=
  [labelledLineRegex
    (Regex.seq (Regex.litCI "prerequisite") (Regex.opt (Regex.litCI "s"))),
   labelledLineRegex
    (Regex.seq (Regex.litCI "requirement") (Regex.opt (Regex.litCI "s"))),
   labelledLineRegex
    (Regex.seqs [Regex.litCI "before", Regex.plus (Regex.cls isJsWhitespace),
      Regex.litCI "you", Regex.plus (Regex.cls isJsWhitespace), Regex.litCI "begin"])]

/-- The method `extractPrerequisites(content)`. -/
def extractPrerequisites (content : String) : List String :=
  prereqPatterns.foldl
    (fun prerequisites pattern => prerequisites ++ (jsMatchAll pattern content).take 3) []

/-! ## Content extractor: the seven passes -/

/-- The method `extractOverview(pages)`. -/
def extractOverview (host : Host) (pages : List PageData) : List OverviewRecord :=
  let overviewPages := pages.filter (fun page =>
    isOverviewPage page.url ||
      includes (host.toLowerCase page.title) "getting started" ||
      includes (host.toLowerCase page.title) "introduction")
  overviewPages.map (fun page =>
    { title := page.title, url := page.url, content := cleanContent page.content,
      headings := page.headings, keyPoints := extractKeyPoints page.content })

/-- The method `extractAPIs(pages)`. -/
def extractAPIs (host : Host) (pages : List PageData) : List ApiRecord :=
  let apiPages := pages.filter (fun page =>
    includes page.url "/api" ||
      includes (host.toLowerCase page.title) "api" ||
      includes (host.toLowerCase page.title) "reference")
  apiPages.map (fun page =>
    { title := page.title, url := page.url, methods := extractMethods host page.html,
      parameters := extractParameters host page.html,
      examples := extractCodeExamples host page.codeBlocks,
      endpoints := extractEndpoints page.content })

/-- The method `extractExamples(pages)`: the two nested `forEach` loops push onto
`examples`. -/
def extractExamples (host : Host) (pages : List PageData) : List ExampleRecord :=
  pages.foldl
    (fun examples page =>
      if page.codeBlocks.length > 0 then
        page.codeBlocks.foldl
          (fun examples block =>
            examples ++
              [{ title := generateExampleTitle page.title block,
                 language := block.language,
                 code := block.code,
                 description := findExampleDescription host page.html block,
                 source := page.url,
                 category := categorizeExample page.url block }])
          examples
      else examples)
    []

/-- The method `extractConcepts(pages)`: the two nested `forEach` loops push onto
`concepts`. The record pushed for a heading is built by a call of
`extractSectionContent`; when that call throws nothing catches it, both loops are left
and the method returns nothing (`none`). -/
def extractConcepts (host : Host) (pages : List PageData) : Option (List ConceptRecord) :=
  pages.foldl
    (fun concepts page =>
      page.headings.foldl
        (fun concepts heading =>
          match concepts with
          | none => none
          | some concepts =>
            if heading.level ≤ 3 then
              match extractSectionContent host page.html heading.id with
              | none => none
              | some content =>
                some
                  (concepts ++
                    [{ title := heading.text,
                       level := heading.level,
                       content := content,
                       url := page.url ++ "#" ++ heading.id,
                       tags := extractTags host heading.text page.content }])
            else some concepts)
        concepts)
    (some [])

/-- The list `patternIndicators` of `extractPatterns`. -/
def patternIndicators : List String :=
  ["best practice", "pattern", "convention", "recommended", "should", "avoid", "prefer"]

/-- The method `extractPatterns(pages)`: the two nested `forEach` loops push onto
`patterns`. -/
def extractPatterns (host : Host) (pages : List PageData) : List PatternRecord :=
  pages.foldl
    (fun patterns page =>
      let content := host.toLowerCase page.content
      patternIndicators.foldl
        (fun patterns indicator =>
          if includes content indicator then
            patterns ++
              [{ type := indicator,
                 description := extractPatternDescription host page.content indicator,
                 source := page.url,
                 examples := extractCodeExamples host page.codeBlocks }]
          else patterns)
        patterns)
    []

/-- The method `extractTroubleshooting(pages)`. -/
def extractTroubleshooting (host : Host) (pages : List PageData) :
    List TroubleshootingRecord :=
  let troubleshooting := pages.filter (fun page =>
    includes (host.toLowerCase page.title) "troubleshooting" ||
      includes (host.toLowerCase page.title) "common issues" ||
      includes (host.toLowerCase page.title) "faq" ||
      includes (host.toLowerCase page.content) "error" ||
      includes (host.toLowerCase page.content) "problem")
  troubleshooting.map (fun page =>
    { title := page.title, url := page.url, issues := extractIssues page.content,
      solutions := extractSolutions page.content,
      errorCodes := extractErrorCodes page.content })

/-- Mapping a function that may run out of fuel over a list: `none` as soon as one
element gives `none`. -/
def mapOption {α β : Type} (f : α → Option β) : List α → Option (List β)
  | [] => some []
  | a :: rest =>
    match f a with
    | none => none
    | some b =>
      match mapOption f rest with
      | none => none
      | some bs => some (b :: bs)

/-- The method `extractConfiguration(pages)`; `fuel` is the fuel given to each run of
`extractConfigOptions`. -/
def extractConfiguration (host : Host) (fuel : Nat) (pages : List PageData) :
    Option (List ConfigurationRecord) :=
  let configPages := pages.filter (fun page =>
    includes (host.toLowerCase page.title) "config" ||
      includes (host.toLowerCase page.title) "setup" ||
      includes (host.toLowerCase page.title) "installation")
  mapOption
    (fun page =>
      match extractConfigOptions fuel page.content with
      | none => none
      | some options =>
        some { title := page.title, url := page.url, options := options,
               examples := extractCodeExamples host page.codeBlocks,
               prerequisites := extractPrerequisites page.content })
    configPages

/-- The method `processPages(pages)`: the seven extractors run in the order of the object
literal, and there is no result (`none`) when `extractConcepts` throws or
`extractConfiguration` does not return. -/
def processPages (host : Host) (fuel : Nat) (pages : List PageData) : Option Knowledge :=
  match extractConcepts host pages with
  | none => none
  | some concepts =>
    match extractConfiguration host fuel pages with
    | none => none
    | some configuration =>
      some
        { overview := extractOverview host pages
          apis := extractAPIs host pages
          examples := extractExamples host pages
          concepts := concepts
          patterns := extractPatterns host pages
          troubleshooting := extractTroubleshooting host pages
          configuration := configuration }

/-! ## Pages used for the concrete runs of the extractor -/

/-- A host for ASCII pages without markup: lower-casing of ASCII text, and no element
answered to any selector. -/
def plainHost : Host :=
  { toLowerCase := toLowerCase
    methodElements := fun _ => []
    parameterElements := fun _ => []
    preCodeElements := fun _ => []
    sectionSiblings := fun _ _ => some [] }

/-- A host as `plainHost`, on which cheerio throws on the selector `#sec:intro`. -/
def colonHost : Host :=
  { toLowerCase := toLowerCase
    methodElements := fun _ => []
    parameterElements := fun _ => []
    preCodeElements := fun _ => []
    sectionSiblings := fun _ headingId => if headingId = "sec:intro" then none else some [] }

/-- A page whose second heading carries the id `sec:intro`, as the scraper records it for
`<h2 id="sec:intro">Introduction</h2>`. -/
def colonPage : PageData :=
  { url := "https://ex.com/guide", depth := 0, title := "Guide",
    content := "Guide Introduction", html := "",
    headings := [{ level := 1, text := "Guide", id := "guide" },
                 { level := 2, text := "Introduction", id := "sec:intro" }],
    codeBlocks := [], links := [], navigation := [], timestamp := "t" }

/-- The page of the "Getting Started" scenario. -/
def gettingStartedPage : PageData :=
  { url := "https://ex.com/docs", depth := 0, title := "Getting Started",
    content := "Remember: always configure the client first.", html := "",
    headings := [{ level := 1, text := "Getting Started", id := "getting-started" }],
    codeBlocks := [], links := [], navigation := [], timestamp := "t" }

/-- The page of the `/api/users` scenario. -/
def apiUsersPage : PageData :=
  { url := "https://ex.com/api/users", depth := 0, title := "Users",
    content := "GET /users returns list", html := "", headings := [],
    codeBlocks := [{ code := "GET /users returns list", language := "javascript" }],
    links := [], navigation := [], timestamp := "t" }

/-! ## Agent generator: the knowledge base -/

/-- Model of `s.lastIndexOf(c)` for a one-character text: the last position of `c`, or
`-1`. -/
def jsLastIndexOf (s : String) (c : Char) : Int :=
  match s.data.reverse.indexOf? c with
  | none => -1
  | some i => (s.data.length : Int) - 1 - (i : Int)

/-- The method `summarizeContent(content, maxLength)`. The test
`lastSpace > maxLength * 0.8` is taken on integers, as `5 * lastSpace > 4 * maxLength`. -/
def summarizeContent (content : String) (maxLength : Nat) : String :=
  if content = "" ∨ content.length ≤ maxLength then content
  else
    let truncated := jsSubstring content maxLength
    let lastSpace := jsLastIndexOf truncated ' '
    if 5 * lastSpace > 4 * (maxLength : Int) then
      jsSubstring truncated lastSpace.toNat ++ "..."
    else truncated ++ "..."

/-- An entry of `knowledge_base.overview`. -/
structure OverviewEntry where
  title : String
  summary : String
  key_points : List String
  source_url : String
deriving DecidableEq

/-- An entry of `knowledge_base.apis`. -/
structure ApiEntry where
  title : String
  methods : List MethodInfo
  parameters : List ParameterInfo
  endpoints : List Endpoint
  examples : List CodeExample
  source_url : String
deriving DecidableEq

/-- An entry of `knowledge_base.examples`. -/
structure ExampleEntry where
  title : String
  language : String
  code : String
  description : String
  category : String
  source_url : String
deriving DecidableEq

/-- An entry of `knowledge_base.concepts`. -/
structure ConceptEntry where
  title : String
  level : Nat
  explanation : String
  tags : List String
  source_url : String
deriving DecidableEq

/-- An entry of `knowledge_base.patterns`. -/
structure PatternEntry where
  type : String
  description : String
  examples : List CodeExample
  source_url : String
deriving DecidableEq

/-- An entry of `knowledge_base.troubleshooting`. -/
structure TroubleshootingEntry where
  title : String
  common_issues : List String
  solutions : List String
  error_codes : List String
  source_url : String
deriving DecidableEq

/-- An entry of `knowledge_base.configuration`. -/
structure ConfigurationEntry where
  title : String
  options : List ConfigOption
  examples : List CodeExample
  prerequisites : List String
  source_url : String
deriving DecidableEq

/-- The method `processOverview(overview)`. -/
def processOverview (overview : List OverviewRecord) : List OverviewEntry :=
  overview.map (fun item =>
    { title := item.title, summary := summarizeContent item.content 200,
      key_points := item.keyPoints, source_url := item.url })

/-- The method `processAPIs(apis)`. -/
def processAPIs (apis : List ApiRecord) : List ApiEntry :=
  apis.map (fun api =>
    { title := api.title, methods := api.methods.take 20,
      parameters := api.parameters.take 30, endpoints := api.endpoints,
      examples := api.examples.take 10, source_url := api.url })

/-- One step of the `reduce` of `processExamples`: the item joins the group of its key
`category-language`, a new key going last. The keys contain a hyphen, so none is an array
index and `Object.values` lists the groups in the order the keys were first seen. -/
def groupExample (acc : List (String × List ExampleRecord)) (item : ExampleRecord) :
    List (String × List ExampleRecord) :=
  let key := item.category ++ "-" ++ item.language
  if acc.any (fun g => g.1 == key) then
    acc.map (fun g => if g.1 == key then (g.1, g.2 ++ [item]) else g)
  else acc ++ [(key, [item])]

/-- The sort `group.sort((a, b) => b.code.length - a.code.length)`: longest code first,
examples of equal length keeping their order. -/
def sortByCodeLength (group : List ExampleRecord) : List ExampleRecord :=
  group.insertionSort (fun a b => b.code.length ≤ a.code.length)

/-- The method `processExamples(examples)`. -/
def processExamples (examples : List ExampleRecord) : List ExampleEntry :=
  let grouped := examples.foldl groupExample []
  let processed := grouped.foldl
    (fun processed group => processed ++ (sortByCodeLength group.2).take 3) []
  (processed.take 50).map (fun item =>
    { title := item.title, language := item.language, code := item.code,
      description := item.description, category := item.category,
      source_url := item.source })

/-- The method `processConcepts(concepts)`. -/
def processConcepts (concepts : List ConceptRecord) : List ConceptEntry :=
  (concepts.take 100).map (fun concept =>
    { title := concept.title, level := concept.level,
      explanation := summarizeContent concept.content 300, tags := concept.tags,
      source_url := concept.url })

/-- The method `processPatterns(patterns)`. -/
def processPatterns (patterns : List PatternRecord) : List PatternEntry :=
  (patterns.take 50).map (fun pattern =>
    { type := pattern.type, description := pattern.description,
      examples := pattern.examples.take 3, source_url := pattern.source })

/-- The method `processTroubleshooting(troubleshooting)`. -/
def processTroubleshooting (troubleshooting : List TroubleshootingRecord) :
    List TroubleshootingEntry :=
  troubleshooting.map (fun item =>
    { title := item.title, common_issues := item.issues.take 10,
      solutions := item.solutions.take 10, error_codes := item.errorCodes.take 20,
      source_url := item.url })

/-- The method `processConfiguration(configuration)`. -/
def processConfiguration (configuration : List ConfigurationRecord) :
    List ConfigurationEntry :=
  configuration.map (fun config =>
    { title := config.title, options := config.options.take 50,
      examples := config.examples.take 5, prerequisites := config.prerequisites.take 10,
      source_url := config.url })

/-! ## The extractor's passes, page by page -/

/-- The Examples records of one page: one per code block, in block order. -/
def examplesOfPage (host : Host) (page : PageData) : List ExampleRecord :=
  page.codeBlocks.map (fun block =>
    { title := generateExampleTitle page.title block,
      language := block.language,
      code := block.code,
      description := findExampleDescription host page.html block,
      source := page.url,
      category := categorizeExample page.url block })

/-- Whether `extractSectionContent` returns for every heading of level at most 3 of the
page. -/
def sectionsResolve (host : Host) (page : PageData) : Bool :=
  page.headings.all (fun heading =>
    !decide (heading.level ≤ 3) || (extractSectionContent host page.html heading.id).isSome)

/-- The Concepts records of one page on which `extractSectionContent` returns: one per
heading of level at most 3, in heading order. -/
def conceptsOfPage (host : Host) (page : PageData) : List ConceptRecord :=
  (page.headings.filter (fun heading => decide (heading.level ≤ 3))).map (fun heading =>
    { title := heading.text,
      level := heading.level,
      content := (extractSectionContent host page.html heading.id).getD "",
      url := page.url ++ "#" ++ heading.id,
      tags := extractTags host heading.text page.content })

/-- The Patterns records of one page: one per indicator that the lower-cased page text
contains, in the order of the indicator list; the description is made of the first two
sentences that contain the indicator once lower-cased, joined by `. ` and trimmed. -/
def patternsOfPage (host : Host) (page : PageData) : List PatternRecord :=
  (patternIndicators.filter (fun indicator =>
      includes (host.toLowerCase page.content) indicator)).map (fun indicator =>
    { type := indicator,
      description :=
        jsTrim (jsJoin ". "
          (((splitOnRuns isSentenceEnd page.content).filter (fun sentence =>
            includes (host.toLowerCase sentence) indicator)).take 2)),
      source := page.url,
      examples := extractCodeExamples host page.codeBlocks })

/-! ## Patterns: auxiliary notions -/

/-- A sufficient test that every match of a pattern consumes at least one character. -/
def Regex.consuming : Regex → Bool
  | Regex.eps => false
  | Regex.cls _ => true
  | Regex.seq a b => Regex.consuming a || Regex.consuming b
  | Regex.alt a b => Regex.consuming a && Regex.consuming b
  | Regex.star _ => false
  | Regex.group _ a => Regex.consuming a

/-- The class `.` of a regular expression: any character but a line terminator. -/
def isDotChar (c : Char) : Bool :=
  c.toNat != 10 && c.toNat != 13 && c.toNat != 8232 && c.toNat != 8233

/-- The pattern `/word[:\s]+(.+)/gi` as the specification writes it. -/
def specLineRegex (word : Regex) : Regex :=
  Regex.seqs
    [word,
     Regex.plus (Regex.cls (fun c => c == ':' || isJsWhitespace c)),
     Regex.group 1 (Regex.plus (Regex.cls isDotChar))]

/-- The issues as the specification lists them: the first 3 matches of
`error[:\s]+(.+)` followed by the first 3 of `problem[:\s]+(.+)`. -/
def specIssues (content : String) : List String :=
  (jsMatchAll (specLineRegex (Regex.litCI "error")) content).take 3 ++
    (jsMatchAll (specLineRegex (Regex.litCI "problem")) content).take 3

/-! ## Back-references -/

/-- The reference `ref` is the url of exactly one record of `pages`. -/
def TracedTo (pages : List PageData) (ref : String) : Prop :=
  (pages.map (fun p => p.url)).count ref = 1

/-- The reference `ref` is `url#id` for a record of `pages` and one of its headings. -/
def IsSectionOf (pages : List PageData) (ref : String) : Prop :=
  ∃ p ∈ pages, ∃ h ∈ p.headings, ref = p.url ++ "#" ++ h.id

/-! ## Direct HTTP scraper: helper methods and `extractContent` -/

/-- Replacing every match of a global pattern by the text `repl` (which contains no
`$`), as `String.prototype.replace` does: `skip` characters belong to the previous
match; text outside the matches is copied. -/
def Regex.replaceAll (r : Regex) (repl : List Char) : Nat → List Char → List Char
  | 0, [] =>
    match Regex.matchAt r [] with
    | none => []
    | some _ => repl
  | _ + 1, [] => []
  | skip + 1, _ :: s => Regex.replaceAll r repl skip s
  | 0, c :: s =>
    match Regex.matchAt r (c :: s) with
    | none => c :: Regex.replaceAll r repl 0 s
    | some (m, _) =>
      if m.text.length = 0 then repl ++ c :: Regex.replaceAll r repl 0 s
      else repl ++ Regex.replaceAll r repl (m.text.length - 1) s

/-- Model of `s.replace(pattern, repl)` for a pattern with the flag `g`. -/
def jsReplaceAll (r : Regex) (repl : String) (s : String) : String :=
  ⟨Regex.replaceAll r repl.data 0 s.data⟩

/-- Model of `s.startsWith(p)`. -/
def startsWith (s p : String) : Bool :=
  p.data.isPrefixOf s.data

/-- The backslash character. -/
def isBackslash (c : Char) : Bool :=
  c.toNat = 92

/-- The class written `[^a-z0-9\\s]` in `generateId`: in a regular expression literal
the two backslashes stand for one backslash character and the `s` after them for the
letter, so the class excludes `a`-`z`, `0`-`9`, the backslash and `s`. -/
def isNotSlugChar (c : Char) : Bool :=
  !((97 ≤ c.toNat && c.toNat ≤ 122) || (48 ≤ c.toNat && c.toNat ≤ 57) || isBackslash c ||
    c == 's')

/-- The pattern written `\\s+`: a backslash followed by one or more letters `s`. -/
def backslashSPattern : Regex :=
  Regex.seq (Regex.cls isBackslash) (Regex.plus (Regex.cls (fun c => c == 's')))

/-- The pattern written `\\n+`: a backslash followed by one or more letters `n`. -/
def backslashNPattern : Regex :=
  Regex.seq (Regex.cls isBackslash) (Regex.plus (Regex.cls (fun c => c == 'n')))

/-- The method `SimpleScraper.generateId(text)`; `lower` is `String.prototype.toLowerCase`. -/
def generateId (lower : String → String) (text : String) : String :=
  jsSubstring
    (jsReplaceAll backslashSPattern "-" (jsReplaceAll (Regex.cls isNotSlugChar) "" (lower text)))
    50

/-- The method `SimpleScraper.cleanText(text)`. The replacement written `'\\n'` is the
two characters backslash and `n`. -/
def cleanText (text : String) : String :=
  jsSubstring
    (jsTrim (jsReplaceAll backslashNPattern "\\n" (jsReplaceAll backslashSPattern " " text)))
    10000

/-- The class written `[\\w-]` in `extractContent`: the backslash, the letter `w` and
the hyphen. -/
def isLanguageChar (c : Char) : Bool :=
  isBackslash c || c == 'w' || c == '-'

/-- The pattern of `extractContent` for a language token in a class attribute: the text
`language-` and group 1, or the text `lang-` and group 2, each group one or more
characters of `isLanguageChar`. -/
def languagePattern : Regex :=
  Regex.alt
    (Regex.seq (Regex.lit "language-") (Regex.group 1 (Regex.plus (Regex.cls isLanguageChar))))
    (Regex.seq (Regex.lit "lang-") (Regex.group 2 (Regex.plus (Regex.cls isLanguageChar))))

/-- The language of a code block from its class name:
`languageMatch ? (languageMatch[1] || languageMatch[2]) : 'text'` for
`languageMatch = className.match(languagePattern)`. -/
def detectLanguage (className : String) : String :=
  match Regex.exec languagePattern className.data with
  | none => "text"
  | some (m, _) => if m.group 1 ≠ "" then m.group 1 else m.group 2

/-- A JavaScript `a || b` on attribute values: `a` unless it is absent or empty. -/
def orElse (a : Option String) (b : String) : String :=
  match a with
  | some x => if x ≠ "" then x else b
  | none => b

/-- An element matched by `$('h1, h2, h3, h4, h5, h6')`: tag name, text, `id` attribute. -/
structure HeadingElement where
  tagName : String
  text : String
  id : Option String
deriving DecidableEq

/-- An element matched by the code selector: its text, its `class` attribute and the
`class` attribute of its parent. -/
structure CodeElement where
  text : String
  className : Option String
  parentClassName : Option String
deriving DecidableEq

/-- An anchor: its `href` attribute and its text. -/
structure AnchorElement where
  href : Option String
  text : String
deriving DecidableEq

/-- What `extractContent` reads from a loaded document `$`; the queries are taken not
to throw. -/
structure Document where
  /-- The value of `$('title').text()`. -/
  titleText : String
  /-- The value of `$('h1').first().text()`. -/
  firstH1Text : String
  /-- For a content selector, `$(selector).length` and `$(selector).text()`. -/
  selected : String → Nat × String
  /-- The value of `$('body').text()`. -/
  bodyText : String
  /-- The elements of `$('h1, h2, h3, h4, h5, h6')`, in document order. -/
  headingElements : List HeadingElement
  /-- The elements of `$('pre code, .code-block, .highlight pre, .language-*')`. -/
  codeElements : List CodeElement
  /-- The elements of `$('a[href]')`, in document order. -/
  anchorElements : List AnchorElement
  /-- The elements of `$('nav a, .nav a, .navigation a, .sidebar a, .menu a')`. -/
  navigationElements : List AnchorElement
  /-- The value of `$.html()`. -/
  html : String

/-- The list `contentSelectors` of `extractContent`. -/
def contentSelectors : List String :=
  ["main", ".content", ".documentation", "article", ".docs-content", "#content",
    ".main-content"]

/-- The loop over `contentSelectors`: the trimmed text of the first selector that
matches something and whose trimmed text is longer than 100 characters, else `''`. -/
def findMainContent (doc : Document) : List String → String
  | [] => ""
  | selector :: rest =>
    let content := doc.selected selector
    if content.1 ≠ 0 ∧ (jsTrim content.2).length > 100 then jsTrim content.2
    else findMainContent doc rest

/-- The value of `parseInt(el.tagName.charAt(1))` for a tag name `h1` .. `h6`. -/
def headingLevel (tagName : String) : Nat :=
  (tagName.data.getD 1 '0').toNat - 48

/-- The body of the loop over the headings. -/
def pushHeading (lower : String → String) (headings : List Heading) (el : HeadingElement) :
    List Heading :=
  let level := headingLevel el.tagName
  let text := jsTrim el.text
  let id := orElse el.id (generateId lower text)
  if text ≠ "" then headings ++ [{ level := level, text := text, id := id }] else headings

/-- The body of the loop over the code elements. -/
def pushCodeBlock (codeBlocks : List CodeBlock) (el : CodeElement) : List CodeBlock :=
  let code := jsTrim el.text
  if code ≠ "" ∧ code.length > 10 then
    let className := orElse el.className (orElse el.parentClassName "")
    codeBlocks ++ [{ code := code, language := detectLanguage className }]
  else codeBlocks

/-- The body of the loop over the anchors of `$('a[href]')`. -/
def pushLink (links : List Link) (el : AnchorElement) : List Link :=
  let href := orElse el.href ""
  let text := jsTrim el.text
  if href ≠ "" ∧ text ≠ "" ∧ !startsWith href "#" ∧ !startsWith href "mailto:" ∧
      !startsWith href "tel:" then
    links ++ [{ href := href, text := text }]
  else links

/-- The body of the loop over the navigation anchors. -/
def pushNavigationItem (items : List Link) (el : AnchorElement) : List Link :=
  let href := orElse el.href ""
  let text := jsTrim el.text
  if href ≠ "" ∧ text ≠ "" then items ++ [{ href := href, text := text }] else items

/-- The method `SimpleScraper.extractContent($)`. The field `url: ''` of the result is
overwritten by the caller and is not part of `PageContent`. -/
def extractContent (lower : String → String) (doc : Document) : PageContent :=
  let title :=
    if jsTrim doc.titleText ≠ "" then jsTrim doc.titleText
    else if jsTrim doc.firstH1Text ≠ "" then jsTrim doc.firstH1Text
    else "Documentation Page"
  let mainContent := findMainContent doc contentSelectors
  let mainContent := if mainContent = "" then jsTrim doc.bodyText else mainContent
  let headings := doc.headingElements.foldl (pushHeading lower) []
  let codeBlocks := doc.codeElements.foldl pushCodeBlock []
  let links := doc.anchorElements.foldl pushLink []
  let navigation := doc.navigationElements.foldl pushNavigationItem []
  { title := title
    html := doc.html
    text := cleanText mainContent
    headings := headings
    codeBlocks := codeBlocks
    links := links.take 50
    navigation := navigation }

/-- The request of `SimpleScraper.getPageContent` followed by `extractContent`:
`fetchDocument` is `fetch` and `cheerio.load`, answering `none` when the request fails or
the response is not ok. -/
def fetchAndExtract {ν : Type} (lower : String → String)
    (fetchDocument : ν → String → ν × Option Document) (n : ν) (url : String) :
    ν × Option PageContent :=
  match fetchDocument n url with
  | (n1, r) => (n1, r.map (extractContent lower))

/-! ## Crawl statistics -/

/-- The value returned by `getStats()`. -/
structure CrawlStats where
  totalPages : Nat
  totalLinks : Nat
  totalCodeBlocks : Nat
  avgLinksPerPage : Nat
  avgCodeBlocksPerPage : Nat
deriving DecidableEq

/-- The value of `Math.round(total / count)` for `count > 0`: `Math.round` takes the
floor of its argument plus one half. The quotient is computed in floating point, which
changes nothing for totals below `2 ^ 52`, far above what an array can hold. -/
def mathRoundDiv (total count : Nat) : Nat :=
  (2 * total + count) / (2 * count)

/-- The method `FlexibleDocumentationCrawler.getStats()`, with the state it leaves. The
lists `links` and `codeBlocks` of a record built by `crawlPage` are always present. -/
def getStats {σ : Type} (s : Crawler σ) : CrawlStats × Crawler σ :=
  let totalPages := s.pages.length
  let totalLinks := s.pages.foldl (fun sum page => sum + page.links.length) 0
  let totalCodeBlocks := s.pages.foldl (fun sum page => sum + page.codeBlocks.length) 0
  ({ totalPages := totalPages
     totalLinks := totalLinks
     totalCodeBlocks := totalCodeBlocks
     avgLinksPerPage := if totalPages > 0 then mathRoundDiv totalLinks totalPages else 0
     avgCodeBlocksPerPage :=
       if totalPages > 0 then mathRoundDiv totalCodeBlocks totalPages else 0 }, s)

/-- The integer `n` is the quotient `total / count` rounded to the nearest integer,
halves rounded up: `n - 1/2 ≤ total / count < n + 1/2`. -/
def RoundsHalfUp (n total count : Nat) : Prop :=
  (n : ℚ) - 1 / 2 ≤ (total : ℚ) / (count : ℚ) ∧ (total : ℚ) / (count : ℚ) < (n : ℚ) + 1 / 2

/-- A controller holding two records, one with two links and a code block and one with
one link: three links over two pages. -/
def statsCrawler : Crawler Unit :=
  { Crawler.fresh () with
    pages :=
      [{ url := "https://ex.com/docs", depth := 0, title := "Docs", content := "", html := "",
         headings := [], codeBlocks := [{ code := "npm install ex", language := "text" }],
         links := [{ href := "/docs/a", text := "A" }, { href := "/docs/b", text := "B" }],
         navigation := [], timestamp := "t0" },
       { url := "https://ex.com/docs/a", depth := 1, title := "A", content := "", html := "",
         headings := [], codeBlocks := [],
         links := [{ href := "/docs", text := "Docs" }],
         navigation := [], timestamp := "t1" }] }

/-! ## Links and code blocks of a document, element by element -/

/-- An anchor with a non-empty `href`, a non-empty trimmed text and an `href` that does
not start with `#`, `mailto:` or `tel:`. -/
def keptAnchor (el : AnchorElement) : Bool :=
  match el.href with
  | none => false
  | some href =>
    decide (href ≠ "") && decide (jsTrim el.text ≠ "") && !("#".data.isPrefixOf href.data) &&
      !("mailto:".data.isPrefixOf href.data) && !("tel:".data.isPrefixOf href.data)

/-- The link recorded for an anchor: its `href` and its trimmed text. -/
def linkOfAnchor (el : AnchorElement) : Link :=
  { href := el.href.getD "", text := jsTrim el.text }

/-- A document with six anchors, one of which is a link to follow. -/
def anchorsDocument : Document :=
  { titleText := "Docs", firstH1Text := "", selected := fun _ => (0, ""), bodyText := "body",
    headingElements := [], codeElements := [],
    anchorElements :=
      [{ href := some "/docs/a", text := " A " }, { href := some "#top", text := "Top" },
       { href := some "mailto:a@ex.com", text := "Mail" }, { href := some "tel:123", text := "Call" },
       { href := some "", text := "Empty" }, { href := some "/docs/b", text := "  " }],
    navigationElements := [], html := "" }

/-- The code block recorded for a code element: its trimmed text and the language read
from its class attribute, or from its parent's when it has none. -/
def codeBlockOf (el : CodeElement) : CodeBlock :=
  { code := jsTrim el.text
    language := detectLanguage (orElse el.className (orElse el.parentClassName "")) }

/-- A document with four code elements: one with class `language-javascript`, one whose
parent has class `lang-py`, one of exactly ten characters and one of five. -/
def codeDocument : Document :=
  { titleText := "Docs", firstH1Text := "", selected := fun _ => (0, ""), bodyText := "body",
    headingElements := [],
    codeElements :=
      [{ text := "console.log('hello world')", className := some "language-javascript",
         parentClassName := none },
       { text := "print('hello world')", className := none, parentClassName := some "lang-py" },
       { text := " 0123456789 ", className := none, parentClassName := none },
       { text := "short", className := none, parentClassName := none }],
    anchorElements := [], navigationElements := [], html := "" }

/-- The text with every run of white space replaced by one space, then trimmed. -/
def normaliseWhitespace (text : String) : String :=
  jsTrim (replaceRuns isJsWhitespace " " text)

/-- A text has a run of two or more white space characters. -/
def hasWhitespaceRun : List Char → Bool
  | a :: b :: rest => (isJsWhitespace a && isJsWhitespace b) || hasWhitespaceRun (b :: rest)
  | _ => false

/-- The second code element of `codeDocument`. -/
def pythonElement : CodeElement :=
  { text := "print('hello world')", className := none, parentClassName := some "lang-py" }

/-- The third code element of `codeDocument`, of ten characters once trimmed. -/
def tenCharElement : CodeElement :=
  { text := " 0123456789 ", className := none, parentClassName := none }

/-! ## An API page with eleven code blocks -/

/-- A page under `/api` with eleven code blocks. -/
def manyBlocksPage : PageData :=
  { url := "https://ex.com/api/many", depth := 0, title := "Many", content := "", html := "",
    headings := [],
    codeBlocks := List.replicate 11 { code := "fetch('/users')", language := "javascript" },
    links := [], navigation := [], timestamp := "t" }

/-! ## The texts a pattern matches -/

/-- The text `t` is matched by the pattern `r`, whatever the priorities: the language of
`r`. -/
inductive Regex.Matches : Regex → List Char → Prop
  | eps : Regex.Matches Regex.eps []
  | cls (p : Char → Bool) (c : Char) : p c = true → Regex.Matches (Regex.cls p) [c]
  | seq (a b : Regex) (x y : List Char) :
    Regex.Matches a x → Regex.Matches b y → Regex.Matches (Regex.seq a b) (x ++ y)
  | altLeft (a b : Regex) (x : List Char) : Regex.Matches a x → Regex.Matches (Regex.alt a b) x
  | altRight (a b : Regex) (x : List Char) : Regex.Matches b x → Regex.Matches (Regex.alt a b) x
  | starNil (a : Regex) : Regex.Matches (Regex.star a) []
  | starCons (a : Regex) (x y : List Char) :
    Regex.Matches a x → Regex.Matches (Regex.star a) y → Regex.Matches (Regex.star a) (x ++ y)
  | group (i : Nat) (a : Regex) (x : List Char) :
    Regex.Matches a x → Regex.Matches (Regex.group i a) x

/-- The names of the methods in the pattern of `extractEndpoints`. -/
def endpointMethods : List String :=
  ["GET", "POST", "PUT", "DELETE", "PATCH"]

/-- The class of the characters of a path in the pattern of `extractEndpoints`: a word
character, a slash or a hyphen. -/
def isPathChar (c : Char) : Bool :=
  isWordChar c || c == '/' || c == '-'

/-- The record `e` is made of the match `m`: `m` is a method name, white space and a
path, and `e` holds the method in upper case and the path. -/
def IsEndpointOf (m : String) (e : Endpoint) : Prop :=
  ∃ method space path : List Char,
    m.data = method ++ space ++ path ∧ space ≠ [] ∧ (∀ c ∈ space, isJsWhitespace c = true) ∧
      e.method = toUpperCase ⟨method⟩ ∧ e.path = some ⟨path⟩

/-- The text made of the gaps `gaps` with the matches `ms` between them, in order:
`g0 m1 g1 m2 g2 ...`. -/
def weave : List (List Char) → List (List Char) → List Char
  | g :: gaps, m :: ms => g ++ m ++ weave gaps ms
  | g :: _, [] => g
  | [], _ => []

/-! ## Examples of the knowledge base: auxiliary notions -/

/-- The key under which `processExamples` groups an example. -/
def exampleKey (item : ExampleRecord) : String :=
  item.category ++ "-" ++ item.language

/-- The entry that `processExamples` makes of an example it keeps. -/
def entryOfExample (item : ExampleRecord) : ExampleEntry :=
  { title := item.title, language := item.language, code := item.code,
    description := item.description, category := item.category, source_url := item.source }

/-- Two examples of the same (category, language) pair. -/
def SamePair (a b : ExampleRecord) : Prop :=
  a.category = b.category ∧ a.language = b.language

/-- An example with the given code, category and language. -/
def demoExample (code category language : String) : ExampleRecord :=
  { title := "Example", language := language, code := code, description := "",
    source := "https://ex.com/docs", category := category }

/-- Five examples, four of them of the pair (usage, js). -/
def demoExamples : List ExampleRecord :=
  [demoExample "ab" "usage" "js", demoExample "abcd" "usage" "js",
   demoExample "x" "setup" "sh", demoExample "a" "usage" "js",
   demoExample "abc" "usage" "js"]

/-! ## The remote browser strategy -/

/-- The method `PlaywrightMCP.mockPageContent(url)`; its field `url` is not part of
`PageContent`, and `navigation` holds the `items`. The text written
`'Documentation\\nThis is documentation content.'` has a backslash and the letter `n`
between its two parts. -/
def mockPageContent (_url : String) : PageContent :=
  { title := "Documentation Page"
    html := "<html><body><h1>Documentation</h1><p>This is documentation content.</p></body></html>"
    text := "Documentation\\nThis is documentation content."
    links :=
      [{ href := "/api", text := "API Reference" }, { href := "/guides", text := "Guides" },
       { href := "/examples", text := "Examples" }]
    headings := [{ level := 1, text := "Documentation", id := "documentation" }]
    codeBlocks := [{ language := "javascript", code := "console.log(\"Hello World\");" }]
    navigation :=
      [{ text := "Getting Started", href := "/getting-started" },
       { text := "API Reference", href := "/api" }, { text := "Examples", href := "/examples" }] }

/-- The list `links` of `PlaywrightMCP.mockPageLinks(url)`. -/
def mockPageLinks : List String :=
  ["/getting-started", "/installation", "/configuration", "/api/reference", "/examples/basic",
    "/guides/advanced"]

/-- The method `PlaywrightMCP.getPageContent(url)`: the request `navigate_and_extract`
is answered by `mockPageContent` and never rejects. -/
def PlaywrightMCP.getPageContent {σ : Type} (w : σ) (url : String) : σ × Option PageContent :=
  (w, some (mockPageContent url))

/-- The method `PlaywrightMCP.getPageLinks(url, baseUrl)`: the request `extract_links`
is answered by `mockPageLinks`, and the method returns `content.links || []`. -/
def PlaywrightMCP.getPageLinks {σ : Type} (w : σ) (_url _baseUrl : String) :
    σ × Option (List String) :=
  (w, some mockPageLinks)

/-- A `PlaywrightMCP` as the controller sees it; `clock` is the clock read by
`new Date().toISOString()`. -/
def playwrightMCP {σ : Type} (clock : σ → String) : Scraper σ :=
  { getPageContent := PlaywrightMCP.getPageContent
    getPageLinks := PlaywrightMCP.getPageLinks
    now := clock }

/-- Options with nothing set. -/
def unsetOptions : Options :=
  { depth := 0, maxPages := 0, excludePatterns := none, includePatterns := none }

/-! ## Summaries: auxiliary notions -/

/-- The position `i` holds the last space among the first `maxLength` characters of
`content`. -/
def IsLastSpace (content : String) (maxLength i : Nat) : Prop :=
  i < maxLength ∧ content.data[i]? = some ' ' ∧
    ∀ j : Nat, i < j → j < maxLength → content.data[j]? ≠ some ' '

/-! ## Agent generator: focus and confidence -/

/-- The quotient `num / den` rounded to the nearest integer, a tie going to the even
one. -/
def roundHalfEven (num den : Nat) : Nat :=
  let q := num / den
  let r := num % den
  if 2 * r < den then q
  else if den < 2 * r then q + 1
  else if q % 2 = 0 then q else q + 1

/-- The number of binary digits of `n`, computed with `fuel` halvings. -/
def bitLengthAux : Nat → Nat → Nat
  | 0, _ => 0
  | fuel + 1, n => if n = 0 then 0 else bitLengthAux fuel (n / 2) + 1

/-- The number of binary digits of `n`. -/
def bitLength (n : Nat) : Nat :=
  bitLengthAux n n

/-- Rounding to double precision (IEEE 754, to nearest, a tie going to the even
significand). The numbers of `determinePrimaryFocus`, its weights and its scores, are zero
or at least one half: a weight is at least 0.8 and a length that is not zero at least 1.
Such a double is a multiple of `2^-53` and is given here by that multiple, a natural
number (so `1` is `2 ^ 53`). The exact value `num / den`, in the same unit and itself zero
or at least one half, is rounded to the nearest number with a significand of 53 binary
digits: when the integer part of the value has `53 + shift` digits, these numbers are the
multiples of `2 ^ shift`. Positive values below one half, whose doubles lie between the
multiples of `2^-53`, are outside the domain of this definition. -/
def roundToDouble (num den : Nat) : Nat :=
  let shift := bitLength (num / den) - 53
  roundHalfEven num (den * 2 ^ shift) * 2 ^ shift

/-- The number denoted by a decimal literal of value `num / den`, such as `1.2` with
`12 / 10`: the double nearest to that value. -/
def decimalLiteral (num den : Nat) : Nat :=
  roundToDouble (num * 2 ^ 53) den

/-- The product `n * w` of an array length `n` and a number `w`, as JavaScript computes
it: the exact product rounded to double precision. A length is an integer below `2 ^ 32`
and is itself a double. -/
def timesDouble (n w : Nat) : Nat :=
  roundToDouble (n * w) 1

/-- An element of the array `areas` of `determinePrimaryFocus`; the score is a number in
units of `2^-53`. -/
structure FocusArea where
  name : String
  score : Nat

/-- The array `areas` of `determinePrimaryFocus`, before it is sorted. -/
def focusAreas (knowledge : Knowledge) : List FocusArea :=
  [{ name := "API Development",
     score := timesDouble knowledge.apis.length (decimalLiteral 2 1) },
   { name := "Configuration Management",
     score := timesDouble knowledge.configuration.length (decimalLiteral 15 10) },
   { name := "Code Examples & Tutorials",
     score := knowledge.examples.length * 2 ^ 53 },
   { name := "Troubleshooting & Support",
     score := timesDouble knowledge.troubleshooting.length (decimalLiteral 12 10) },
   { name := "Concepts & Theory",
     score := timesDouble knowledge.concepts.length (decimalLiteral 8 10) }]

/-- The sort `areas.sort((a, b) => b.score - a.score)`: highest score first, areas of
equal score keeping their order. The difference of two doubles is negative, zero or
positive as the exact difference is. -/
def sortByScore (areas : List FocusArea) : List FocusArea :=
  areas.insertionSort (fun a b => b.score ≤ a.score)

/-- The method `determinePrimaryFocus(knowledge, metadata)`, which does not read
`metadata`: `areas[0]?.name || 'General Documentation'` after the sort. -/
def determinePrimaryFocus (knowledge : Knowledge) : String :=
  match (sortByScore (focusAreas knowledge)).head? with
  | some area => if area.name ≠ "" then area.name else "General Documentation"
  | none => "General Documentation"

/-- The weighted scores as the claim words them, in declaration order: the number of
records of the area times its weight 2, 1.5, 1, 1.2 or 0.8, in exact arithmetic. -/
def specWeightedScores (knowledge : Knowledge) : List (String × ℚ) :=
  [("API Development", (knowledge.apis.length : ℚ) * 2),
   ("Configuration Management", (knowledge.configuration.length : ℚ) * 1.5),
   ("Code Examples & Tutorials", (knowledge.examples.length : ℚ)),
   ("Troubleshooting & Support", (knowledge.troubleshooting.length : ℚ) * 1.2),
   ("Concepts & Theory", (knowledge.concepts.length : ℚ) * 0.8)]

/-- The value of `score` in `calculateConfidenceLevel` after the three tests. -/
def confidenceScore (knowledge : Knowledge) : Nat :=
  let score := 0
  let score :=
    if knowledge.apis.length > 0 then score + min (knowledge.apis.length * 10) 50 else score
  let score :=
    if knowledge.examples.length > 0 then score + min (knowledge.examples.length * 5) 30
    else score
  if knowledge.concepts.length > 0 then score + min (knowledge.concepts.length * 2) 20
  else score

/-- The value of `maxScore` in `calculateConfidenceLevel` after the three tests. -/
def confidenceMaxScore (knowledge : Knowledge) : Nat :=
  let maxScore := 0
  let maxScore := if knowledge.apis.length > 0 then maxScore + 50 else maxScore
  let maxScore := if knowledge.examples.length > 0 then maxScore + 30 else maxScore
  if knowledge.concepts.length > 0 then maxScore + 20 else maxScore

/-- The method `calculateConfidenceLevel(knowledge)`. The percentage is taken as a
rational: `score` and `maxScore` are integers up to 100, for which the quotient and the
product computed in double precision fall on the same side of 80 and of 60 as the exact
values (a quotient of exactly 0.8 or 0.6 gives exactly 80 or 60). -/
def calculateConfidenceLevel (knowledge : Knowledge) : String :=
  let score := confidenceScore knowledge
  let maxScore := confidenceMaxScore knowledge
  let percentage : ℚ := if maxScore > 0 then (score : ℚ) / (maxScore : ℚ) * 100 else 0
  if percentage ≥ 80 then "high"
  else if percentage ≥ 60 then "medium"
  else "basic"

/-- A record of the APIs bucket with the given title. -/
def demoApi (title : String) : ApiRecord :=
  { title := title, url := "https://ex.com/api", methods := [], parameters := [],
    examples := [], endpoints := [] }

/-- An aggregate with five API records and nothing else. -/
def fiveApis : Knowledge :=
  { overview := [], apis := [demoApi "a", demoApi "b", demoApi "c", demoApi "d", demoApi "e"],
    examples := [], concepts := [], patterns := [], troubleshooting := [],
    configuration := [] }

/-- The aggregate `fiveApis` with one example added. -/
def fiveApisOneExample : Knowledge :=
  { fiveApis with examples := [demoExample "x" "usage" "js"] }

/-- An aggregate with nothing in it. -/
def emptyKnowledge : Knowledge :=
  { overview := [], apis := [], examples := [], concepts := [], patterns := [],
    troubleshooting := [], configuration := [] }

/-- A record of the Troubleshooting bucket with the given title. -/
def demoIssue (title : String) : TroubleshootingRecord :=
  { title := title, url := "https://ex.com/faq", issues := [], solutions := [],
    errorCodes := [] }

/-- A record of the Concepts bucket with the given title. -/
def demoConcept (title : String) : ConceptRecord :=
  { title := title, level := 1, content := "", url := "https://ex.com/docs#x", tags := [] }

/-- An aggregate with two troubleshooting records, three concept records and nothing
else. -/
def twoIssuesThreeConcepts : Knowledge :=
  { overview := [], apis := [], examples := [],
    concepts := [demoConcept "a", demoConcept "b", demoConcept "c"], patterns := [],
    troubleshooting := [demoIssue "a", demoIssue "b"], configuration := [] }

/-! ## A page with two pattern indicators -/

/-- A page whose text has the indicators `should` and `avoid` in its second sentence, in
upper and in lower case. -/
def patternsPage : PageData :=
  { url := "https://ex.com/docs/style", depth := 0, title := "Style",
    content := "Intro. You SHOULD avoid globals! Bye.", html := "", headings := [],
    codeBlocks := [], links := [], navigation := [], timestamp := "t" }

/-! ## The effect of `crawlPage` -/

section CrawlPage

variable {σ : Type} (sc : Scraper σ) (parseUrl : String → Option ParsedUrl) (o : Options)

theorem contains_eq_decide (l : List String) (a : String) :
    l.contains a = decide (a ∈ l) :=
  List.elem_eq_mem a l

theorem enqueueLink_foldl (depth : Nat) (links : List String) (s : Crawler σ) :
    links.foldl (enqueueLink parseUrl o depth) s =
      { s with
        queue := s.queue ++ newEntries parseUrl o s.baseUrl s.visited depth links
        trace := { s.trace with
          pushed := s.trace.pushed ++ newEntries parseUrl o s.baseUrl s.visited depth links } } := by
  induction links generalizing s with
  | nil => simp [newEntries]
  | cons l ls ih =>
    rw [List.foldl_cons, ih]
    by_cases h : l ∉ s.visited ∧ isValidDocumentationUrl parseUrl o s.baseUrl l = true
    · have e : enqueueLink parseUrl o depth s l =
          { s with
            queue := s.queue ++ [{ url := l, depth := depth + 1 }]
            trace := { s.trace with
              pushed := s.trace.pushed ++ [{ url := l, depth := depth + 1 }] } } := by
        simp [enqueueLink, h]
      rw [e]
      simp [newEntries, List.filter_cons, h]
    · have e : enqueueLink parseUrl o depth s l = s := by
        have h2 : ¬((!decide (l ∈ s.visited) &&
            isValidDocumentationUrl parseUrl o s.baseUrl l) = true) := by simpa using h
        simp only [enqueueLink, contains_eq_decide, h2, Bool.false_eq_true, if_false]
      rw [e]
      simp [newEntries, List.filter_cons, h]

theorem crawlPage_of_visited (s : Crawler σ) (url : String) (depth : Nat)
    (h : url ∈ s.visited) : crawlPage sc parseUrl o s url depth = s := by
  simp only [crawlPage, contains_eq_decide, h, decide_True, if_true]

theorem crawlPage_cases (s : Crawler σ) (url : String) (depth : Nat)
    (h : url ∉ s.visited) :
    ∃ (w : σ) (newPages : List PageData) (links : List String)
      (disc : List (String × List String)),
      crawlPage sc parseUrl o s url depth =
        { visited := s.visited ++ [url]
          queue := s.queue ++ newEntries parseUrl o s.baseUrl (s.visited ++ [url]) depth links
          pages := s.pages ++ newPages
          baseUrl := s.baseUrl
          world := w
          trace :=
            { fetched := s.trace.fetched ++ [url]
              discovered := s.trace.discovered ++ disc
              pushed := s.trace.pushed ++
                newEntries parseUrl o s.baseUrl (s.visited ++ [url]) depth links } } ∧
      (newPages = [] ∨ ∃ pd, newPages = [pd] ∧ pd.url = url ∧ pd.depth = depth) ∧
      ((sc.getPageContent s.world url).2 = none → newPages = [] ∧ links = []) ∧
      (∀ c, (sc.getPageContent s.world url).2 = some c →
        newPages = [pageDataOf url depth c (sc.now (sc.getPageContent s.world url).1)]) ∧
      (links ≠ [] → (depth : Int) < depthLimit o ∧ newPages ≠ []) ∧
      (disc = [] ∧ links = [] ∨ disc = [(url, links)]) := by
  unfold crawlPage
  simp only [contains_eq_decide, h, decide_False, Bool.false_eq_true, if_false]
  rcases hc : sc.getPageContent s.world url with ⟨w, _ | c⟩
  · refine ⟨w, [], [], [], ?_, ?_⟩
    · simp [newEntries]
    · simp
  · by_cases hd : (depth : Int) < depthLimit o
    · rcases hl : sc.getPageLinks w url s.baseUrl with ⟨w2, _ | links⟩
      · refine ⟨w2, [pageDataOf url depth c (sc.now w)], [], [], ?_, ?_⟩
        · simp [hd, hl, newEntries, pageDataOf]
        · simp [pageDataOf]
      · refine ⟨w2, [pageDataOf url depth c (sc.now w)], links, [(url, links)], ?_, ?_⟩
        · simp [hd, hl, pageDataOf, enqueueLink_foldl]
        · simp [pageDataOf, hd]
    · refine ⟨w, [pageDataOf url depth c (sc.now w)], [], [], ?_, ?_⟩
      · simp [hd, newEntries, pageDataOf]
      · simp [pageDataOf]

end CrawlPage

/-! ## The loop -/

section Loop

variable {σ : Type} (sc : Scraper σ) (parseUrl : String → Option ParsedUrl) (o : Options)

theorem loopCond_iff (s : Crawler σ) :
    loopCond o s = true ↔ s.queue ≠ [] ∧ (s.pages.length : Int) < maxPagesLimit o := by
  simp [loopCond, List.length_pos]

/-- One pass of the loop, by cases: the dequeued entry is skipped, or `crawlPage` runs on
it with the effect described by `crawlPage_cases`. -/
theorem loopBody_cases (s : Crawler σ) (h : loopCond o s = true) :
    ∃ (current : FrontierEntry) (rest : List FrontierEntry),
      s.queue = current :: rest ∧ (s.pages.length : Int) < maxPagesLimit o ∧
      ((loopBody sc parseUrl o s = { s with queue := rest } ∧
          (current.url ∈ s.visited ∨ (current.depth : Int) > depthLimit o)) ∨
       (current.url ∉ s.visited ∧ (current.depth : Int) ≤ depthLimit o ∧
        ∃ (w : σ) (newPages : List PageData) (links : List String)
          (disc : List (String × List String)),
          loopBody sc parseUrl o s =
            { visited := s.visited ++ [current.url]
              queue := rest ++
                newEntries parseUrl o s.baseUrl (s.visited ++ [current.url]) current.depth links
              pages := s.pages ++ newPages
              baseUrl := s.baseUrl
              world := w
              trace :=
                { fetched := s.trace.fetched ++ [current.url]
                  discovered := s.trace.discovered ++ disc
                  pushed := s.trace.pushed ++
                    newEntries parseUrl o s.baseUrl (s.visited ++ [current.url])
                      current.depth links } } ∧
          (newPages = [] ∨
            ∃ pd, newPages = [pd] ∧ pd.url = current.url ∧ pd.depth = current.depth) ∧
          ((sc.getPageContent s.world current.url).2 = none → newPages = [] ∧ links = []) ∧
          (∀ c, (sc.getPageContent s.world current.url).2 = some c →
            newPages = [pageDataOf current.url current.depth c
              (sc.now (sc.getPageContent s.world current.url).1)]) ∧
          (links ≠ [] → (current.depth : Int) < depthLimit o ∧ newPages ≠ []) ∧
          (disc = [] ∧ links = [] ∨ disc = [(current.url, links)]))) := by
  obtain ⟨hq, hp⟩ := (loopCond_iff o s).1 h
  rcases hs : s.queue with _ | ⟨current, rest⟩
  · exact absurd hs hq
  · refine ⟨current, rest, rfl, hp, ?_⟩
    by_cases hv : current.url ∈ s.visited
    · left
      refine ⟨?_, Or.inl hv⟩
      simp [loopBody, hs, contains_eq_decide, hv]
    · by_cases hd : (current.depth : Int) > depthLimit o
      · left
        refine ⟨?_, Or.inr hd⟩
        simp [loopBody, hs, contains_eq_decide, hd]
      · right
        refine ⟨hv, by omega, ?_⟩
        have hb : loopBody sc parseUrl o s =
            crawlPage sc parseUrl o { s with queue := rest } current.url current.depth := by
          simp [loopBody, hs, contains_eq_decide, hv, hd]
        rw [hb]
        exact crawlPage_cases sc parseUrl o { s with queue := rest } current.url
          current.depth hv

theorem crawlIter_invariant (P : Crawler σ → Prop)
    (hstep : ∀ s, P s → loopCond o s = true → P (loopBody sc parseUrl o s)) :
    ∀ (n : Nat) (s : Crawler σ), P s → P (crawlIter sc parseUrl o n s) := by
  intro n
  induction n with
  | zero => intro s hs; exact hs
  | succ n ih =>
    intro s hs
    unfold crawlIter
    by_cases hc : loopCond o s = true
    · rw [if_pos hc]
      exact ih _ (hstep s hs hc)
    · rw [if_neg hc]
      exact hs

theorem crawlLoop_eq_some (fuel : Nat) (s s' : Crawler σ)
    (h : crawlLoop sc parseUrl o fuel s = some s') :
    s' = crawlIter sc parseUrl o fuel s ∧ loopCond o s' = false := by
  induction fuel generalizing s with
  | zero =>
    unfold crawlLoop at h
    by_cases hc : loopCond o s = true
    · simp [hc] at h
    · simp only [hc, Bool.false_eq_true, if_false, Option.some.injEq] at h
      subst h
      exact ⟨rfl, by simpa using hc⟩
  | succ n ih =>
    unfold crawlLoop at h
    unfold crawlIter
    by_cases hc : loopCond o s = true
    · simp only [hc, if_true] at h ⊢
      exact ih _ h
    · simp only [hc, Bool.false_eq_true, if_false, Option.some.injEq] at h ⊢
      subst h
      exact ⟨rfl, by simpa using hc⟩

theorem crawlLoop_invariant (P : Crawler σ → Prop)
    (hstep : ∀ s, P s → loopCond o s = true → P (loopBody sc parseUrl o s))
    (fuel : Nat) (s s' : Crawler σ) (hs : P s)
    (h : crawlLoop sc parseUrl o fuel s = some s') : P s' := by
  rw [(crawlLoop_eq_some sc parseUrl o fuel s s' h).1]
  exact crawlIter_invariant sc parseUrl o P hstep fuel s hs

/-- Unfolding `crawl` when it returns. -/
theorem crawl_returned (fuel : Nat) (s s' : Crawler σ) (startUrl : String)
    (h : crawl sc parseUrl o fuel s startUrl = CrawlResult.returned s') :
    ∃ u, parseUrl startUrl = some u ∧
      crawlLoop sc parseUrl o fuel (pushSeed { s with baseUrl := u.origin } startUrl) =
        some s' := by
  unfold crawl initCrawler at h
  rcases hp : parseUrl startUrl with _ | u
  · simp [hp] at h
  · refine ⟨u, rfl, ?_⟩
    simp only [hp] at h
    rcases hl : crawlLoop sc parseUrl o fuel (pushSeed { s with baseUrl := u.origin } startUrl)
      with _ | s2
    · simp [hl] at h
    · simp only [hl, CrawlResult.returned.injEq] at h
      rw [h]

end Loop

/-! ## Termination -/

section Termination

variable {σ : Type} (sc : Scraper σ) (parseUrl : String → Option ParsedUrl) (o : Options)

theorem mem_newEntries (baseUrl : String) (visited : List String) (depth : Nat)
    (links : List String) (e : FrontierEntry) :
    e ∈ newEntries parseUrl o baseUrl visited depth links ↔
      e.depth = depth + 1 ∧ e.url ∈ links ∧ e.url ∉ visited ∧
        isValidDocumentationUrl parseUrl o baseUrl e.url = true := by
  unfold newEntries
  simp only [List.mem_map, List.mem_filter, contains_eq_decide, Bool.and_eq_true,
    Bool.not_eq_true', decide_eq_false_iff_not]
  constructor
  · rintro ⟨l, ⟨hl, hv, hvalid⟩, rfl⟩
    exact ⟨rfl, hl, hv, hvalid⟩
  · rintro ⟨hd, hl, hv, hvalid⟩
    refine ⟨e.url, ⟨hl, hv, hvalid⟩, ?_⟩
    cases e
    simp only at hd
    simp [hd]

theorem newEntries_nil (baseUrl : String) (visited : List String) (depth : Nat) :
    newEntries parseUrl o baseUrl visited depth [] = [] := rfl

/-- Every pass of the loop replaces one frontier entry by finitely many entries of
smaller weight. -/
theorem queueMeasure_decreases (s : Crawler σ) (h : loopCond o s = true) :
    Relation.CutExpand (fun a b : Nat => a < b)
      (queueMeasure o (loopBody sc parseUrl o s)) (queueMeasure o s) := by
  obtain ⟨current, rest, hq, -, hcase⟩ := loopBody_cases sc parseUrl o s h
  rcases hcase with ⟨hb, -⟩ | ⟨-, -, w, newPages, links, disc, hb, -, -, -, hl, -⟩
  · rw [hb]
    refine ⟨0, entryWeight o current, by simp, ?_⟩
    simp only [queueMeasure, hq, List.map_cons, add_zero]
    rw [← Multiset.cons_coe, ← Multiset.singleton_add, add_comm]
  · rw [hb]
    refine ⟨↑((newEntries parseUrl o s.baseUrl (s.visited ++ [current.url]) current.depth
      links).map (entryWeight o)), entryWeight o current, ?_, ?_⟩
    · intro a ha
      simp only [Multiset.mem_coe, List.mem_map] at ha
      obtain ⟨e, he, rfl⟩ := ha
      have hne : links ≠ [] := by
        intro hnil
        rw [hnil, newEntries_nil] at he
        simp at he
      have hlt := (hl hne).1
      have hdep := ((mem_newEntries parseUrl o _ _ _ _ e).1 he).1
      simp only [entryWeight, hdep]
      omega
    · simp only [queueMeasure, hq, List.map_append, List.map_cons]
      rw [← Multiset.coe_add, ← Multiset.cons_coe, ← Multiset.singleton_add]
      abel

theorem crawlLoop_fuel_succ (fuel : Nat) (s s' : Crawler σ)
    (h : crawlLoop sc parseUrl o fuel s = some s') :
    crawlLoop sc parseUrl o (fuel + 1) s = some s' := by
  induction fuel generalizing s with
  | zero =>
    unfold crawlLoop at h ⊢
    by_cases hc : loopCond o s = true
    · simp [hc] at h
    · simpa [hc] using h
  | succ n ih =>
    unfold crawlLoop at h
    rw [crawlLoop]
    by_cases hc : loopCond o s = true
    · simp only [hc, if_true] at h ⊢
      exact ih _ h
    · simpa [hc] using h

theorem crawlLoop_fuel_mono (n fuel : Nat) (s s' : Crawler σ) (hle : n ≤ fuel)
    (h : crawlLoop sc parseUrl o n s = some s') :
    crawlLoop sc parseUrl o fuel s = some s' := by
  induction hle with
  | refl => exact h
  | step _ ih => exact crawlLoop_fuel_succ sc parseUrl o _ s s' ih

/-- The loop terminates from every controller state: some amount of fuel lets it reach
a state where the loop test fails. -/
theorem crawlLoop_terminates (s : Crawler σ) :
    ∃ (n : Nat) (s' : Crawler σ), crawlLoop sc parseUrl o n s = some s' := by
  have wf : WellFounded (Relation.CutExpand (fun a b : Nat => a < b)) :=
    WellFounded.cutExpand Nat.lt_wfRel.wf
  have key : ∀ (m : Multiset Nat) (s : Crawler σ), queueMeasure o s = m →
      ∃ (n : Nat) (s' : Crawler σ), crawlLoop sc parseUrl o n s = some s' := by
    intro m
    induction m using wf.induction with
    | _ m ih =>
      intro s hm
      by_cases hc : loopCond o s = true
      · have hdec := queueMeasure_decreases sc parseUrl o s hc
        rw [hm] at hdec
        obtain ⟨n, s', hn⟩ := ih _ hdec (loopBody sc parseUrl o s) rfl
        refine ⟨n + 1, s', ?_⟩
        rw [crawlLoop]
        simp only [hc, if_true]
        exact hn
      · refine ⟨0, s, ?_⟩
        rw [crawlLoop]
        simp [hc]
  exact key _ s rfl

end Termination

/-! ## Running `crawl` -/

section Crawl

variable {σ : Type} (sc : Scraper σ) (parseUrl : String → Option ParsedUrl) (o : Options)

/-- The controller state on which the loop of `crawl` starts. -/
theorem crawl_eq_of_loop (fuel : Nat) (s s' : Crawler σ) (startUrl : String) (u : ParsedUrl)
    (hp : parseUrl startUrl = some u)
    (h : crawlLoop sc parseUrl o fuel (pushSeed { s with baseUrl := u.origin } startUrl) =
      some s') :
    crawl sc parseUrl o fuel s startUrl = CrawlResult.returned s' := by
  simp [crawl, initCrawler, hp, h]

theorem crawl_pages_eq_some (fuel : Nat) (s : Crawler σ) (startUrl : String)
    (pages : List PageData)
    (h : (crawl sc parseUrl o fuel s startUrl).pages = some pages) :
    ∃ s', crawl sc parseUrl o fuel s startUrl = CrawlResult.returned s' ∧ s'.pages = pages := by
  rcases hr : crawl sc parseUrl o fuel s startUrl with _ | _ | s'
  · simp [hr, CrawlResult.pages] at h
  · simp [hr, CrawlResult.pages] at h
  · refine ⟨s', rfl, ?_⟩
    simpa [hr, CrawlResult.pages] using h

/-- With a seed that parses, `crawl` returns once the fuel is large enough. -/
theorem crawl_returns (s : Crawler σ) (startUrl : String)
    (hp : parseUrl startUrl ≠ none) :
    ∃ n : Nat, ∀ fuel : Nat, n ≤ fuel →
      ∃ s', crawl sc parseUrl o fuel s startUrl = CrawlResult.returned s' := by
  rcases hu : parseUrl startUrl with _ | u
  · exact absurd hu hp
  · obtain ⟨n, s', hn⟩ := crawlLoop_terminates sc parseUrl o
      (pushSeed { s with baseUrl := u.origin } startUrl)
    refine ⟨n, fun fuel hle => ⟨s', ?_⟩⟩
    exact crawl_eq_of_loop sc parseUrl o fuel s s' startUrl u hu
      (crawlLoop_fuel_mono sc parseUrl o n fuel _ s' hle hn)

/-- A property that holds when the loop starts and is kept by every pass of the loop
holds of the state in which `crawl` returns. -/
theorem crawl_invariant (P : Crawler σ → Prop)
    (hstep : ∀ s, P s → loopCond o s = true → P (loopBody sc parseUrl o s))
    (fuel : Nat) (s s' : Crawler σ) (startUrl : String)
    (hinit : ∀ u, parseUrl startUrl = some u →
      P (pushSeed { s with baseUrl := u.origin } startUrl))
    (h : crawl sc parseUrl o fuel s startUrl = CrawlResult.returned s') : P s' := by
  obtain ⟨u, hu, hl⟩ := crawl_returned sc parseUrl o fuel s s' startUrl h
  exact crawlLoop_invariant sc parseUrl o P hstep fuel _ s' (hinit u hu) hl

end Crawl

/-! ## Page-count bound -/

section PageCount

variable {σ : Type} (sc : Scraper σ) (parseUrl : String → Option ParsedUrl) (o : Options)

theorem loopBody_pages_length_le (s : Crawler σ) (h : loopCond o s = true) :
    (loopBody sc parseUrl o s).pages.length ≤ s.pages.length + 1 := by
  obtain ⟨current, rest, -, -, hcase⟩ := loopBody_cases sc parseUrl o s h
  rcases hcase with ⟨hb, -⟩ | ⟨-, -, w, newPages, links, disc, hb, hnp, -⟩
  · rw [hb]
    exact Nat.le_succ _
  · rw [hb]
    rcases hnp with rfl | ⟨pd, rfl, -⟩ <;> simp

/-- Claim C1. For every positive `maxPages = N`, every scraper behaviour and every seed,
`crawl` on a fresh controller returns at most `N` page records; and it does return
whenever the seed URL parses. -/
theorem crawl_length_le_maxPages (w : σ) (startUrl : String) (hN : 0 < o.maxPages) :
    (∀ (fuel : Nat) (pages : List PageData),
        (crawl sc parseUrl o fuel (Crawler.fresh w) startUrl).pages = some pages →
        (pages.length : Int) ≤ o.maxPages) ∧
      (parseUrl startUrl ≠ none → ∃ n : Nat, ∀ fuel : Nat, n ≤ fuel →
        ∃ pages, (crawl sc parseUrl o fuel (Crawler.fresh w) startUrl).pages = some pages) := by
  have hlim : maxPagesLimit o = o.maxPages := by
    unfold maxPagesLimit
    rw [if_neg (by omega)]
  constructor
  · intro fuel pages h
    obtain ⟨s', hr, rfl⟩ := crawl_pages_eq_some sc parseUrl o fuel _ startUrl pages h
    refine crawl_invariant sc parseUrl o (fun s => (s.pages.length : Int) ≤ o.maxPages)
      ?_ fuel (Crawler.fresh w) s' startUrl ?_ hr
    · intro s _ hc
      have hlt := ((loopCond_iff o s).1 hc).2
      have hle := loopBody_pages_length_le sc parseUrl o s hc
      rw [hlim] at hlt
      omega
    · intro u _
      simp only [pushSeed, Crawler.fresh, List.length_nil, Nat.cast_zero]
      omega
  · intro hp
    obtain ⟨n, hn⟩ := crawl_returns sc parseUrl o (Crawler.fresh w) startUrl hp
    refine ⟨n, fun fuel hle => ?_⟩
    obtain ⟨s', hs'⟩ := hn fuel hle
    exact ⟨s'.pages, by rw [hs']; rfl⟩

/-- Claim C1, run on the example site with `maxPages = 1`: the crawl returns page `a`
alone although page `b` is in the frontier. -/
theorem crawl_length_le_maxPages_witness :
    (0 : Int) < (demoOptions 1 1).maxPages ∧
      (crawl (demoScraper false) demoParseUrl (demoOptions 1 1) 1 (Crawler.fresh demoWorld)
        "https://x.com/docs/a").pages = some [pageDataOf "https://x.com/docs/a" 0 demoContentA "t"] ∧
      (([pageDataOf "https://x.com/docs/a" 0 demoContentA "t"].length : Int) ≤
        (demoOptions 1 1).maxPages) :=
  ⟨by decide, by decide,
    (crawl_length_le_maxPages (demoScraper false) demoParseUrl (demoOptions 1 1) demoWorld
      "https://x.com/docs/a" (by decide)).1 1 _ (by decide)⟩

end PageCount

/-! ## Termination of the crawl -/

section CrawlTerminates

variable {σ : Type} (sc : Scraper σ) (parseUrl : String → Option ParsedUrl) (o : Options)

/-- Claim C8. Whatever the scraper answers (its link lists are finite lists), the loop of
`crawl` terminates from every controller state: from some amount of fuel on it ends in
one and the same state, and there the frontier is empty or the number of collected
records has reached `maxPages`. -/
theorem crawl_terminates (s : Crawler σ) :
    ∃ (n : Nat) (s' : Crawler σ),
      (∀ fuel : Nat, n ≤ fuel → crawlLoop sc parseUrl o fuel s = some s') ∧
      (s'.queue = [] ∨ maxPagesLimit o ≤ (s'.pages.length : Int)) := by
  obtain ⟨n, s', hn⟩ := crawlLoop_terminates sc parseUrl o s
  refine ⟨n, s', fun fuel hle => crawlLoop_fuel_mono sc parseUrl o n fuel s s' hle hn, ?_⟩
  have hc := (crawlLoop_eq_some sc parseUrl o n s s' hn).2
  have hiff := loopCond_iff o s'
  by_cases hq : s'.queue = []
  · exact Or.inl hq
  · right
    by_contra hlt
    have : loopCond o s' = true := hiff.2 ⟨hq, by omega⟩
    rw [hc] at this
    exact Bool.false_ne_true this

end CrawlTerminates

/-! ## Visited set: distinct records, one fetch per URL -/

section Visited

variable {σ : Type} (sc : Scraper σ) (parseUrl : String → Option ParsedUrl) (o : Options)

theorem visitInv_start (w : σ) (startUrl origin : String) :
    VisitInv (pushSeed { Crawler.fresh w with baseUrl := origin } startUrl) := by
  simp [VisitInv, pushSeed, Crawler.fresh]

theorem visitInv_loopBody (s : Crawler σ) (hs : VisitInv s) (h : loopCond o s = true) :
    VisitInv (loopBody sc parseUrl o s) := by
  obtain ⟨hmem, hpw, hf, hnd⟩ := hs
  obtain ⟨current, rest, -, -, hcase⟩ := loopBody_cases sc parseUrl o s h
  rcases hcase with ⟨hb, -⟩ | ⟨hv, -, w, newPages, links, disc, hb, hnp, -⟩
  · rw [hb]
    exact ⟨hmem, hpw, hf, hnd⟩
  · rw [hb]
    refine ⟨?_, ?_, ?_, ?_⟩
    · intro p hp
      simp only [List.mem_append] at hp ⊢
      rcases hp with hp | hp
      · exact Or.inl (hmem p hp)
      · rcases hnp with rfl | ⟨pd, rfl, hurl, -⟩
        · simp at hp
        · simp only [List.mem_singleton] at hp
          subst hp
          right
          simp [hurl]
    · rcases hnp with rfl | ⟨pd, rfl, hurl, -⟩
      · simpa using hpw
      · simp only [List.pairwise_append, List.pairwise_singleton, List.mem_singleton,
          forall_eq, true_and]
        refine ⟨hpw, fun p hp heq => hv ?_⟩
        rw [← hurl, ← heq]
        exact hmem p hp
    · simp only [hf]
    · simp only
      rw [List.nodup_append]
      refine ⟨hnd, List.nodup_singleton _, ?_⟩
      intro a ha hb'
      simp only [List.mem_singleton] at hb'
      subst hb'
      exact hv ha

/-- The visited-set invariant holds in the state in which `crawl` on a fresh controller
returns. -/
theorem visitInv_crawl (fuel : Nat) (w : σ) (s' : Crawler σ) (startUrl : String)
    (h : crawl sc parseUrl o fuel (Crawler.fresh w) startUrl = CrawlResult.returned s') :
    VisitInv s' :=
  crawl_invariant sc parseUrl o VisitInv (visitInv_loopBody sc parseUrl o) fuel
    (Crawler.fresh w) s' startUrl (fun u _ => visitInv_start w startUrl u.origin) h

/-- For a seed that parses, `crawl` returns a page sequence once the fuel is large
enough. -/
theorem crawl_pages_returns (s : Crawler σ) (startUrl : String)
    (hp : parseUrl startUrl ≠ none) :
    ∃ n : Nat, ∀ fuel : Nat, n ≤ fuel →
      ∃ pages, (crawl sc parseUrl o fuel s startUrl).pages = some pages := by
  obtain ⟨n, hn⟩ := crawl_returns sc parseUrl o s startUrl hp
  refine ⟨n, fun fuel hle => ?_⟩
  obtain ⟨s', hs'⟩ := hn fuel hle
  exact ⟨s'.pages, by rw [hs']; rfl⟩

/-- Claim C2. In every crawl on a fresh controller, whatever the scraper answers, no two
records of the returned sequence have the same `url`; and the crawl does return a
sequence whenever the seed URL parses. -/
theorem crawl_urls_distinct (w : σ) (startUrl : String) :
    (∀ (fuel : Nat) (pages : List PageData),
        (crawl sc parseUrl o fuel (Crawler.fresh w) startUrl).pages = some pages →
        pages.Pairwise (fun p q => p.url ≠ q.url)) ∧
      (parseUrl startUrl ≠ none → ∃ n : Nat, ∀ fuel : Nat, n ≤ fuel →
        ∃ pages, (crawl sc parseUrl o fuel (Crawler.fresh w) startUrl).pages = some pages) := by
  refine ⟨?_, crawl_pages_returns sc parseUrl o (Crawler.fresh w) startUrl⟩
  intro fuel pages h
  obtain ⟨s', hr, rfl⟩ := crawl_pages_eq_some sc parseUrl o fuel _ startUrl pages h
  exact (visitInv_crawl sc parseUrl o fuel w s' startUrl hr).2.1

/-- Claim C2 on the example site, where page `b` links back to page `a` and page `a`
links to page `b` twice: the crawl returns `a` and `b` once each. -/
theorem crawl_urls_distinct_witness :
    (crawl (demoScraper false) demoParseUrl (demoOptions 2 5) 3 (Crawler.fresh demoWorld)
        "https://x.com/docs/a").pages =
      some [pageDataOf "https://x.com/docs/a" 0 demoContentA "t",
        pageDataOf "https://x.com/docs/b" 1 demoContentB "t"] ∧
    [pageDataOf "https://x.com/docs/a" 0 demoContentA "t",
        pageDataOf "https://x.com/docs/b" 1 demoContentB "t"].Pairwise
      (fun p q => p.url ≠ q.url) :=
  ⟨by decide,
    (crawl_urls_distinct (demoScraper false) demoParseUrl (demoOptions 2 5) demoWorld
      "https://x.com/docs/a").1 3 _ (by decide)⟩

/-- Claim C6, as the code has it. In every crawl on a fresh controller `crawlPage` hands
each URL to `scraper.getPageContent` at most once, the visited set being checked before
the fetch. Pushes onto the frontier and the request made by link discovery are not
covered: see `crawl_push_and_request_twice`. -/
theorem crawl_fetches_once (w : σ) (startUrl : String) (fuel : Nat) (s' : Crawler σ)
    (h : crawl sc parseUrl o fuel (Crawler.fresh w) startUrl = CrawlResult.returned s') :
    s'.trace.fetched.Nodup ∧ ∀ url : String, s'.trace.fetched.count url ≤ 1 := by
  obtain ⟨-, -, hf, hnd⟩ := visitInv_crawl sc parseUrl o fuel w s' startUrl h
  rw [hf]
  exact ⟨hnd, fun url => List.nodup_iff_count_le_one.1 hnd url⟩

/-- Claim C6, as the code has it, on the example site: pages `a` and `b` are each
fetched once by `crawlPage`. -/
theorem crawl_fetches_once_witness :
    ∃ s', crawl (demoScraper true) demoParseUrl (demoOptions 1 5) 3 (Crawler.fresh demoWorld)
        "https://x.com/docs/a" = CrawlResult.returned s' ∧
      s'.trace.fetched = ["https://x.com/docs/a", "https://x.com/docs/b"] ∧
      s'.trace.fetched.Nodup ∧ ∀ url : String, s'.trace.fetched.count url ≤ 1 :=
  ⟨_, rfl, by decide,
    crawl_fetches_once (demoScraper true) demoParseUrl (demoOptions 1 5) demoWorld
      "https://x.com/docs/a" 3 _ rfl⟩

/-- Claim C6 fails as stated. On the example site with depth 1, page `a` lists page `b`
twice, so `b` is pushed onto the frontier twice; and link discovery through
`SimpleScraper.getPageLinks` requests page `a` a second time. -/
theorem crawl_push_and_request_twice :
    ∃ s', crawl (demoScraper true) demoParseUrl (demoOptions 1 5) 3 (Crawler.fresh demoWorld)
        "https://x.com/docs/a" = CrawlResult.returned s' ∧
      (s'.trace.pushed.map (fun e => e.url)).count "https://x.com/docs/b" = 2 ∧
      s'.world.requests.count "https://x.com/docs/a" = 2 :=
  ⟨_, rfl, by decide, by decide⟩

end Visited

/-! ## Depth ceiling -/

section DepthCeiling

variable {σ : Type} (sc : Scraper σ) (parseUrl : String → Option ParsedUrl) (o : Options)

theorem depth_le_loopBody (s : Crawler σ)
    (hs : ∀ p ∈ s.pages, (p.depth : Int) ≤ depthLimit o) (h : loopCond o s = true) :
    ∀ p ∈ (loopBody sc parseUrl o s).pages, (p.depth : Int) ≤ depthLimit o := by
  obtain ⟨current, rest, -, -, hcase⟩ := loopBody_cases sc parseUrl o s h
  rcases hcase with ⟨hb, -⟩ | ⟨-, hd, w, newPages, links, disc, hb, hnp, -⟩
  · rw [hb]
    exact hs
  · rw [hb]
    intro p hp
    simp only [List.mem_append] at hp
    rcases hp with hp | hp
    · exact hs p hp
    · rcases hnp with rfl | ⟨pd, rfl, -, hdep⟩
      · simp at hp
      · simp only [List.mem_singleton] at hp
        subst hp
        rw [hdep]
        exact hd

/-- Every record returned by `crawl` on a fresh controller has depth at most the ceiling
the code uses, `options.depth || 2`. -/
theorem crawl_depth_le_depthLimit (w : σ) (startUrl : String) (fuel : Nat)
    (pages : List PageData)
    (h : (crawl sc parseUrl o fuel (Crawler.fresh w) startUrl).pages = some pages) :
    ∀ p ∈ pages, (p.depth : Int) ≤ depthLimit o := by
  obtain ⟨s', hr, rfl⟩ := crawl_pages_eq_some sc parseUrl o fuel _ startUrl pages h
  refine crawl_invariant sc parseUrl o (fun s => ∀ p ∈ s.pages, (p.depth : Int) ≤ depthLimit o)
    (depth_le_loopBody sc parseUrl o) fuel (Crawler.fresh w) s' startUrl ?_ hr
  intro u _ p hp
  simp [pushSeed, Crawler.fresh] at hp

/-- Claim C3, as the code has it. For every non-zero depth option `d` and whatever the
scraper answers, every record returned by `crawl` on a fresh controller has depth at most
`d`; and the crawl does return a sequence whenever the seed URL parses. -/
theorem crawl_depth_le_ceiling (w : σ) (startUrl : String) (hd : o.depth ≠ 0) :
    (∀ (fuel : Nat) (pages : List PageData),
        (crawl sc parseUrl o fuel (Crawler.fresh w) startUrl).pages = some pages →
        ∀ p ∈ pages, (p.depth : Int) ≤ o.depth) ∧
      (parseUrl startUrl ≠ none → ∃ n : Nat, ∀ fuel : Nat, n ≤ fuel →
        ∃ pages, (crawl sc parseUrl o fuel (Crawler.fresh w) startUrl).pages = some pages) := by
  refine ⟨?_, crawl_pages_returns sc parseUrl o (Crawler.fresh w) startUrl⟩
  intro fuel pages h p hp
  have hle := crawl_depth_le_depthLimit sc parseUrl o w startUrl fuel pages h p hp
  unfold depthLimit at hle
  rwa [if_neg hd] at hle

/-- Claim C3, as the code has it, on the example site with depth 1: pages `a` (depth 0)
and `b` (depth 1) are returned, both within the ceiling 1. -/
theorem crawl_depth_le_ceiling_witness :
    (demoOptions 1 5).depth ≠ 0 ∧
    (crawl (demoScraper false) demoParseUrl (demoOptions 1 5) 3 (Crawler.fresh demoWorld)
        "https://x.com/docs/a").pages =
      some [pageDataOf "https://x.com/docs/a" 0 demoContentA "t",
        pageDataOf "https://x.com/docs/b" 1 demoContentB "t"] ∧
    ∀ p ∈ [pageDataOf "https://x.com/docs/a" 0 demoContentA "t",
        pageDataOf "https://x.com/docs/b" 1 demoContentB "t"],
      (p.depth : Int) ≤ (demoOptions 1 5).depth :=
  ⟨by decide, by decide,
    (crawl_depth_le_ceiling (demoScraper false) demoParseUrl (demoOptions 1 5) demoWorld
      "https://x.com/docs/a" (by decide)).1 3 _ (by decide)⟩

/-- Claim C3 fails at `d = 0`. With the depth option `0` the crawl of the example site
returns page `b` at depth 1, above the configured ceiling 0. -/
theorem crawl_depth_zero_exceeded :
    (crawl (demoScraper false) demoParseUrl (demoOptions 0 5) 3 (Crawler.fresh demoWorld)
        "https://x.com/docs/a").pages =
      some [pageDataOf "https://x.com/docs/a" 0 demoContentA "t",
        pageDataOf "https://x.com/docs/b" 1 demoContentB "t"] ∧
    ¬ ∀ p ∈ [pageDataOf "https://x.com/docs/a" 0 demoContentA "t",
        pageDataOf "https://x.com/docs/b" 1 demoContentB "t"],
      (p.depth : Int) ≤ (demoOptions 0 5).depth := by
  refine ⟨by decide, ?_⟩
  intro h
  have := h (pageDataOf "https://x.com/docs/b" 1 demoContentB "t") (by simp)
  revert this
  decide

end DepthCeiling

/-! ## URL filter -/

section UrlFilter

variable (parseUrl : String → Option ParsedUrl) (o : Options)

theorem includes_iff (s pattern : String) :
    includes s pattern = true ↔ ContainsSubstring s pattern := by
  unfold includes ContainsSubstring
  rw [decide_eq_true_iff]
  constructor
  · rintro ⟨a, b, h⟩
    refine ⟨⟨a⟩, ⟨b⟩, ?_⟩
    apply String.ext
    simp [String.data_append, h]
  · rintro ⟨a, b, h⟩
    refine ⟨a.data, b.data, ?_⟩
    rw [h]
    simp [String.data_append]

/-- The decision of `isValidDocumentationUrl`, as one condition. -/
theorem isValidDocumentationUrl_eq_true_iff (baseUrl url : String) :
    isValidDocumentationUrl parseUrl o baseUrl url = true ↔
      ∃ p, parseUrl url = some p ∧ p.origin = baseUrl ∧
        (∀ pattern ∈ excludePatterns o,
          ¬ ContainsSubstring (toLowerCase p.pathname) pattern) ∧
        (includePatterns o = [] ∨
          ∃ pattern ∈ includePatterns o,
            ContainsSubstring (toLowerCase p.pathname) pattern) := by
  unfold isValidDocumentationUrl
  rcases hp : parseUrl url with _ | p
  · simp
  · simp only [Option.some.injEq, exists_eq_left', ← includes_iff]
    by_cases ho : p.origin = baseUrl
    · by_cases hex : (excludePatterns o).any (fun pattern =>
          includes (toLowerCase p.pathname) pattern) = true
      · have hex' := hex
        simp only [List.any_eq_true] at hex'
        obtain ⟨pat, hmem, hinc⟩ := hex'
        simp only [ho, hex, ne_eq, not_true_eq_false, if_false, if_true, true_and,
          Bool.false_eq_true, false_iff, not_and]
        intro hall
        exact absurd hinc (hall pat hmem)
      · have hall : ∀ pattern ∈ excludePatterns o,
            ¬ includes (toLowerCase p.pathname) pattern = true := by
          intro pat hmem hinc
          exact hex (List.any_eq_true.2 ⟨pat, hmem, hinc⟩)
        simp only [ho, hex, ne_eq, not_true_eq_false, if_false, true_and, Bool.false_eq_true]
        rcases hinc : includePatterns o with _ | ⟨i, is⟩
        · simpa using hall
        · by_cases hany : (i :: is).any (fun pattern =>
              includes (toLowerCase p.pathname) pattern) = true
          · have hany' := hany
            simp only [List.any_eq_true] at hany'
            simp only [List.length_cons, gt_iff_lt, Nat.zero_lt_succ, if_true, hany,
              Bool.not_true, Bool.false_eq_true, if_false, true_iff]
            exact ⟨hall, Or.inr hany'⟩
          · have hnone : ¬ ∃ pattern ∈ i :: is,
                includes (toLowerCase p.pathname) pattern = true := by
              intro h
              exact hany (List.any_eq_true.2 h)
            simp only [List.length_cons, gt_iff_lt, Nat.zero_lt_succ, if_true, hany,
              Bool.not_false, Bool.false_eq_true, false_iff, not_and]
            intro _ h
            rcases h with h | h
            · simp at h
            · exact hnone h
    · simp [ho]

end UrlFilter

/-! ## URL filter: the claims -/

section UrlFilterClaims

variable {σ : Type} (sc : Scraper σ) (parseUrl : String → Option ParsedUrl) (o : Options)

/-- Claim C9. After `initialize(seed)`, `isValidDocumentationUrl(url)` returns true if and
only if `url` parses, its origin equals the seed's origin, its lower-cased path contains
none of the exclude patterns, and the include list is empty or the lower-cased path
contains one of the include patterns; in every other case it returns false. -/
theorem isValidDocumentationUrl_spec (s s1 : Crawler σ) (startUrl url : String)
    (hinit : initCrawler parseUrl s startUrl = some s1) :
    (isValidDocumentationUrl parseUrl o s1.baseUrl url = true ↔
      ∃ p seed, parseUrl url = some p ∧ parseUrl startUrl = some seed ∧
        p.origin = seed.origin ∧
        (∀ pattern ∈ excludePatterns o,
          ¬ ContainsSubstring (toLowerCase p.pathname) pattern) ∧
        (includePatterns o = [] ∨
          ∃ pattern ∈ includePatterns o,
            ContainsSubstring (toLowerCase p.pathname) pattern)) ∧
    (isValidDocumentationUrl parseUrl o s1.baseUrl url = false ↔
      ¬ ∃ p seed, parseUrl url = some p ∧ parseUrl startUrl = some seed ∧
        p.origin = seed.origin ∧
        (∀ pattern ∈ excludePatterns o,
          ¬ ContainsSubstring (toLowerCase p.pathname) pattern) ∧
        (includePatterns o = [] ∨
          ∃ pattern ∈ includePatterns o,
            ContainsSubstring (toLowerCase p.pathname) pattern)) := by
  unfold initCrawler at hinit
  rcases hseed : parseUrl startUrl with _ | seed
  · simp [hseed] at hinit
  · simp only [hseed, Option.some.injEq] at hinit
    subst hinit
    have key := isValidDocumentationUrl_eq_true_iff parseUrl o seed.origin url
    have main : isValidDocumentationUrl parseUrl o seed.origin url = true ↔
        ∃ p seed', parseUrl url = some p ∧ some seed = some seed' ∧
          p.origin = seed'.origin ∧
          (∀ pattern ∈ excludePatterns o,
            ¬ ContainsSubstring (toLowerCase p.pathname) pattern) ∧
          (includePatterns o = [] ∨
            ∃ pattern ∈ includePatterns o,
              ContainsSubstring (toLowerCase p.pathname) pattern) := by
      rw [key]
      constructor
      · rintro ⟨p, h1, h2, h3⟩
        exact ⟨p, seed, h1, rfl, h2, h3⟩
      · rintro ⟨p, seed', h1, h2, h3, h4⟩
        simp only [Option.some.injEq] at h2
        subst h2
        exact ⟨p, h1, h3, h4⟩
    refine ⟨main, ?_⟩
    rw [← main]
    simp

/-- Claim C9 on the example site: with seed `https://x.com/docs/a`, the link
`https://x.com/docs/b` is accepted, and so meets the four conditions. -/
theorem isValidDocumentationUrl_spec_witness :
    isValidDocumentationUrl demoParseUrl (demoOptions 1 5) "https://x.com"
        "https://x.com/docs/b" = true ∧
      ∃ p seed, demoParseUrl "https://x.com/docs/b" = some p ∧
        demoParseUrl "https://x.com/docs/a" = some seed ∧ p.origin = seed.origin ∧
        (∀ pattern ∈ excludePatterns (demoOptions 1 5),
          ¬ ContainsSubstring (toLowerCase p.pathname) pattern) ∧
        (includePatterns (demoOptions 1 5) = [] ∨
          ∃ pattern ∈ includePatterns (demoOptions 1 5),
            ContainsSubstring (toLowerCase p.pathname) pattern) :=
  ⟨by decide,
    (isValidDocumentationUrl_spec demoParseUrl (demoOptions 1 5) (Crawler.fresh demoWorld)
      { Crawler.fresh demoWorld with baseUrl := "https://x.com" } "https://x.com/docs/a"
      "https://x.com/docs/b" rfl).1.1 (by decide)⟩

/-- The entries pushed by one call of `crawlPage`, whether or not the page was visited. -/
theorem crawlPage_pushes (s : Crawler σ) (url : String) (depth : Nat) :
    ∃ links : List String,
      (crawlPage sc parseUrl o s url depth).queue =
        s.queue ++ newEntries parseUrl o s.baseUrl (s.visited ++ [url]) depth links ∧
      (crawlPage sc parseUrl o s url depth).trace.pushed =
        s.trace.pushed ++ newEntries parseUrl o s.baseUrl (s.visited ++ [url]) depth links := by
  by_cases hv : url ∈ s.visited
  · refine ⟨[], ?_⟩
    rw [crawlPage_of_visited sc parseUrl o s url depth hv]
    simp [newEntries_nil]
  · obtain ⟨w, newPages, links, disc, hb, -⟩ := crawlPage_cases sc parseUrl o s url depth hv
    exact ⟨links, by rw [hb], by rw [hb]⟩

theorem pushInv_loopBody (s : Crawler σ) (hs : PushInv parseUrl o s)
    (h : loopCond o s = true) : PushInv parseUrl o (loopBody sc parseUrl o s) := by
  obtain ⟨hne, hall⟩ := hs
  obtain ⟨current, rest, -, -, hcase⟩ := loopBody_cases sc parseUrl o s h
  rcases hcase with ⟨hb, -⟩ | ⟨-, -, w, newPages, links, disc, hb, -⟩
  · rw [hb]
    exact ⟨hne, hall⟩
  · rw [hb]
    refine ⟨by simp [hne], ?_⟩
    intro e he
    simp only [List.tail_append_of_ne_nil hne, List.mem_append] at he
    rcases he with he | he
    · exact hall e he
    · exact ((mem_newEntries parseUrl o _ _ _ _ e).1 he).2.2.2

end UrlFilterClaims

section ExcludePriority

variable {σ : Type} (sc : Scraper σ) (parseUrl : String → Option ParsedUrl) (o : Options)

theorem pushInv_crawl (fuel : Nat) (w : σ) (s' : Crawler σ) (startUrl : String)
    (h : crawl sc parseUrl o fuel (Crawler.fresh w) startUrl = CrawlResult.returned s') :
    PushInv parseUrl o s' := by
  refine crawl_invariant sc parseUrl o (PushInv parseUrl o) (pushInv_loopBody sc parseUrl o)
    fuel (Crawler.fresh w) s' startUrl ?_ h
  intro u _
  simp [PushInv, pushSeed, Crawler.fresh]

/-- Claim C10. Exclusion takes priority over inclusion. For a URL whose lower-cased path
contains an exclude pattern and for every `includePatterns` option,
`isValidDocumentationUrl` returns false, no call of `crawlPage` pushes the URL onto the
frontier, and in a crawl no push after the seed's carries it. -/
theorem exclude_overrides_include (url : String) (p : ParsedUrl)
    (hp : parseUrl url = some p)
    (hex : ∃ pattern ∈ excludePatterns o,
      ContainsSubstring (toLowerCase p.pathname) pattern)
    (inc : Option (List String)) :
    (∀ baseUrl : String,
      isValidDocumentationUrl parseUrl { o with includePatterns := inc } baseUrl url = false) ∧
    (∀ (s : Crawler σ) (pageUrl : String) (depth : Nat), ∃ ext : List FrontierEntry,
      (crawlPage sc parseUrl { o with includePatterns := inc } s pageUrl depth).queue =
        s.queue ++ ext ∧
      (crawlPage sc parseUrl { o with includePatterns := inc } s pageUrl depth).trace.pushed =
        s.trace.pushed ++ ext ∧
      ∀ e ∈ ext, e.url ≠ url) ∧
    (∀ (w : σ) (startUrl : String) (fuel : Nat) (s' : Crawler σ),
      crawl sc parseUrl { o with includePatterns := inc } fuel (Crawler.fresh w) startUrl =
        CrawlResult.returned s' →
      ∀ e ∈ s'.trace.pushed.tail, e.url ≠ url) := by
  have hfalse : ∀ baseUrl : String,
      isValidDocumentationUrl parseUrl { o with includePatterns := inc } baseUrl url =
        false := by
    intro baseUrl
    rw [← Bool.not_eq_true, isValidDocumentationUrl_eq_true_iff]
    rintro ⟨p', hp', -, hnone, -⟩
    rw [hp] at hp'
    simp only [Option.some.injEq] at hp'
    subst hp'
    obtain ⟨pattern, hmem, hcon⟩ := hex
    exact hnone pattern hmem hcon
  refine ⟨hfalse, ?_, ?_⟩
  · intro s pageUrl depth
    obtain ⟨links, hq, hpu⟩ :=
      crawlPage_pushes sc parseUrl { o with includePatterns := inc } s pageUrl depth
    refine ⟨_, hq, hpu, ?_⟩
    intro e he heq
    have hvalid := ((mem_newEntries parseUrl _ _ _ _ _ e).1 he).2.2.2
    rw [heq, hfalse] at hvalid
    exact Bool.false_ne_true hvalid
  · intro w startUrl fuel s' h e he heq
    have hvalid := (pushInv_crawl sc parseUrl _ fuel w s' startUrl h).2 e he
    rw [heq, hfalse] at hvalid
    exact Bool.false_ne_true hvalid

/-- Claim C10 on its own example: with `excludePatterns = ['/blog']` and
`includePatterns = ['/blog']` the link `https://x.com/blog/post` is rejected, and the
crawl of the example site, whose page `a` links to it, never pushes it. -/
theorem exclude_overrides_include_witness :
    isValidDocumentationUrl demoParseUrl
        { demoOptions 1 5 with includePatterns := some ["/blog"] } "https://x.com"
        "https://x.com/blog/post" = false ∧
      ∃ s', crawl (demoScraper false) demoParseUrl
          { demoOptions 1 5 with includePatterns := some ["/blog"] } 1
          (Crawler.fresh demoWorld) "https://x.com/docs/a" = CrawlResult.returned s' ∧
        ∀ e ∈ s'.trace.pushed.tail, e.url ≠ "https://x.com/blog/post" :=
  have key := exclude_overrides_include (demoScraper false) demoParseUrl (demoOptions 1 5)
    "https://x.com/blog/post" ⟨"https://x.com", "/blog/post"⟩ rfl
    ⟨"/blog", by decide, (includes_iff _ _).1 (by decide)⟩ (some ["/blog"])
  ⟨key.1 "https://x.com", _, rfl, key.2.2 demoWorld "https://x.com/docs/a" 1 _ rfl⟩

end ExcludePriority

/-! ## Failed fetches -/

section FetchFailure

variable {σ : Type} (sc : Scraper σ) (parseUrl : String → Option ParsedUrl) (o : Options)

theorem crawlLoop_of_loopCond_false (fuel : Nat) (s : Crawler σ)
    (h : loopCond o s = false) : crawlLoop sc parseUrl o fuel s = some s := by
  unfold crawlLoop
  simp [h]

theorem crawlLoop_of_loopCond_true (fuel : Nat) (s s' : Crawler σ)
    (hc : loopCond o s = true) (h : crawlLoop sc parseUrl o fuel s = some s') :
    ∃ f, fuel = f + 1 ∧ crawlLoop sc parseUrl o f (loopBody sc parseUrl o s) = some s' := by
  cases fuel with
  | zero =>
    unfold crawlLoop at h
    simp [hc] at h
  | succ f =>
    refine ⟨f, rfl, ?_⟩
    rw [crawlLoop] at h
    simpa [hc] using h

theorem loopBody_pages_grow (s : Crawler σ) (h : loopCond o s = true) :
    s.pages <+: (loopBody sc parseUrl o s).pages := by
  obtain ⟨current, rest, -, -, hcase⟩ := loopBody_cases sc parseUrl o s h
  rcases hcase with ⟨hb, -⟩ | ⟨-, -, w, newPages, links, disc, hb, -⟩
  · rw [hb]
  · rw [hb]
    exact List.prefix_append _ _

theorem crawlLoop_pages_grow (fuel : Nat) (s s' : Crawler σ)
    (h : crawlLoop sc parseUrl o fuel s = some s') : s.pages <+: s'.pages :=
  crawlLoop_invariant sc parseUrl o (fun t => s.pages <+: t.pages)
    (fun t ht hc => ht.trans (loopBody_pages_grow sc parseUrl o t hc)) fuel s s'
    (List.prefix_refl _) h

/-- The effect of `crawlPage` on a page whose fetch fails. -/
theorem crawlPage_fetch_failed (s : Crawler σ) (url : String) (depth : Nat)
    (hv : url ∉ s.visited) (hfail : (sc.getPageContent s.world url).2 = none) :
    (crawlPage sc parseUrl o s url depth).visited = s.visited ++ [url] ∧
      (crawlPage sc parseUrl o s url depth).pages = s.pages ∧
      (crawlPage sc parseUrl o s url depth).queue = s.queue ∧
      (crawlPage sc parseUrl o s url depth).trace.pushed = s.trace.pushed := by
  obtain ⟨w, newPages, links, disc, hb, -, hnone, -⟩ :=
    crawlPage_cases sc parseUrl o s url depth hv
  obtain ⟨rfl, rfl⟩ := hnone hfail
  rw [hb]
  simp [newEntries_nil]

theorem loopCond_pushSeed_fresh (w : σ) (origin startUrl : String)
    (hmax : 0 < maxPagesLimit o) :
    loopCond o (pushSeed { Crawler.fresh w with baseUrl := origin } startUrl) = true := by
  rw [loopCond_iff]
  simp [pushSeed, Crawler.fresh, hmax]

/-- When the seed's fetch fails, the crawl of a fresh controller returns no record. -/
theorem crawl_seed_failed (w : σ) (startUrl : String) (hp : parseUrl startUrl ≠ none)
    (hfail : (sc.getPageContent w startUrl).2 = none) (fuel : Nat) :
    (crawl sc parseUrl o (fuel + 1) (Crawler.fresh w) startUrl).pages = some [] := by
  rcases hu : parseUrl startUrl with _ | u
  · exact absurd hu hp
  · have hgoal : ∃ s', crawlLoop sc parseUrl o (fuel + 1)
        (pushSeed { Crawler.fresh w with baseUrl := u.origin } startUrl) = some s' ∧
        s'.pages = [] := by
      by_cases hc : loopCond o
          (pushSeed { Crawler.fresh w with baseUrl := u.origin } startUrl) = true
      · rw [crawlLoop]
        simp only [hc, if_true]
        obtain ⟨current, rest, hq, -, hcase⟩ := loopBody_cases sc parseUrl o _ hc
        have hcur : current = { url := startUrl, depth := 0 } ∧ rest = [] := by
          simpa [pushSeed, Crawler.fresh, eq_comm] using hq
        obtain ⟨rfl, rfl⟩ := hcur
        rcases hcase with ⟨hb, -⟩ | ⟨-, -, w1, newPages, links, disc, hb, -, hnone, -⟩
        · refine ⟨_, crawlLoop_of_loopCond_false sc parseUrl o fuel _ ?_, ?_⟩
          · rw [hb]
            simp [loopCond]
          · rw [hb]
            rfl
        · obtain ⟨rfl, rfl⟩ := hnone hfail
          refine ⟨_, crawlLoop_of_loopCond_false sc parseUrl o fuel _ ?_, ?_⟩
          · rw [hb]
            simp [loopCond, newEntries_nil]
          · rw [hb]
            rfl
      · refine ⟨_, crawlLoop_of_loopCond_false sc parseUrl o _ _ (by simpa using hc), ?_⟩
        rfl
    obtain ⟨s', hl, hpages⟩ := hgoal
    rw [crawl_eq_of_loop sc parseUrl o (fuel + 1) (Crawler.fresh w) s' startUrl u hu hl]
    simp [CrawlResult.pages, hpages]

/-- When the seed's fetch succeeds, its record heads the returned sequence, whatever
happens to the fetches that follow. -/
theorem crawl_seed_record_kept (w : σ) (startUrl : String) (c : PageContent)
    (hdepth : 0 ≤ depthLimit o) (hmax : 0 < maxPagesLimit o)
    (hok : (sc.getPageContent w startUrl).2 = some c)
    (fuel : Nat) (pages : List PageData)
    (h : (crawl sc parseUrl o fuel (Crawler.fresh w) startUrl).pages = some pages) :
    ∃ others, pages =
      pageDataOf startUrl 0 c (sc.now (sc.getPageContent w startUrl).1) :: others := by
  obtain ⟨s', hr, rfl⟩ := crawl_pages_eq_some sc parseUrl o fuel _ startUrl pages h
  obtain ⟨u, -, hl⟩ := crawl_returned sc parseUrl o fuel _ s' startUrl hr
  have hc := loopCond_pushSeed_fresh o w u.origin startUrl hmax
  obtain ⟨f, -, hl'⟩ := crawlLoop_of_loopCond_true sc parseUrl o fuel _ s' hc hl
  have hpre := crawlLoop_pages_grow sc parseUrl o f _ s' hl'
  obtain ⟨current, rest, hq, -, hcase⟩ := loopBody_cases sc parseUrl o _ hc
  have hcur : current = { url := startUrl, depth := 0 } ∧ rest = [] := by
    simpa [pushSeed, Crawler.fresh, eq_comm] using hq
  obtain ⟨rfl, rfl⟩ := hcur
  rcases hcase with ⟨-, hskip⟩ | ⟨-, -, w1, newPages, links, disc, hb, -, -, hsome, -⟩
  · exfalso
    rcases hskip with hv | hd
    · simp [pushSeed, Crawler.fresh] at hv
    · simp only [Nat.cast_zero] at hd
      omega
  · have hnew := hsome c hok
    rw [hb] at hpre
    obtain ⟨t, ht⟩ := hpre
    refine ⟨t, ?_⟩
    rw [← ht, hnew]
    simp [pushSeed, Crawler.fresh]

end FetchFailure

section FetchFailureClaim

variable {σ : Type} (sc : Scraper σ) (parseUrl : String → Option ParsedUrl) (o : Options)

/-- Claim C7. When `initialize` succeeds (the seed parses), `crawl` never raises and,
given enough fuel, returns. A failed fetch of a URL marks it visited, appends no record
and pushes no link; the loop goes on with the rest of the frontier; records once collected
stay in the result. When the seed's fetch fails the result is the empty sequence, and
when the seed's fetch succeeds its record is returned whatever fails later. -/
theorem crawl_survives_fetch_failure :
    (∀ (s : Crawler σ) (startUrl : String), parseUrl startUrl ≠ none →
      (∀ fuel : Nat, crawl sc parseUrl o fuel s startUrl ≠ CrawlResult.raised) ∧
      ∃ n : Nat, ∀ fuel : Nat, n ≤ fuel →
        ∃ s', crawl sc parseUrl o fuel s startUrl = CrawlResult.returned s') ∧
    (∀ (s : Crawler σ) (url : String) (depth : Nat), url ∉ s.visited →
      (sc.getPageContent s.world url).2 = none →
      (crawlPage sc parseUrl o s url depth).visited = s.visited ++ [url] ∧
      (crawlPage sc parseUrl o s url depth).pages = s.pages ∧
      (crawlPage sc parseUrl o s url depth).queue = s.queue ∧
      (crawlPage sc parseUrl o s url depth).trace.pushed = s.trace.pushed) ∧
    (∀ (s : Crawler σ) (current : FrontierEntry) (rest : List FrontierEntry) (fuel : Nat),
      s.queue = current :: rest → (s.pages.length : Int) < maxPagesLimit o →
      current.url ∉ s.visited → (current.depth : Int) ≤ depthLimit o →
      (sc.getPageContent s.world current.url).2 = none →
      ∃ r : Crawler σ,
        crawlLoop sc parseUrl o (fuel + 1) s = crawlLoop sc parseUrl o fuel r ∧
        r.queue = rest ∧ r.pages = s.pages ∧ r.visited = s.visited ++ [current.url]) ∧
    (∀ (fuel : Nat) (s s' : Crawler σ), crawlLoop sc parseUrl o fuel s = some s' →
      s.pages <+: s'.pages) ∧
    (∀ (w : σ) (startUrl : String) (fuel : Nat), parseUrl startUrl ≠ none →
      (sc.getPageContent w startUrl).2 = none →
      (crawl sc parseUrl o (fuel + 1) (Crawler.fresh w) startUrl).pages = some []) ∧
    (∀ (w : σ) (startUrl : String) (c : PageContent) (fuel : Nat) (pages : List PageData),
      0 ≤ depthLimit o → 0 < maxPagesLimit o →
      (sc.getPageContent w startUrl).2 = some c →
      (crawl sc parseUrl o fuel (Crawler.fresh w) startUrl).pages = some pages →
      ∃ others, pages =
        pageDataOf startUrl 0 c (sc.now (sc.getPageContent w startUrl).1) :: others) := by
  refine ⟨?_, ?_, ?_, ?_, ?_, ?_⟩
  · intro s startUrl hp
    refine ⟨?_, crawl_returns sc parseUrl o s startUrl hp⟩
    intro fuel
    rcases hu : parseUrl startUrl with _ | u
    · exact absurd hu hp
    · unfold crawl initCrawler
      simp only [hu]
      split <;> simp
  · intro s url depth hv hfail
    exact crawlPage_fetch_failed sc parseUrl o s url depth hv hfail
  · intro s current rest fuel hq hlen hv hd hfail
    have hc : loopCond o s = true := (loopCond_iff o s).2 ⟨by simp [hq], hlen⟩
    have hbody : loopBody sc parseUrl o s =
        crawlPage sc parseUrl o { s with queue := rest } current.url current.depth := by
      have hd' : ¬ ((current.depth : Int) > depthLimit o) := by omega
      simp [loopBody, hq, contains_eq_decide, hv, hd']
    obtain ⟨h1, h2, h3, -⟩ := crawlPage_fetch_failed sc parseUrl o { s with queue := rest }
      current.url current.depth hv hfail
    refine ⟨loopBody sc parseUrl o s, ?_, ?_, ?_, ?_⟩
    · rw [crawlLoop]
      simp only [hc, if_true]
    · rw [hbody, h3]
    · rw [hbody, h2]
    · rw [hbody, h1]
  · intro fuel s s' h
    exact crawlLoop_pages_grow sc parseUrl o fuel s s' h
  · intro w startUrl fuel hp hfail
    exact crawl_seed_failed sc parseUrl o w startUrl hp hfail fuel
  · intro w startUrl c fuel pages hdepth hmax hok h
    exact crawl_seed_record_kept sc parseUrl o w startUrl c hdepth hmax hok fuel pages h

/-- Claim C7 on the example site when the fetch of page `b`, linked from page `a`,
fails: the crawl from `a` returns the record of `a`, and the crawl from `b` returns the
empty sequence. -/
theorem crawl_survives_fetch_failure_witness :
    (crawl (demoScraper true) demoParseUrl (demoOptions 1 5) 3 (Crawler.fresh demoWorld)
        "https://x.com/docs/a").pages =
      some [pageDataOf "https://x.com/docs/a" 0 demoContentA "t"] ∧
    (∃ others, [pageDataOf "https://x.com/docs/a" 0 demoContentA "t"] =
      pageDataOf "https://x.com/docs/a" 0 demoContentA "t" :: others) ∧
    (crawl (demoScraper true) demoParseUrl (demoOptions 1 5) 1 (Crawler.fresh demoWorld)
        "https://x.com/docs/b").pages = some [] :=
  ⟨by decide,
    (crawl_survives_fetch_failure (demoScraper true) demoParseUrl (demoOptions 1 5)).2.2.2.2.2
      demoWorld "https://x.com/docs/a" demoContentA 3 _ (by decide) (by decide) rfl
      (by decide),
    (crawl_survives_fetch_failure (demoScraper true) demoParseUrl (demoOptions 1 5)).2.2.2.2.1
      demoWorld "https://x.com/docs/b" 0 (by decide) rfl⟩

end FetchFailureClaim

/-! ## Breadth-first order -/

section BreadthFirst

variable {σ : Type} (sc : Scraper σ) (parseUrl : String → Option ParsedUrl) (o : Options)

theorem bfsInv_start (w : σ) (startUrl origin : String) :
    BfsInv (pushSeed { Crawler.fresh w with baseUrl := origin } startUrl) := by
  simp [BfsInv, pushSeed, Crawler.fresh]

theorem bfsInv_loopBody (s : Crawler σ) (hs : BfsInv s) (h : loopCond o s = true) :
    BfsInv (loopBody sc parseUrl o s) := by
  obtain ⟨hq, hspan, hp, hpq⟩ := hs
  obtain ⟨current, rest, hqueue, -, hcase⟩ := loopBody_cases sc parseUrl o s h
  rw [hqueue] at hq hspan hpq
  have hrest := (List.pairwise_cons.1 hq).2
  have hge : ∀ e ∈ rest, current.depth ≤ e.depth := (List.pairwise_cons.1 hq).1
  have hle : ∀ e ∈ rest, e.depth ≤ current.depth + 1 := fun e he =>
    hspan current (List.mem_cons_self _ _) e (List.mem_cons_of_mem _ he)
  have hpc : ∀ p ∈ s.pages, p.depth ≤ current.depth := fun p hp' =>
    hpq p hp' current (List.mem_cons_self _ _)
  rcases hcase with ⟨hb, -⟩ | ⟨-, -, w, newPages, links, disc, hb, hnp, -⟩
  · rw [hb]
    refine ⟨hrest, ?_, hp, ?_⟩
    · intro a ha b hb'
      exact hspan a (List.mem_cons_of_mem _ ha) b (List.mem_cons_of_mem _ hb')
    · intro p hp' e he
      exact hpq p hp' e (List.mem_cons_of_mem _ he)
  · rw [hb]
    have hnew : ∀ e ∈ newEntries parseUrl o s.baseUrl (s.visited ++ [current.url])
        current.depth links, e.depth = current.depth + 1 := fun e he =>
      ((mem_newEntries parseUrl o _ _ _ _ e).1 he).1
    have hpd : ∀ p ∈ newPages, p.depth = current.depth := by
      intro p hp'
      rcases hnp with rfl | ⟨pd, rfl, -, hdep⟩
      · simp at hp'
      · simp only [List.mem_singleton] at hp'
        rw [hp', hdep]
    refine ⟨?_, ?_, ?_, ?_⟩
    · simp only [List.pairwise_append]
      refine ⟨hrest, ?_, ?_⟩
      · rw [List.pairwise_iff_forall_sublist]
        intro a b hab
        have ha := hnew a (hab.subset (List.mem_cons_self _ _))
        have hb' := hnew b (hab.subset (by simp))
        omega
      · intro a ha b hb'
        have := hle a ha
        have := hnew b hb'
        omega
    · intro a ha b hb'
      simp only [List.mem_append] at ha hb'
      rcases ha with ha | ha <;> rcases hb' with hb' | hb'
      · have := hge a ha
        have := hle b hb'
        omega
      · have := hge a ha
        have := hnew b hb'
        omega
      · have := hnew a ha
        have := hle b hb'
        omega
      · have := hnew a ha
        have := hnew b hb'
        omega
    · simp only [List.pairwise_append]
      refine ⟨hp, ?_, ?_⟩
      · rcases hnp with rfl | ⟨pd, rfl, -⟩ <;> simp
      · intro a ha b hb'
        have := hpc a ha
        have := hpd b hb'
        omega
    · intro p hp' e he
      simp only [List.mem_append] at hp' he
      rcases hp' with hp' | hp' <;> rcases he with he | he
      · exact hpq p hp' e (List.mem_cons_of_mem _ he)
      · have := hpc p hp'
        have := hnew e he
        omega
      · have := hpd p hp'
        have := hge e he
        omega
      · have := hpd p hp'
        have := hnew e he
        omega

/-- Claim C5. The traversal is breadth-first: after every number of passes of the loop
of a crawl on a fresh controller the frontier is sorted by non-decreasing depth and so
are the collected records; hence the returned sequence is sorted by non-decreasing
depth. -/
theorem crawl_breadth_first (w : σ) (startUrl : String) (s1 : Crawler σ)
    (hinit : initCrawler parseUrl (Crawler.fresh w) startUrl = some s1) :
    (∀ n : Nat,
      (crawlIter sc parseUrl o n (pushSeed s1 startUrl)).queue.Pairwise
          (fun a b => a.depth ≤ b.depth) ∧
        (crawlIter sc parseUrl o n (pushSeed s1 startUrl)).pages.Pairwise
          (fun p q => p.depth ≤ q.depth)) ∧
    (∀ (fuel : Nat) (pages : List PageData),
      (crawl sc parseUrl o fuel (Crawler.fresh w) startUrl).pages = some pages →
      pages.Pairwise (fun p q => p.depth ≤ q.depth)) ∧
    (∃ n : Nat, ∀ fuel : Nat, n ≤ fuel →
      ∃ pages, (crawl sc parseUrl o fuel (Crawler.fresh w) startUrl).pages = some pages) := by
  unfold initCrawler at hinit
  rcases hu : parseUrl startUrl with _ | u
  · simp [hu] at hinit
  · simp only [hu, Option.some.injEq] at hinit
    subst hinit
    refine ⟨?_, ?_, ?_⟩
    · intro n
      have hinv := crawlIter_invariant sc parseUrl o BfsInv (bfsInv_loopBody sc parseUrl o) n _
        (bfsInv_start w startUrl u.origin)
      exact ⟨hinv.1, hinv.2.2.1⟩
    · intro fuel pages h
      obtain ⟨s', hr, rfl⟩ := crawl_pages_eq_some sc parseUrl o fuel _ startUrl pages h
      exact (crawl_invariant sc parseUrl o BfsInv (bfsInv_loopBody sc parseUrl o) fuel
        (Crawler.fresh w) s' startUrl (fun u' _ => bfsInv_start w startUrl u'.origin) hr).2.2.1
    · exact crawl_pages_returns sc parseUrl o (Crawler.fresh w) startUrl (by simp [hu])

/-- Claim C5 on the example site: after one pass the frontier holds page `b` twice at
depth 1, and the crawl returns `a` (depth 0) before `b` (depth 1). -/
theorem crawl_breadth_first_witness :
    (crawlIter (demoScraper false) demoParseUrl (demoOptions 2 5) 1
        (pushSeed { Crawler.fresh demoWorld with baseUrl := "https://x.com" }
          "https://x.com/docs/a")).queue =
      [⟨"https://x.com/docs/b", 1⟩, ⟨"https://x.com/docs/b", 1⟩] ∧
    (crawl (demoScraper false) demoParseUrl (demoOptions 2 5) 3 (Crawler.fresh demoWorld)
        "https://x.com/docs/a").pages =
      some [pageDataOf "https://x.com/docs/a" 0 demoContentA "t",
        pageDataOf "https://x.com/docs/b" 1 demoContentB "t"] ∧
    [pageDataOf "https://x.com/docs/a" 0 demoContentA "t",
        pageDataOf "https://x.com/docs/b" 1 demoContentB "t"].Pairwise
      (fun p q => p.depth ≤ q.depth) :=
  ⟨by decide, by decide,
    (crawl_breadth_first (demoScraper false) demoParseUrl (demoOptions 2 5) demoWorld
      "https://x.com/docs/a" { Crawler.fresh demoWorld with baseUrl := "https://x.com" }
      rfl).2.1 3 _ (by decide)⟩

end BreadthFirst

/-! ## Depth accounting -/

section DepthAccounting

variable {σ : Type} (sc : Scraper σ) (parseUrl : String → Option ParsedUrl) (o : Options)

theorem HasParent.mono {pages pages' : List PageData}
    {disc disc' : List (String × List String)} {url : String} {depth : Nat}
    (h : HasParent pages disc url depth) (hp : ∀ q ∈ pages, q ∈ pages')
    (hd : ∀ x ∈ disc, x ∈ disc') : HasParent pages' disc' url depth := by
  obtain ⟨q, hq, links, hl, hu, hdep⟩ := h
  exact ⟨q, hp q hq, links, hd _ hl, hu, hdep⟩

theorem depthInv_start (w : σ) (startUrl origin : String) :
    DepthInv startUrl (pushSeed { Crawler.fresh w with baseUrl := origin } startUrl) := by
  refine ⟨Or.inr ⟨?_, rfl⟩, ?_, ?_⟩
  · intro e he
    simpa [pushSeed, Crawler.fresh] using he
  · intro e he
    left
    simpa [pushSeed, Crawler.fresh] using he
  · intro before p after h
    simp [pushSeed, Crawler.fresh] at h

/-- Splitting `pages ++ [pd]` around one of its elements. -/
theorem append_singleton_eq_split {α : Type} (pages : List α) (pd : α)
    (before : List α) (p : α) (after : List α)
    (h : pages ++ [pd] = before ++ p :: after) :
    (before = pages ∧ p = pd ∧ after = []) ∨
      ∃ after', after = after' ++ [pd] ∧ pages = before ++ p :: after' := by
  rcases List.eq_nil_or_concat after with rfl | ⟨after', x, hx⟩
  · left
    have h' : pages ++ [pd] = before ++ [p] := h
    obtain ⟨h1, h2⟩ := List.append_inj' h' rfl
    simp only [List.cons.injEq, and_true] at h2
    exact ⟨h1.symm, h2.symm, rfl⟩
  · right
    rw [List.concat_eq_append] at hx
    subst hx
    have h' : pages ++ [pd] = (before ++ p :: after') ++ [x] := by
      rw [h]
      simp
    obtain ⟨h1, h2⟩ := List.append_inj' h' rfl
    simp only [List.cons.injEq, and_true] at h2
    subst h2
    exact ⟨after', rfl, h1⟩

theorem depthInv_loopBody (seed : String) (s : Crawler σ) (hs : DepthInv seed s)
    (h : loopCond o s = true) : DepthInv seed (loopBody sc parseUrl o s) := by
  obtain ⟨hseed, hqueue, hpages⟩ := hs
  obtain ⟨current, rest, hq, -, hcase⟩ := loopBody_cases sc parseUrl o s h
  rw [hq] at hseed hqueue
  rcases hcase with ⟨hb, -⟩ | ⟨-, -, w, newPages, links, disc, hb, hnp, -, -, hlinks, hdisc⟩
  · rw [hb]
    refine ⟨?_, ?_, hpages⟩
    · rcases hseed with hv | ⟨hall, hnil⟩
      · exact Or.inl hv
      · exact Or.inr ⟨fun e he => hall e (List.mem_cons_of_mem _ he), hnil⟩
    · intro e he
      exact hqueue e (List.mem_cons_of_mem _ he)
  · rw [hb]
    have hvis : seed ∈ s.visited ++ [current.url] := by
      rcases hseed with hv | ⟨hall, -⟩
      · exact List.mem_append_left _ hv
      · have := hall current (List.mem_cons_self _ _)
        simp [this]
    have hcur := hqueue current (List.mem_cons_self _ _)
    refine ⟨Or.inl hvis, ?_, ?_⟩
    · intro e he
      simp only [List.mem_append] at he
      rcases he with he | he
      · rcases hqueue e (List.mem_cons_of_mem _ he) with h0 | ⟨hne, hpar⟩
        · exact Or.inl h0
        · exact Or.inr ⟨hne, hpar.mono (fun q hq' => List.mem_append_left _ hq')
            (fun x hx => List.mem_append_left _ hx)⟩
      · obtain ⟨hdep, hmem, hnv, -⟩ := (mem_newEntries parseUrl o _ _ _ _ e).1 he
        right
        refine ⟨fun heq => hnv (heq ▸ hvis), ?_⟩
        have hne : links ≠ [] := List.ne_nil_of_mem hmem
        have hnew := (hlinks hne).2
        rcases hnp with rfl | ⟨pd, rfl, hurl, hpd⟩
        · exact absurd rfl hnew
        · rcases hdisc with ⟨-, hnil⟩ | rfl
          · exact absurd hnil hne
          · refine ⟨pd, by simp, links, ?_, hmem, ?_⟩
            · simp [hurl]
            · rw [hdep, hpd]
    · intro before p after hsplit
      simp only at hsplit
      rcases hnp with rfl | ⟨pd, rfl, hurl, hpd⟩
      · rw [List.append_nil] at hsplit
        rcases hpages before p after hsplit with h0 | ⟨hne, hpar⟩
        · exact Or.inl h0
        · exact Or.inr ⟨hne, hpar.mono (fun q hq' => hq')
            (fun x hx => List.mem_append_left _ hx)⟩
      · rcases append_singleton_eq_split s.pages pd before p after hsplit with
          ⟨rfl, rfl, -⟩ | ⟨after', -, hold⟩
        · rcases hcur with h0 | ⟨hne, hpar⟩
          · left
            rw [hurl, hpd, h0]
            exact ⟨rfl, rfl⟩
          · right
            rw [hurl, hpd]
            exact ⟨hne, hpar.mono (fun q hq' => hq')
              (fun x hx => List.mem_append_left _ hx)⟩
        · rcases hpages before p after' hold with h0 | ⟨hne, hpar⟩
          · exact Or.inl h0
          · exact Or.inr ⟨hne, hpar.mono (fun q hq' => hq')
              (fun x hx => List.mem_append_left _ hx)⟩

/-- Claim C4. In every crawl on a fresh controller the seed is pushed at depth 0 and its
record has depth 0; every other returned record has depth exactly one more than an
earlier record of the returned sequence whose discovered link list contained its URL;
and every entry `crawlPage` pushes while processing a page of depth `k` has depth
`k + 1`. -/
theorem crawl_depth_accounting (w : σ) (startUrl : String) :
    (∀ s : Crawler σ, (pushSeed s startUrl).queue = s.queue ++ [{ url := startUrl, depth := 0 }]) ∧
    (∀ (fuel : Nat) (s' : Crawler σ),
      crawl sc parseUrl o fuel (Crawler.fresh w) startUrl = CrawlResult.returned s' →
      ∀ (before : List PageData) (p : PageData) (after : List PageData),
        s'.pages = before ++ p :: after →
        (p.url = startUrl → p.depth = 0) ∧
        (p.url ≠ startUrl → ∃ q ∈ before, ∃ links : List String,
          (q.url, links) ∈ s'.trace.discovered ∧ p.url ∈ links ∧ p.depth = q.depth + 1)) ∧
    (∀ (s : Crawler σ) (url : String) (k : Nat), ∃ ext : List FrontierEntry,
      (crawlPage sc parseUrl o s url k).queue = s.queue ++ ext ∧
      (crawlPage sc parseUrl o s url k).trace.pushed = s.trace.pushed ++ ext ∧
      ∀ e ∈ ext, e.depth = k + 1) := by
  refine ⟨fun s => rfl, ?_, ?_⟩
  · intro fuel s' h before p after hsplit
    have hinv : DepthInv startUrl s' :=
      crawl_invariant sc parseUrl o (DepthInv startUrl)
        (depthInv_loopBody sc parseUrl o startUrl) fuel (Crawler.fresh w) s' startUrl
        (fun u _ => depthInv_start w startUrl u.origin) h
    rcases hinv.2.2 before p after hsplit with ⟨h0, hd0⟩ | ⟨hne, hpar⟩
    · exact ⟨fun _ => hd0, fun hne => absurd h0 hne⟩
    · exact ⟨fun heq => absurd heq hne, fun _ => hpar⟩
  · intro s url k
    obtain ⟨links, hq, hpu⟩ := crawlPage_pushes sc parseUrl o s url k
    exact ⟨_, hq, hpu, fun e he => ((mem_newEntries parseUrl o _ _ _ _ e).1 he).1⟩

/-- Claim C4 on the example site: the record of `b` follows the record of `a`, whose
discovered links contain `b`, and is one level deeper. -/
theorem crawl_depth_accounting_witness :
    ∃ s', crawl (demoScraper false) demoParseUrl (demoOptions 2 5) 3 (Crawler.fresh demoWorld)
        "https://x.com/docs/a" = CrawlResult.returned s' ∧
      s'.pages = [pageDataOf "https://x.com/docs/a" 0 demoContentA "t"] ++
        pageDataOf "https://x.com/docs/b" 1 demoContentB "t" :: [] ∧
      ∃ q ∈ [pageDataOf "https://x.com/docs/a" 0 demoContentA "t"],
        ∃ links : List String, (q.url, links) ∈ s'.trace.discovered ∧
          (pageDataOf "https://x.com/docs/b" 1 demoContentB "t").url ∈ links ∧
          (pageDataOf "https://x.com/docs/b" 1 demoContentB "t").depth = q.depth + 1 :=
  ⟨_, rfl, by decide,
    ((crawl_depth_accounting (demoScraper false) demoParseUrl (demoOptions 2 5) demoWorld
      "https://x.com/docs/a").2.1 3 _ rfl
      [pageDataOf "https://x.com/docs/a" 0 demoContentA "t"]
      (pageDataOf "https://x.com/docs/b" 1 demoContentB "t") [] (by decide)).2 (by decide)⟩

end DepthAccounting

/-! ## Link resolution -/

section LinkResolution

variable {σ : Type} (sc : Scraper σ) (parseUrl : String → Option ParsedUrl) (o : Options)

/-- The link lists recorded by `crawlPage` are answers of `getPageLinks` asked with the
controller's base URL. -/
theorem crawlPage_discovered (s : Crawler σ) (url : String) (depth : Nat) :
    (crawlPage sc parseUrl o s url depth).baseUrl = s.baseUrl ∧
    ∀ x ∈ (crawlPage sc parseUrl o s url depth).trace.discovered,
      x ∈ s.trace.discovered ∨
        ∃ w : σ, x.1 = url ∧ (sc.getPageLinks w url s.baseUrl).2 = some x.2 := by
  by_cases hv : url ∈ s.visited
  · rw [crawlPage_of_visited sc parseUrl o s url depth hv]
    exact ⟨rfl, fun x hx => Or.inl hx⟩
  · unfold crawlPage
    simp only [contains_eq_decide, hv, decide_False, Bool.false_eq_true, if_false]
    rcases hc : sc.getPageContent s.world url with ⟨w, _ | c⟩
    · exact ⟨rfl, fun x hx => Or.inl hx⟩
    · by_cases hd : (depth : Int) < depthLimit o
      · rcases hl : sc.getPageLinks w url s.baseUrl with ⟨w2, _ | links⟩
        · simp only [hd, if_true, hl]
          exact ⟨trivial, fun x hx => Or.inl hx⟩
        · simp only [hd, if_true, hl, enqueueLink_foldl]
          refine ⟨trivial, ?_⟩
          intro x hx
          simp only [List.mem_append, List.mem_singleton] at hx
          rcases hx with hx | rfl
          · exact Or.inl hx
          · exact Or.inr ⟨w, rfl, by rw [hl]⟩
      · simp only [hd, if_false]
        exact ⟨trivial, fun x hx => Or.inl hx⟩

theorem loopBody_discovered (s : Crawler σ) :
    (loopBody sc parseUrl o s).baseUrl = s.baseUrl ∧
    ∀ x ∈ (loopBody sc parseUrl o s).trace.discovered,
      x ∈ s.trace.discovered ∨
        ∃ w : σ, (sc.getPageLinks w x.1 s.baseUrl).2 = some x.2 := by
  rcases hq : s.queue with _ | ⟨current, rest⟩
  · have hb : loopBody sc parseUrl o s = s := by
      simp only [loopBody, hq]
    rw [hb]
    exact ⟨rfl, fun x hx => Or.inl hx⟩
  · by_cases hskip : (s.visited.contains current.url ||
        decide ((current.depth : Int) > depthLimit o)) = true
    · have hb : loopBody sc parseUrl o s = { s with queue := rest } := by
        simp only [loopBody, hq, hskip, if_true]
      rw [hb]
      exact ⟨rfl, fun x hx => Or.inl hx⟩
    · have hb : loopBody sc parseUrl o s =
          crawlPage sc parseUrl o { s with queue := rest } current.url current.depth := by
        simp only [loopBody, hq, hskip, Bool.false_eq_true, if_false]
      rw [hb]
      obtain ⟨hbase, hd⟩ := crawlPage_discovered sc parseUrl o { s with queue := rest }
        current.url current.depth
      refine ⟨hbase, fun x hx => ?_⟩
      rcases hd x hx with h | ⟨w, h1, h2⟩
      · exact Or.inl h
      · exact Or.inr ⟨w, by rw [h1]; exact h2⟩

end LinkResolution

section LinkResolutionClaim

variable {ν : Type} (fetchPage : ν → String → ν × Option PageContent)
  (parseUrl : String → Option ParsedUrl) (resolveUrl : String → String → Option String)
  (clock : ν → String) (o : Options)

/-- The links answered by `SimpleScraper.getPageLinks`: the hrefs of the fetched content,
each resolved against `baseUrl`, kept when the result has the origin of `baseUrl`. -/
theorem simpleScraper_getPageLinks_spec (w : SimpleWorld ν) (url baseUrl : String)
    (links : List String)
    (h : (SimpleScraper.getPageLinks fetchPage parseUrl resolveUrl w url baseUrl).2 =
      some links) :
    (fetchPage w.net url).2 = none ∧ links = [] ∨
    ∃ content, (fetchPage w.net url).2 = some content ∧
      ∀ l : String, l ∈ links ↔
        ∃ link ∈ content.links, resolveUrl link.href baseUrl = some l ∧
          ∃ pl pb, parseUrl l = some pl ∧ parseUrl baseUrl = some pb ∧
            pl.origin = pb.origin := by
  unfold SimpleScraper.getPageLinks SimpleScraper.getPageContent at h
  rcases hf : fetchPage w.net url with ⟨n, _ | content⟩
  · left
    simp only [hf, Option.some.injEq] at h
    exact ⟨rfl, h.symm⟩
  · right
    refine ⟨content, rfl, ?_⟩
    simp only [hf, Option.some.injEq] at h
    subst h
    intro l
    simp only [List.mem_filterMap]
    constructor
    · rintro ⟨link, hmem, hl⟩
      refine ⟨link, hmem, ?_⟩
      rcases hr : resolveUrl link.href baseUrl with _ | fullUrl
      · simp [hr] at hl
      · rcases hp : parseUrl fullUrl with _ | pl
        · simp [hr, hp] at hl
        · rcases hb : parseUrl baseUrl with _ | pb
          · simp [hr, hp, hb] at hl
          · simp only [hr, hp, hb] at hl
            by_cases ho : pl.origin = pb.origin
            · simp only [ho, if_true, Option.some.injEq] at hl
              subst hl
              exact ⟨rfl, pl, pb, hp, rfl, ho⟩
            · simp [ho] at hl
    · rintro ⟨link, hmem, hr, pl, pb, hp, hb, ho⟩
      exact ⟨link, hmem, by simp [hr, hp, hb, ho]⟩

theorem resolveInv_loopBody (origin : String) (s : Crawler (SimpleWorld ν))
    (hs : ResolveInv resolveUrl origin s) :
    ResolveInv resolveUrl origin
      (loopBody (simpleScraper fetchPage parseUrl resolveUrl clock) parseUrl o s) := by
  obtain ⟨hbase, hall⟩ := hs
  obtain ⟨hb, hd⟩ := loopBody_discovered
    (simpleScraper fetchPage parseUrl resolveUrl clock) parseUrl o s
  refine ⟨hb.trans hbase, ?_⟩
  intro x hx l hl
  rcases hd x hx with h | ⟨w, h⟩
  · exact hall x h l hl
  · rw [hbase] at h
    rcases simpleScraper_getPageLinks_spec fetchPage parseUrl resolveUrl w x.1 origin x.2 h
      with ⟨-, hnil⟩ | ⟨content, -, hiff⟩
    · rw [hnil] at hl
      simp at hl
    · obtain ⟨link, -, hr, -⟩ := (hiff l).1 hl
      exact ⟨link.href, hr⟩

/-- Claim C11, as the code has it. With the direct HTTP scraper, an href found on a
page is resolved against the crawl's base URL, the origin of the seed, whatever the
page: every link that link discovery answers during a crawl is `resolve(h, origin)`
for some href `h`, and `getPageLinks` answers exactly the same-origin results of
resolving the fetched hrefs against the base URL it is given. -/
theorem crawl_links_resolved_against_origin (w : SimpleWorld ν) (startUrl : String)
    (u : ParsedUrl) (hu : parseUrl startUrl = some u) :
    (∀ (fuel : Nat) (s' : Crawler (SimpleWorld ν)),
      crawl (simpleScraper fetchPage parseUrl resolveUrl clock) parseUrl o fuel
        (Crawler.fresh w) startUrl = CrawlResult.returned s' →
      ∀ x ∈ s'.trace.discovered, ∀ l ∈ x.2,
        ∃ href : String, resolveUrl href u.origin = some l) ∧
    (∀ (w1 : SimpleWorld ν) (page : String) (content : PageContent) (links : List String),
      (fetchPage w1.net page).2 = some content →
      (SimpleScraper.getPageLinks fetchPage parseUrl resolveUrl w1 page u.origin).2 =
        some links →
      ∀ l : String, l ∈ links ↔
        ∃ link ∈ content.links, resolveUrl link.href u.origin = some l ∧
          ∃ pl pb, parseUrl l = some pl ∧ parseUrl u.origin = some pb ∧
            pl.origin = pb.origin) := by
  constructor
  · intro fuel s' h
    have hinv : ResolveInv resolveUrl u.origin s' := by
      refine crawl_invariant (simpleScraper fetchPage parseUrl resolveUrl clock) parseUrl o
        (ResolveInv resolveUrl u.origin)
        (fun s hs _ => resolveInv_loopBody fetchPage parseUrl resolveUrl clock o u.origin s hs)
        fuel (Crawler.fresh w) s' startUrl ?_ h
      intro u' hu'
      rw [hu] at hu'
      simp only [Option.some.injEq] at hu'
      subst hu'
      refine ⟨rfl, ?_⟩
      intro x hx
      simp [pushSeed, Crawler.fresh] at hx
    exact hinv.2
  · intro w1 page content links hf hl
    rcases simpleScraper_getPageLinks_spec fetchPage parseUrl resolveUrl w1 page u.origin
      links hl with ⟨hnone, -⟩ | ⟨content', hc', hiff⟩
    · rw [hnone] at hf
      simp at hf
    · rw [hf] at hc'
      simp only [Option.some.injEq] at hc'
      subst hc'
      exact hiff

/-- Claim C11, as the code has it, on the page `https://ex.com/docs/a/` with the
relative href `b`: the link discovered is `b` resolved against `https://ex.com`. -/
theorem crawl_links_resolved_against_origin_witness :
    ∃ s', crawl exScraper exParseUrl exOptions 2 (Crawler.fresh demoWorld)
        "https://ex.com/docs/a/" = CrawlResult.returned s' ∧
      s'.trace.discovered = [("https://ex.com/docs/a/", ["https://ex.com/b"])] ∧
      ∀ x ∈ s'.trace.discovered, ∀ l ∈ x.2,
        ∃ href : String, exResolveUrl href "https://ex.com" = some l :=
  ⟨_, rfl, by decide,
    (crawl_links_resolved_against_origin exFetch exParseUrl exResolveUrl (fun _ => "t")
      exOptions demoWorld "https://ex.com/docs/a/" ⟨"https://ex.com", "/docs/a/"⟩ rfl).1
      2 _ rfl⟩

/-- Claim C11 fails as stated. The href `b` found on the page `https://ex.com/docs/a/`
resolves against that page to `https://ex.com/docs/a/b`, but the crawl discovers and
pushes `https://ex.com/b`. -/
theorem relative_href_not_resolved_against_page :
    exResolveUrl "b" "https://ex.com/docs/a/" = some "https://ex.com/docs/a/b" ∧
    ∃ s', crawl exScraper exParseUrl exOptions 2 (Crawler.fresh demoWorld)
        "https://ex.com/docs/a/" = CrawlResult.returned s' ∧
      s'.trace.discovered = [("https://ex.com/docs/a/", ["https://ex.com/b"])] ∧
      s'.trace.pushed.map (fun e => e.url) =
        ["https://ex.com/docs/a/", "https://ex.com/b"] :=
  ⟨by decide, _, rfl, by decide, by decide⟩

end LinkResolutionClaim

/-! ## Configuration check -/

section ConfigCheck

variable (parseUrl : String → Option ParsedUrl)

/-- The error list of `validateConfig`, one optional message per check. -/
theorem validateConfig_eq (options : ConfigOptions) :
    validateConfig parseUrl options =
      (if options.url = none ∨ options.url = some "" then ["URL is required"] else []) ++
      (if parseUrl (options.url.getD "undefined") = none then ["Invalid URL format"]
        else []) ++
      (if options.depth.any (fun d => decide (d ≠ 0 ∧ d < 1)) then
        ["Depth must be a positive number"] else []) := by
  obtain ⟨url, depth, mp, ex, inc⟩ := options
  unfold validateConfig
  simp only [List.nil_append]
  rcases hp : parseUrl (url.getD "undefined") with _ | p <;> rcases depth with _ | d
  · simp
  · by_cases hd : d ≠ 0 ∧ d < 1 <;> simp [hd]
  · simp
  · by_cases hd : d ≠ 0 ∧ d < 1 <;> simp [hd]

/-- The configurations `validateConfig` accepts. -/
theorem validateConfig_eq_nil_iff (options : ConfigOptions) :
    validateConfig parseUrl options = [] ↔
      (∃ url, options.url = some url ∧ url ≠ "" ∧ parseUrl url ≠ none) ∧
      (∀ d, options.depth = some d → d = 0 ∨ 1 ≤ d) := by
  rw [validateConfig_eq]
  obtain ⟨url, depth, mp, ex, inc⟩ := options
  simp only [List.append_eq_nil, ite_eq_right_iff, reduceCtorEq, imp_false]
  constructor
  · rintro ⟨⟨h1, h2⟩, h3⟩
    rcases url with _ | u
    · simp at h1
    · refine ⟨⟨u, rfl, ?_, ?_⟩, ?_⟩
      · intro he
        exact h1 (Or.inr (by rw [he]))
      · simpa using h2
      · intro d hd
        have hd' : depth = some d := hd
        subst hd'
        simp only [Option.any_some, decide_eq_true_eq, not_and, not_lt] at h3
        by_cases h0 : d = 0
        · exact Or.inl h0
        · exact Or.inr (h3 h0)
  · rintro ⟨⟨u, hu, hne, hp⟩, hd⟩
    have hu' : url = some u := hu
    subst hu'
    refine ⟨⟨?_, ?_⟩, ?_⟩
    · simp [hne]
    · simpa using hp
    · rcases depth with _ | d
      · simp
      · simp only [Option.any_some, decide_eq_true_eq, not_and, not_lt]
        intro h0
        rcases hd d rfl with h | h
        · exact absurd h h0
        · exact h

/-- On a configuration error `generateAgent` throws the error list and builds no
crawler. -/
theorem generateAgent_configError {σ : Type} (sc : Scraper σ) (fuel : Nat) (w : σ)
    (options : ConfigOptions) (h : validateConfig parseUrl options ≠ []) :
    generateAgent sc parseUrl fuel w options =
      GenerateResult.configError (validateConfig parseUrl options) w := by
  unfold generateAgent
  have hlen : (validateConfig parseUrl options).length > 0 := List.length_pos.2 h
  simp only [hlen, if_true]

/-- Claim C12 at `depth = 0`. For a seed that parses and the numeric depth `0`,
`validateConfig` returns the empty list although the depth is not positive, and
`generateAgent` goes on to crawl: on the example site it returns pages `a` and `b`. -/
theorem validateConfig_accepts_depth_zero :
    validateConfig demoParseUrl
      { url := some "https://x.com/docs/a", depth := some 0, maxPages := none,
        excludePatterns := none, includePatterns := none } = [] ∧
    ∃ s, generateAgent (demoScraper false) demoParseUrl 3 demoWorld
        { url := some "https://x.com/docs/a", depth := some 0, maxPages := none,
          excludePatterns := none, includePatterns := none } = GenerateResult.crawled s ∧
      s.pages.map (fun p => (p.url, p.depth)) =
        [("https://x.com/docs/a", 0), ("https://x.com/docs/b", 1)] :=
  ⟨by decide, _, rfl, by decide⟩

end ConfigCheck

/-! ## Loops that push onto a list -/

section PushLoops

theorem foldl_push_map {α β : Type} (f : β → α) (l : List β) (acc : List α) :
    l.foldl (fun acc b => acc ++ [f b]) acc = acc ++ l.map f := by
  induction l generalizing acc with
  | nil => simp
  | cons b l ih => simp [ih]

theorem foldl_push_filter_map {α β : Type} (p : β → Bool) (f : β → α) (l : List β)
    (acc : List α) :
    l.foldl (fun acc b => if p b = true then acc ++ [f b] else acc) acc =
      acc ++ (l.filter p).map f := by
  induction l generalizing acc with
  | nil => simp
  | cons b l ih =>
    by_cases hp : p b = true
    · simp [ih, hp]
    · simp [ih, hp]

theorem foldl_eq_append_flatMap {α β : Type} (F : List α → β → List α) (g : β → List α)
    (h : ∀ acc b, F acc b = acc ++ g b) (l : List β) (acc : List α) :
    l.foldl F acc = acc ++ l.flatMap g := by
  induction l generalizing acc with
  | nil => simp
  | cons b l ih => simp [ih, h, List.append_assoc]

theorem length_flatMap_eq_sum {α β : Type} (g : β → List α) (l : List β) :
    (l.flatMap g).length = (l.map (fun b => (g b).length)).sum := by
  induction l with
  | nil => simp
  | cons b l ih => simp [ih]

theorem jsSubstring_length_le (s : String) (n : Nat) : (jsSubstring s n).length ≤ n := by
  unfold jsSubstring
  show (s.data.take n).length ≤ n
  exact List.length_take_le n s.data

end PushLoops

/-! ## One record per code block, heading, indicator -/

section PerPage

variable (host : Host)

theorem extractExamples_eq (pages : List PageData) :
    extractExamples host pages = pages.flatMap (examplesOfPage host) := by
  unfold extractExamples
  rw [foldl_eq_append_flatMap _ (examplesOfPage host)]
  · simp
  · intro acc page
    by_cases hlen : page.codeBlocks.length > 0
    · simp only [hlen, if_true]
      rw [foldl_push_map]
      rfl
    · simp only [hlen, if_false]
      have hnil : page.codeBlocks = [] := by
        cases hc : page.codeBlocks with
        | nil => rfl
        | cons b l => simp [hc] at hlen
      simp [examplesOfPage, hnil]

/-- The step of the inner loop of `extractConcepts` for one heading of `page`. -/
theorem conceptsStep_none (page : PageData) (headings : List Heading) :
    headings.foldl
        (fun (concepts : Option (List ConceptRecord)) heading =>
          match concepts with
          | none => none
          | some concepts =>
            if heading.level ≤ 3 then
              match extractSectionContent host page.html heading.id with
              | none => none
              | some content =>
                some
                  (concepts ++
                    [{ title := heading.text,
                       level := heading.level,
                       content := content,
                       url := page.url ++ "#" ++ heading.id,
                       tags := extractTags host heading.text page.content }])
            else some concepts)
        none = none := by
  induction headings with
  | nil => rfl
  | cons h t ih => simpa only [List.foldl_cons] using ih

/-- The inner loop of `extractConcepts` on the headings `headings` of `page`: it appends
one record per heading of level at most 3 when every section lookup returns, and throws
otherwise. -/
theorem conceptsLoop_eq (page : PageData) (headings : List Heading)
    (acc : List ConceptRecord) :
    headings.foldl
        (fun (concepts : Option (List ConceptRecord)) heading =>
          match concepts with
          | none => none
          | some concepts =>
            if heading.level ≤ 3 then
              match extractSectionContent host page.html heading.id with
              | none => none
              | some content =>
                some
                  (concepts ++
                    [{ title := heading.text,
                       level := heading.level,
                       content := content,
                       url := page.url ++ "#" ++ heading.id,
                       tags := extractTags host heading.text page.content }])
            else some concepts)
        (some acc) =
      if headings.all (fun heading =>
          !decide (heading.level ≤ 3) ||
            (extractSectionContent host page.html heading.id).isSome) then
        some (acc ++
          (headings.filter (fun heading => decide (heading.level ≤ 3))).map (fun heading =>
            ({ title := heading.text,
               level := heading.level,
               content := (extractSectionContent host page.html heading.id).getD "",
               url := page.url ++ "#" ++ heading.id,
               tags := extractTags host heading.text page.content } : ConceptRecord)))
      else none := by
  induction headings generalizing acc with
  | nil => simp
  | cons h t ih =>
    rw [List.foldl_cons]
    by_cases hlev : h.level ≤ 3
    · rcases hc : extractSectionContent host page.html h.id with _ | content
      · simp only [hlev, if_true, hc]
        rw [conceptsStep_none]
        simp [hlev, hc]
      · simp only [hlev, if_true, hc]
        rw [ih]
        simp [hlev, hc]
    · simp only [hlev, if_false]
      rw [ih]
      simp [hlev]

theorem extractConcepts_loop (pages : List PageData) (acc : Option (List ConceptRecord)) :
    pages.foldl
        (fun concepts page =>
          page.headings.foldl
            (fun (concepts : Option (List ConceptRecord)) heading =>
              match concepts with
              | none => none
              | some concepts =>
                if heading.level ≤ 3 then
                  match extractSectionContent host page.html heading.id with
                  | none => none
                  | some content =>
                    some
                      (concepts ++
                        [{ title := heading.text,
                           level := heading.level,
                           content := content,
                           url := page.url ++ "#" ++ heading.id,
                           tags := extractTags host heading.text page.content }])
                else some concepts)
            concepts)
        acc =
      match acc with
      | none => none
      | some acc =>
        if pages.all (sectionsResolve host) then
          some (acc ++ pages.flatMap (conceptsOfPage host))
        else none := by
  induction pages generalizing acc with
  | nil => cases acc <;> simp
  | cons p t ih =>
    rw [List.foldl_cons]
    cases acc with
    | none =>
      rw [conceptsStep_none, ih]
    | some acc =>
      rw [conceptsLoop_eq, ih]
      by_cases hp : sectionsResolve host p = true
      · have hp2 := hp
        unfold sectionsResolve at hp2
        rw [if_pos hp2]
        simp [hp, conceptsOfPage]
      · have hp2 := hp
        unfold sectionsResolve at hp2
        rw [if_neg hp2]
        simp [hp]

/-- The method `extractConcepts` returns exactly when every section lookup made for a
heading of level at most 3 returns, and then it emits the records of the pages, page by
page. -/
theorem extractConcepts_eq (pages : List PageData) :
    extractConcepts host pages =
      if pages.all (sectionsResolve host) then some (pages.flatMap (conceptsOfPage host))
      else none := by
  unfold extractConcepts
  rw [extractConcepts_loop]
  simp

theorem extractConcepts_some (pages : List PageData) (concepts : List ConceptRecord)
    (h : extractConcepts host pages = some concepts) :
    concepts = pages.flatMap (conceptsOfPage host) := by
  rw [extractConcepts_eq] at h
  split at h
  · exact (Option.some.inj h).symm
  · exact absurd h (by simp)

theorem extractPatterns_eq (pages : List PageData) :
    extractPatterns host pages = pages.flatMap (patternsOfPage host) := by
  unfold extractPatterns
  rw [foldl_eq_append_flatMap _ (patternsOfPage host)]
  · simp
  · intro acc page
    exact foldl_push_filter_map
      (fun indicator => includes (host.toLowerCase page.content) indicator)
      (fun indicator =>
        ({ type := indicator,
           description := extractPatternDescription host page.content indicator,
           source := page.url,
           examples := extractCodeExamples host page.codeBlocks } : PatternRecord))
      patternIndicators acc

end PerPage

section PerPageClaims

variable (host : Host)

/-- Claim C15. `extractExamples` emits exactly one record per code block across all
pages: its length is the sum of the pages' `codeBlocks` lengths, and the records, in page
order then block order, carry the block's language and code and the page's url as
source. -/
theorem extractExamples_one_per_block (pages : List PageData) :
    (extractExamples host pages).length = (pages.map (fun p => p.codeBlocks.length)).sum ∧
    (extractExamples host pages).map (fun r => (r.language, r.code, r.source)) =
      pages.flatMap (fun p => p.codeBlocks.map (fun b => (b.language, b.code, p.url))) := by
  rw [extractExamples_eq]
  constructor
  · rw [length_flatMap_eq_sum]
    simp [examplesOfPage]
  · rw [List.map_flatMap]
    simp [examplesOfPage, Function.comp_def]

/-- The content returned by `extractSectionContent` is at most 500 characters long. -/
theorem extractSectionContent_length_le (html headingId content : String)
    (h : extractSectionContent host html headingId = some content) :
    content.length ≤ 500 := by
  unfold extractSectionContent at h
  split at h
  · split at h
    · exact absurd h (by simp)
    · rw [← Option.some.inj h]
      exact jsSubstring_length_le _ 500
  · rw [← Option.some.inj h]
    exact jsSubstring_length_le _ 500

/-- On a page sequence for which every section lookup made for a heading of level at most
3 returns, `extractConcepts` returns, with exactly one record per heading of level at most
3 and none for a deeper heading: in page order then heading order the records carry the
text and level of these headings, and every record's content is at most 500 characters
long. On any other page sequence it throws. -/
theorem extractConcepts_resolved (pages : List PageData) :
    (pages.all (sectionsResolve host) = true →
      ∃ concepts, extractConcepts host pages = some concepts ∧
        concepts.map (fun r => (r.title, r.level)) =
          pages.flatMap (fun p =>
            (p.headings.filter (fun h => decide (h.level ≤ 3))).map
              (fun h => (h.text, h.level))) ∧
        concepts.length =
          (pages.map
            (fun p => (p.headings.filter (fun h => decide (h.level ≤ 3))).length)).sum ∧
        (∀ r ∈ concepts, r.level ≤ 3) ∧
        (∀ r ∈ concepts, r.content.length ≤ 500)) ∧
    (pages.all (sectionsResolve host) = false → extractConcepts host pages = none) := by
  constructor
  · intro hres
    refine ⟨pages.flatMap (conceptsOfPage host), ?_, ?_, ?_, ?_, ?_⟩
    · rw [extractConcepts_eq, if_pos hres]
    · rw [List.map_flatMap]
      simp [conceptsOfPage, Function.comp_def]
    · rw [length_flatMap_eq_sum]
      simp [conceptsOfPage]
    · intro r hr
      simp only [List.mem_flatMap, conceptsOfPage, List.mem_map, List.mem_filter,
        decide_eq_true_eq] at hr
      obtain ⟨p, -, h, ⟨-, hlev⟩, rfl⟩ := hr
      exact hlev
    · intro r hr
      simp only [List.mem_flatMap, conceptsOfPage, List.mem_map] at hr
      obtain ⟨p, -, h, -, rfl⟩ := hr
      rcases hc : extractSectionContent host p.html h.id with _ | content
      · simp
      · simpa using extractSectionContent_length_le host _ _ _ hc
  · intro hres
    rw [extractConcepts_eq, hres]
    simp

/-- Claim C16 fails on the code. The page `colonPage` has two headings of level at most
3, the second with the id `sec:intro`; on a host where cheerio throws on the selector
`#sec:intro`, `extractConcepts` throws instead of emitting the two records, and so does
`processPages`; where the lookup returns, the two records are emitted. -/
theorem extractConcepts_raises_on_colon_id :
    (colonPage.headings.filter (fun h => decide (h.level ≤ 3))).map
        (fun h => (h.text, h.level, h.id)) =
      [("Guide", 1, "guide"), ("Introduction", 2, "sec:intro")] ∧
    colonHost.sectionSiblings colonPage.html "sec:intro" = none ∧
    extractConcepts colonHost [colonPage] = none ∧
    (∀ fuel : Nat, processPages colonHost fuel [colonPage] = none) ∧
    (extractConcepts plainHost [colonPage]).map
        (fun concepts => concepts.map (fun r => (r.title, r.level))) =
      some [("Guide", 1), ("Introduction", 2)] := by
  have h : extractConcepts colonHost [colonPage] = none := by decide
  refine ⟨by decide, by decide, h, ?_, by decide⟩
  intro fuel
  unfold processPages
  rw [h]

/-- Claim C18. `extractPatterns` emits, page by page and within a page in the order of
the indicator list, one record for each indicator that the lower-cased page text contains
and none for the others, so at most 7 per page; the record's type is the indicator and
its description is made of the first two sentences (split on runs of `.`, `!`, `?`) whose
lower-cased text contains the indicator, joined by `. ` and trimmed. -/
theorem extractPatterns_spec (pages : List PageData) :
    extractPatterns host pages = pages.flatMap (patternsOfPage host) ∧
    patternIndicators.Nodup ∧
    (∀ page : PageData,
      (patternsOfPage host page).map (fun r => r.type) =
        patternIndicators.filter (fun indicator =>
          includes (host.toLowerCase page.content) indicator) ∧
      (patternsOfPage host page).length ≤ 7 ∧
      ∀ r ∈ patternsOfPage host page,
        r.source = page.url ∧
        r.description =
          jsTrim (jsJoin ". "
            (((splitOnRuns isSentenceEnd page.content).filter (fun sentence =>
              includes (host.toLowerCase sentence) r.type)).take 2))) ∧
    (extractPatterns host pages).length ≤ 7 * pages.length := by
  have hlen : ∀ page : PageData, (patternsOfPage host page).length ≤ 7 := by
    intro page
    unfold patternsOfPage
    rw [List.length_map]
    exact (List.length_filter_le _ _).trans (by decide)
  refine ⟨extractPatterns_eq host pages, by decide, ?_, ?_⟩
  · intro page
    refine ⟨?_, hlen page, ?_⟩
    · simp [patternsOfPage, Function.comp_def]
    · intro r hr
      simp only [patternsOfPage, List.mem_map] at hr
      obtain ⟨indicator, -, rfl⟩ := hr
      exact ⟨rfl, rfl⟩
  · rw [extractPatterns_eq, length_flatMap_eq_sum]
    induction pages with
    | nil => simp
    | cons p ps ih =>
      simp only [List.map_cons, List.sum_cons, List.length_cons]
      have := hlen p
      omega

end PerPageClaims

/-! ## The two scenarios of the extractor -/

section Scenarios

/-- Claim C13 on its page. The Overview pass yields one record for the "Getting Started"
page, but its `keyPoints` is empty: the sentence has `Remember` with a capital and
`extractKeyPoints` looks for `remember` without lower-casing (the same sentence written
in lower case is kept). The Examples, APIs, Patterns, Troubleshooting and Configuration
passes yield nothing. -/
theorem gettingStarted_keyPoints_empty :
    extractOverview plainHost [gettingStartedPage] =
      [{ title := "Getting Started", url := "https://ex.com/docs",
         content := "Remember: always configure the client first.",
         headings := [{ level := 1, text := "Getting Started", id := "getting-started" }],
         keyPoints := [] }] ∧
    extractKeyPoints "remember: always configure the client first." =
      ["remember: always configure the client first"] ∧
    extractExamples plainHost [gettingStartedPage] = [] ∧
    extractAPIs plainHost [gettingStartedPage] = [] ∧
    extractPatterns plainHost [gettingStartedPage] = [] ∧
    extractTroubleshooting plainHost [gettingStartedPage] = [] ∧
    extractConfiguration plainHost 10 [gettingStartedPage] = some [] := by
  refine ⟨by decide, by decide, by decide, by decide, by decide, by decide, by decide⟩

/-- The category of an example: the URL keywords `api`, `tutorial`, `guide`, in that
order, come before the block language. -/
theorem categorizeExample_spec (url : String) (block : CodeBlock) :
    (ContainsSubstring url "api" → categorizeExample url block = "api") ∧
    (¬ ContainsSubstring url "api" → ContainsSubstring url "tutorial" →
      categorizeExample url block = "tutorial") ∧
    (¬ ContainsSubstring url "api" → ¬ ContainsSubstring url "tutorial" →
      ContainsSubstring url "guide" → categorizeExample url block = "guide") := by
  simp only [← includes_iff]
  unfold categorizeExample
  refine ⟨?_, ?_, ?_⟩
  · intro h
    simp [h]
  · intro h1 h2
    simp [h1, h2]
  · intro h1 h2 h3
    simp [h1, h2, h3]

/-- Claim C14. For a page whose URL contains `api`, every code block yields an Examples
record with category `api` and the block's own language; in general the URL keywords
`api`, `tutorial`, `guide` take precedence, in that order, over the block language. -/
theorem examples_of_api_page (host : Host) (page : PageData)
    (hapi : ContainsSubstring page.url "api") :
    (extractExamples host [page]).map (fun r => (r.category, r.language)) =
      page.codeBlocks.map (fun b => ("api", b.language)) ∧
    (∀ (pages : List PageData), ∀ r ∈ extractExamples host pages,
      ContainsSubstring r.source "api" → r.category = "api") ∧
    (∀ (url : String) (block : CodeBlock),
      (ContainsSubstring url "api" → categorizeExample url block = "api") ∧
      (¬ ContainsSubstring url "api" → ContainsSubstring url "tutorial" →
        categorizeExample url block = "tutorial") ∧
      (¬ ContainsSubstring url "api" → ¬ ContainsSubstring url "tutorial" →
        ContainsSubstring url "guide" → categorizeExample url block = "guide")) := by
  refine ⟨?_, ?_, categorizeExample_spec⟩
  · rw [extractExamples_eq]
    simp only [List.flatMap_cons, List.flatMap_nil, List.append_nil, examplesOfPage,
      List.map_map, Function.comp_def]
    apply List.map_congr_left
    intro b _
    rw [(categorizeExample_spec page.url b).1 hapi]
  · intro pages r hr hsrc
    rw [extractExamples_eq] at hr
    simp only [List.mem_flatMap, examplesOfPage, List.mem_map] at hr
    obtain ⟨p, -, b, -, rfl⟩ := hr
    exact (categorizeExample_spec p.url b).1 hsrc

/-- Claim C14 on its page: the block `GET /users returns list` with language
`javascript` on `/api/users` gives one Examples record with category `api` and language
`javascript`, and one APIs record whose endpoints are `GET /users` alone. -/
theorem examples_of_api_page_witness :
    (extractExamples plainHost [apiUsersPage]).map (fun r => (r.category, r.language)) =
      [("api", "javascript")] ∧
    (extractAPIs plainHost [apiUsersPage]).map (fun r => r.endpoints) =
      [[{ method := "GET", path := some "/users" }]] ∧
    (extractExamples plainHost [apiUsersPage]).map (fun r => (r.category, r.language)) =
      apiUsersPage.codeBlocks.map (fun b => ("api", b.language)) :=
  ⟨by decide, by decide,
    (examples_of_api_page plainHost apiUsersPage
      ((includes_iff _ _).1 (by decide))).1⟩

end Scenarios

/-! ## Properties of the matcher -/

section Matcher

theorem Regex.starRun_suffix (f : List Char → Captures → List (List Char × Captures))
    (hf : ∀ s caps res, res ∈ f s caps → res.1 <:+ s) :
    ∀ (fuel : Nat) (s : List Char) (caps : Captures) (res : List Char × Captures),
      res ∈ Regex.starRun f fuel s caps → res.1 <:+ s := by
  intro fuel
  induction fuel with
  | zero =>
    intro s caps res h
    simp only [Regex.starRun, List.mem_singleton] at h
    rw [h]
  | succ n ih =>
    intro s caps res h
    simp only [Regex.starRun, List.mem_append, List.mem_flatMap, List.mem_filter,
      List.mem_singleton] at h
    rcases h with ⟨r1, ⟨hr1, -⟩, hres⟩ | h
    · exact (ih r1.1 r1.2 res hres).trans (hf s caps r1 hr1)
    · rw [h]

/-- Every result of the matcher leaves a suffix of the input. -/
theorem Regex.run_suffix (r : Regex) :
    ∀ (s : List Char) (caps : Captures) (res : List Char × Captures),
      res ∈ Regex.run r s caps → res.1 <:+ s := by
  induction r with
  | eps =>
    intro s caps res h
    simp only [Regex.run, List.mem_singleton] at h
    rw [h]
  | cls p =>
    intro s caps res h
    cases s with
    | nil => simp [Regex.run] at h
    | cons c s =>
      simp only [Regex.run] at h
      by_cases hp : p c = true
      · simp only [hp, if_true, List.mem_singleton] at h
        rw [h]
        exact List.suffix_cons c s
      · simp [hp] at h
  | seq a b iha ihb =>
    intro s caps res h
    simp only [Regex.run, List.mem_flatMap] at h
    obtain ⟨r1, hr1, hres⟩ := h
    exact (ihb r1.1 r1.2 res hres).trans (iha s caps r1 hr1)
  | alt a b iha ihb =>
    intro s caps res h
    simp only [Regex.run, List.mem_append] at h
    rcases h with h | h
    · exact iha s caps res h
    · exact ihb s caps res h
  | star a iha =>
    intro s caps res h
    simp only [Regex.run] at h
    exact Regex.starRun_suffix _ iha s.length s caps res h
  | group i a iha =>
    intro s caps res h
    simp only [Regex.run, List.mem_map] at h
    obtain ⟨r1, hr1, rfl⟩ := h
    exact iha s caps r1 hr1

/-- A pattern that passes `consuming` never matches the empty text. -/
theorem Regex.run_consuming (r : Regex) (hc : r.consuming = true) :
    ∀ (s : List Char) (caps : Captures) (res : List Char × Captures),
      res ∈ Regex.run r s caps → res.1.length < s.length := by
  induction r with
  | eps => simp [Regex.consuming] at hc
  | cls p =>
    intro s caps res h
    cases s with
    | nil => simp [Regex.run] at h
    | cons c s =>
      simp only [Regex.run] at h
      by_cases hp : p c = true
      · simp only [hp, if_true, List.mem_singleton] at h
        rw [h]
        simp
      · simp [hp] at h
  | seq a b iha ihb =>
    intro s caps res h
    simp only [Regex.run, List.mem_flatMap] at h
    obtain ⟨r1, hr1, hres⟩ := h
    have h1 := (Regex.run_suffix a s caps r1 hr1).length_le
    have h2 := (Regex.run_suffix b r1.1 r1.2 res hres).length_le
    simp only [Regex.consuming, Bool.or_eq_true] at hc
    rcases hc with hc | hc
    · have := iha hc s caps r1 hr1
      omega
    · have := ihb hc r1.1 r1.2 res hres
      omega
  | alt a b iha ihb =>
    intro s caps res h
    simp only [Regex.consuming, Bool.and_eq_true] at hc
    simp only [Regex.run, List.mem_append] at h
    rcases h with h | h
    · exact iha hc.1 s caps res h
    · exact ihb hc.2 s caps res h
  | star a _ => simp [Regex.consuming] at hc
  | group i a iha =>
    intro s caps res h
    simp only [Regex.consuming] at hc
    simp only [Regex.run, List.mem_map] at h
    obtain ⟨r1, hr1, rfl⟩ := h
    exact iha hc s caps r1 hr1

/-- What `matchAt` answers: the matched text followed by the input left is the input. -/
theorem Regex.matchAt_eq_some (r : Regex) (s : List Char) (m : RegexMatch)
    (rest : List Char) (h : Regex.matchAt r s = some (m, rest)) :
    s = m.text ++ rest ∧ (r.consuming = true → 1 ≤ m.text.length) := by
  unfold Regex.matchAt at h
  rcases hrun : Regex.run r s [] with _ | ⟨res, others⟩
  · simp [hrun] at h
  · simp only [hrun, Option.some.injEq, Prod.mk.injEq] at h
    obtain ⟨hm, hrest⟩ := h
    have hmem : res ∈ Regex.run r s [] := by
      rw [hrun]
      exact List.mem_cons_self _ _
    obtain ⟨pre, hpre⟩ := Regex.run_suffix r s [] res hmem
    have htext : m.text = pre := by
      rw [← hm, ← hpre]
      simp
    refine ⟨?_, ?_⟩
    · rw [htext, ← hrest, hpre]
    · intro hc
      have hlt := Regex.run_consuming r hc s [] res hmem
      rw [htext]
      rw [← hpre] at hlt
      simp only [List.length_append] at hlt
      omega

theorem Regex.matchAt_nil_of_consuming (r : Regex) (hc : r.consuming = true) :
    Regex.matchAt r [] = none := by
  unfold Regex.matchAt
  rcases hrun : Regex.run r [] [] with _ | ⟨res, others⟩
  · rfl
  · have hmem : res ∈ Regex.run r [] [] := by
      rw [hrun]
      exact List.mem_cons_self _ _
    have := Regex.run_consuming r hc [] [] res hmem
    simp at this

theorem Regex.scan_skip (r : Regex) :
    ∀ (s : List Char) (k : Nat), k ≤ s.length →
      Regex.scan r k s = Regex.scan r 0 (s.drop k) := by
  intro s
  induction s with
  | nil =>
    intro k hk
    have : k = 0 := by simpa using hk
    subst this
    rfl
  | cons c s ih =>
    intro k hk
    cases k with
    | zero => rfl
    | succ k =>
      simp only [List.length_cons, Nat.add_le_add_iff_right] at hk
      rw [Regex.scan, List.drop_succ_cons]
      exact ih k hk

/-- For a pattern that consumes input, the matches collected by `match` are the
successive answers of `exec`. -/
theorem Regex.scan_eq_exec (r : Regex) (hc : r.consuming = true) (s : List Char) :
    Regex.scan r 0 s =
      match Regex.exec r s with
      | none => []
      | some (m, rest) => m :: Regex.scan r 0 rest := by
  induction s with
  | nil =>
    simp [Regex.scan, Regex.exec, Regex.matchAt_nil_of_consuming r hc]
  | cons c s ih =>
    rcases hm : Regex.matchAt r (c :: s) with _ | ⟨m, rest⟩
    · simp only [Regex.scan, Regex.exec, hm]
      exact ih
    · simp only [Regex.scan, Regex.exec, hm]
      obtain ⟨hsplit, hlen⟩ := Regex.matchAt_eq_some r (c :: s) m rest hm
      have h1 := hlen hc
      have hk : m.text.length - 1 ≤ s.length := by
        have := congrArg List.length hsplit
        simp only [List.length_cons, List.length_append] at this
        omega
      rw [Regex.scan_skip r s _ hk]
      have hdrop : s.drop (m.text.length - 1) = rest := by
        have hd : (c :: s).drop m.text.length = rest := by
          rw [hsplit]
          simp
        obtain ⟨n, hn⟩ : ∃ n, m.text.length = n + 1 := ⟨m.text.length - 1, by omega⟩
        rw [hn] at hd ⊢
        simpa using hd
      rw [hdrop]

end Matcher

/-! ## Issues, solutions and configuration options -/

section LineExtraction

/-- The loop of `extractConfigOptions` for one pattern: with fuel for the options still
allowed it ends, having pushed the first matches up to a total of 10. -/
theorem configOptionsLoop_eq (pattern : Regex) (hc : pattern.consuming = true) :
    ∀ (fuel : Nat) (s : List Char) (options : List ConfigOption),
      options.length ≤ 10 → 10 - options.length ≤ fuel →
      configOptionsLoop pattern fuel s options =
        some (options ++
          ((Regex.scan pattern 0 s).take (10 - options.length)).map configOptionOf) := by
  intro fuel
  induction fuel with
  | zero =>
    intro s options hle hfuel
    have hlen : options.length = 10 := by omega
    rw [configOptionsLoop]
    rcases hex : Regex.exec pattern s with _ | ⟨m, rest⟩
    · simp [hlen]
    · simp [hlen]
  | succ n ih =>
    intro s options hle hfuel
    rw [configOptionsLoop, Regex.scan_eq_exec pattern hc s]
    rcases hex : Regex.exec pattern s with _ | ⟨m, rest⟩
    · simp
    · by_cases hlt : options.length < 10
      · simp only [hlt, if_true]
        rw [ih rest (options ++ [configOptionOf m]) (by simp; omega) (by simp; omega)]
        obtain ⟨k, hk⟩ : ∃ k, 10 - options.length = k + 1 :=
          ⟨10 - options.length - 1, by omega⟩
        have hk' : 10 - (options ++ [configOptionOf m]).length = k := by
          simp only [List.length_append, List.length_singleton]
          omega
        rw [hk, hk']
        simp
      · have hlen : options.length = 10 := by omega
        simp [hlen]

theorem keyValuePattern_consuming : keyValuePattern.consuming = true := rfl

theorem flagPattern_consuming : flagPattern.consuming = true := rfl

/-- Claim C20. For every page text `extractConfigOptions` terminates, ten units of fuel
being enough for its loops, and returns at most 10 options: those of the first 10
matches, all the matches of the key/value pattern coming before any match of the flag
pattern. -/
theorem extractConfigOptions_spec (content : String) (fuel : Nat) (hfuel : 10 ≤ fuel) :
    extractConfigOptions fuel content =
      some (((Regex.scan keyValuePattern 0 content.data ++
          Regex.scan flagPattern 0 content.data).take 10).map configOptionOf) ∧
    ∀ options, extractConfigOptions fuel content = some options → options.length ≤ 10 := by
  have hmain : extractConfigOptions fuel content =
      some (((Regex.scan keyValuePattern 0 content.data ++
          Regex.scan flagPattern 0 content.data).take 10).map configOptionOf) := by
    unfold extractConfigOptions configPatterns
    simp only [List.foldl_cons, List.foldl_nil]
    rw [configOptionsLoop_eq keyValuePattern keyValuePattern_consuming fuel content.data []
      (by simp) (by simpa using hfuel)]
    simp only [List.nil_append, List.length_nil, Nat.sub_zero]
    have hlen : (((Regex.scan keyValuePattern 0 content.data).take 10).map
        configOptionOf).length ≤ 10 := by
      rw [List.length_map]
      exact List.length_take_le _ _
    rw [configOptionsLoop_eq flagPattern flagPattern_consuming fuel content.data _
      hlen (by omega)]
    rw [List.take_append_eq_append_take, List.map_append]
    simp only [List.length_map, List.length_take]
    have hmin : ∀ x : Nat, 10 - min 10 x = 10 - x := by
      intro x
      omega
    rw [hmin]
  refine ⟨hmain, ?_⟩
  intro options h
  rw [hmain] at h
  simp only [Option.some.injEq] at h
  rw [← h, List.length_map]
  exact List.length_take_le _ _

/-- Claim C20 on a text with two key/value lines and a flag: the options are those of
the two key/value matches followed by that of the flag match. -/
theorem extractConfigOptions_spec_witness :
    extractConfigOptions 10 "port=80\nhost: x\n--verbose yes" =
      some [{ name := "port", value := "80", description := "" },
        { name := "host", value := "x", description := "" },
        { name := "verbose", value := "yes", description := "" }] ∧
    extractConfigOptions 10 "port=80\nhost: x\n--verbose yes" =
      some (((Regex.scan keyValuePattern 0 "port=80\nhost: x\n--verbose yes".data ++
          Regex.scan flagPattern 0 "port=80\nhost: x\n--verbose yes".data).take 10).map
        configOptionOf) :=
  ⟨by decide, (extractConfigOptions_spec "port=80\nhost: x\n--verbose yes" 10 (by decide)).1⟩

/-- Claim C19, as the code has it. The issues of a page text are the first 3 matches of
the `error` pattern, then the first 3 of the `problem` pattern, then the first 3 of the
`issue` pattern; the solutions are the first 3 matches each of the `solution`, `fix` and
`resolve` patterns, in that order. Each pattern is `word[:\s]+([^\n]+)` with the flags
`gi`, and these lists are what a Troubleshooting record carries. -/
theorem extractIssues_spec (content : String) :
    extractIssues content =
      (jsMatchAll (labelledLineRegex (Regex.litCI "error")) content).take 3 ++
      (jsMatchAll (labelledLineRegex (Regex.litCI "problem")) content).take 3 ++
      (jsMatchAll (labelledLineRegex (Regex.litCI "issue")) content).take 3 ∧
    extractSolutions content =
      (jsMatchAll (labelledLineRegex (Regex.litCI "solution")) content).take 3 ++
      (jsMatchAll (labelledLineRegex (Regex.litCI "fix")) content).take 3 ++
      (jsMatchAll (labelledLineRegex (Regex.litCI "resolve")) content).take 3 ∧
    (∀ (host : Host) (pages : List PageData), ∀ r ∈ extractTroubleshooting host pages,
      ∃ p ∈ pages, r.issues = extractIssues p.content ∧
        r.solutions = extractSolutions p.content) := by
  refine ⟨?_, ?_, ?_⟩
  · simp [extractIssues, issuePatterns]
  · simp [extractSolutions, solutionPatterns]
  · intro host pages r hr
    simp only [extractTroubleshooting, List.mem_map, List.mem_filter] at hr
    obtain ⟨p, ⟨hp, -⟩, rfl⟩ := hr
    exact ⟨p, hp, rfl, rfl⟩

/-- Claim C19 fails as stated. For the text `issue: disk full` the code reports the
line, which only the third pattern, `issue`, matches, while the first 3 matches of the
`error` pattern followed by the first 3 of the `problem` pattern are none. And the
captured text runs to the end of the line, `[^\n]+`, not to the first line terminator as
`.+` would: after `error: a` it goes on through a carriage return. -/
theorem issue_line_reported :
    extractIssues "issue: disk full" = ["issue: disk full"] ∧
    specIssues "issue: disk full" = [] ∧
    extractIssues "issue: disk full" ≠ specIssues "issue: disk full" ∧
    extractIssues "error: a\rb" = ["error: a\rb"] ∧
    specIssues "error: a\rb" = ["error: a"] := by
  refine ⟨by decide, by decide, by decide, by decide, by decide⟩

end LineExtraction

/-! ## Back-references of the knowledge aggregate -/

section BackReferences

variable (host : Host)

theorem tracedTo_of_mem (pages : List PageData)
    (hnd : (pages.map (fun p => p.url)).Nodup) (p : PageData) (hp : p ∈ pages) :
    TracedTo pages p.url :=
  List.count_eq_one_of_mem hnd (List.mem_map_of_mem (fun p => p.url) hp)

theorem mapOption_mem {α β : Type} (f : α → Option β) :
    ∀ (l : List α) (bs : List β), mapOption f l = some bs →
      ∀ b ∈ bs, ∃ a ∈ l, f a = some b := by
  intro l
  induction l with
  | nil =>
    intro bs h b hb
    simp only [mapOption, Option.some.injEq] at h
    rw [← h] at hb
    simp at hb
  | cons a l ih =>
    intro bs h b hb
    simp only [mapOption] at h
    rcases hfa : f a with _ | b0
    · simp [hfa] at h
    · rcases hrest : mapOption f l with _ | bs0
      · simp [hfa, hrest] at h
      · simp only [hfa, hrest, Option.some.injEq] at h
        rw [← h] at hb
        simp only [List.mem_cons] at hb
        rcases hb with rfl | hb
        · exact ⟨a, List.mem_cons_self _ _, hfa⟩
        · obtain ⟨a', ha', hfa'⟩ := ih bs0 hrest b hb
          exact ⟨a', List.mem_cons_of_mem _ ha', hfa'⟩

theorem groupExample_mem (S : List ExampleRecord)
    (acc : List (String × List ExampleRecord)) (item : ExampleRecord)
    (hacc : ∀ g ∈ acc, ∀ x ∈ g.2, x ∈ S) (hitem : item ∈ S) :
    ∀ g ∈ groupExample acc item, ∀ x ∈ g.2, x ∈ S := by
  intro g hg x hx
  unfold groupExample at hg
  simp only at hg
  split at hg
  · simp only [List.mem_map] at hg
    obtain ⟨g0, hg0, rfl⟩ := hg
    split at hx
    · simp only [List.mem_append, List.mem_singleton] at hx
      rcases hx with hx | rfl
      · exact hacc g0 hg0 x hx
      · exact hitem
    · exact hacc g0 hg0 x hx
  · simp only [List.mem_append, List.mem_singleton] at hg
    rcases hg with hg | rfl
    · exact hacc g hg x hx
    · simp only [List.mem_singleton] at hx
      rw [hx]
      exact hitem

theorem foldl_groupExample_mem (S : List ExampleRecord) :
    ∀ (l : List ExampleRecord) (acc : List (String × List ExampleRecord)),
      (∀ g ∈ acc, ∀ x ∈ g.2, x ∈ S) → (∀ x ∈ l, x ∈ S) →
      ∀ g ∈ l.foldl groupExample acc, ∀ x ∈ g.2, x ∈ S := by
  intro l
  induction l with
  | nil =>
    intro acc hacc _
    exact hacc
  | cons a l ih =>
    intro acc hacc hl
    rw [List.foldl_cons]
    exact ih _ (groupExample_mem S acc a hacc (hl a (List.mem_cons_self _ _)))
      (fun x hx => hl x (List.mem_cons_of_mem _ hx))

/-- Every entry made by `processExamples` copies the source of one of the examples. -/
theorem processExamples_source (examples : List ExampleRecord) :
    ∀ e ∈ processExamples examples, ∃ x ∈ examples, e.source_url = x.source := by
  intro e he
  unfold processExamples at he
  simp only [List.mem_map] at he
  obtain ⟨x, hx, rfl⟩ := he
  refine ⟨x, ?_, rfl⟩
  have hx' := List.mem_of_mem_take hx
  rw [foldl_eq_append_flatMap _ (fun g : String × List ExampleRecord =>
    (sortByCodeLength g.2).take 3) (fun _ _ => rfl)] at hx'
  simp only [List.nil_append, List.mem_flatMap] at hx'
  obtain ⟨g, hg, hxg⟩ := hx'
  have hxs : x ∈ sortByCodeLength g.2 := List.mem_of_mem_take hxg
  have hxg2 : x ∈ g.2 := (List.perm_insertionSort _ g.2).mem_iff.1 hxs
  exact foldl_groupExample_mem examples examples [] (by simp) (fun y hy => hy) g hg x hxg2

end BackReferences

section BackReferenceClaim

variable (host : Host)

/-- The back-references made by the extractor: the url of the page for six buckets,
`url#id` for the Concepts bucket. -/
theorem extractor_references (pages : List PageData) :
    (∀ r ∈ extractOverview host pages, ∃ p ∈ pages, r.url = p.url) ∧
    (∀ r ∈ extractAPIs host pages, ∃ p ∈ pages, r.url = p.url) ∧
    (∀ r ∈ extractExamples host pages, ∃ p ∈ pages, r.source = p.url) ∧
    (∀ r ∈ extractPatterns host pages, ∃ p ∈ pages, r.source = p.url) ∧
    (∀ r ∈ extractTroubleshooting host pages, ∃ p ∈ pages, r.url = p.url) ∧
    (∀ (fuel : Nat) (recs : List ConfigurationRecord),
      extractConfiguration host fuel pages = some recs →
      ∀ r ∈ recs, ∃ p ∈ pages, r.url = p.url) ∧
    (∀ concepts : List ConceptRecord, extractConcepts host pages = some concepts →
      ∀ r ∈ concepts, IsSectionOf pages r.url) := by
  refine ⟨?_, ?_, ?_, ?_, ?_, ?_, ?_⟩
  · intro r hr
    simp only [extractOverview, List.mem_map, List.mem_filter] at hr
    obtain ⟨p, ⟨hp, -⟩, rfl⟩ := hr
    exact ⟨p, hp, rfl⟩
  · intro r hr
    simp only [extractAPIs, List.mem_map, List.mem_filter] at hr
    obtain ⟨p, ⟨hp, -⟩, rfl⟩ := hr
    exact ⟨p, hp, rfl⟩
  · intro r hr
    rw [extractExamples_eq] at hr
    simp only [List.mem_flatMap, examplesOfPage, List.mem_map] at hr
    obtain ⟨p, hp, b, -, rfl⟩ := hr
    exact ⟨p, hp, rfl⟩
  · intro r hr
    rw [extractPatterns_eq] at hr
    simp only [List.mem_flatMap, patternsOfPage, List.mem_map] at hr
    obtain ⟨p, hp, i, -, rfl⟩ := hr
    exact ⟨p, hp, rfl⟩
  · intro r hr
    simp only [extractTroubleshooting, List.mem_map, List.mem_filter] at hr
    obtain ⟨p, ⟨hp, -⟩, rfl⟩ := hr
    exact ⟨p, hp, rfl⟩
  · intro fuel recs h r hr
    unfold extractConfiguration at h
    obtain ⟨p, hp, hfp⟩ := mapOption_mem _ _ recs h r hr
    rcases hopt : extractConfigOptions fuel p.content with _ | options
    · simp [hopt] at hfp
    · simp only [hopt, Option.some.injEq] at hfp
      refine ⟨p, (List.mem_filter.1 hp).1, ?_⟩
      rw [← hfp]
  · intro concepts hc r hr
    rw [extractConcepts_some host pages concepts hc] at hr
    simp only [List.mem_flatMap, conceptsOfPage, List.mem_map, List.mem_filter] at hr
    obtain ⟨p, hp, h, ⟨hh, -⟩, rfl⟩ := hr
    exact ⟨p, hp, h, hh, rfl⟩

/-- Claim C17, as the code has it. For a page sequence with pairwise distinct URLs,
every record of the overview, apis, examples, patterns, troubleshooting and configuration
buckets carries a back-reference that is the url of exactly one page record, and so does
its `source_url` after the generator's processing; a record of the concepts bucket, and
its `source_url`, carries `url#id` for a page record and one of its headings. -/
theorem knowledge_back_references (pages : List PageData)
    (hnd : (pages.map (fun p => p.url)).Nodup) :
    ((∀ r ∈ extractOverview host pages, TracedTo pages r.url) ∧
      (∀ r ∈ extractAPIs host pages, TracedTo pages r.url) ∧
      (∀ r ∈ extractExamples host pages, TracedTo pages r.source) ∧
      (∀ r ∈ extractPatterns host pages, TracedTo pages r.source) ∧
      (∀ r ∈ extractTroubleshooting host pages, TracedTo pages r.url) ∧
      (∀ (fuel : Nat) (recs : List ConfigurationRecord),
        extractConfiguration host fuel pages = some recs →
        ∀ r ∈ recs, TracedTo pages r.url) ∧
      (∀ concepts : List ConceptRecord, extractConcepts host pages = some concepts →
        ∀ r ∈ concepts, IsSectionOf pages r.url)) ∧
    ((∀ e ∈ processOverview (extractOverview host pages), TracedTo pages e.source_url) ∧
      (∀ e ∈ processAPIs (extractAPIs host pages), TracedTo pages e.source_url) ∧
      (∀ e ∈ processExamples (extractExamples host pages), TracedTo pages e.source_url) ∧
      (∀ e ∈ processPatterns (extractPatterns host pages), TracedTo pages e.source_url) ∧
      (∀ e ∈ processTroubleshooting (extractTroubleshooting host pages),
        TracedTo pages e.source_url) ∧
      (∀ (fuel : Nat) (recs : List ConfigurationRecord),
        extractConfiguration host fuel pages = some recs →
        ∀ e ∈ processConfiguration recs, TracedTo pages e.source_url) ∧
      (∀ concepts : List ConceptRecord, extractConcepts host pages = some concepts →
        ∀ e ∈ processConcepts concepts, IsSectionOf pages e.source_url)) := by
  obtain ⟨h1, h2, h3, h4, h5, h6, h7⟩ := extractor_references host pages
  have tr : ∀ ref : String, (∃ p ∈ pages, ref = p.url) → TracedTo pages ref := by
    rintro ref ⟨p, hp, rfl⟩
    exact tracedTo_of_mem pages hnd p hp
  refine ⟨⟨fun r hr => tr _ (h1 r hr), fun r hr => tr _ (h2 r hr),
    fun r hr => tr _ (h3 r hr), fun r hr => tr _ (h4 r hr), fun r hr => tr _ (h5 r hr),
    fun fuel recs h r hr => tr _ (h6 fuel recs h r hr), h7⟩, ?_, ?_, ?_, ?_, ?_, ?_, ?_⟩
  · intro e he
    simp only [processOverview, List.mem_map] at he
    obtain ⟨r, hr, rfl⟩ := he
    exact tr _ (h1 r hr)
  · intro e he
    simp only [processAPIs, List.mem_map] at he
    obtain ⟨r, hr, rfl⟩ := he
    exact tr _ (h2 r hr)
  · intro e he
    obtain ⟨r, hr, hsrc⟩ := processExamples_source _ e he
    rw [hsrc]
    exact tr _ (h3 r hr)
  · intro e he
    simp only [processPatterns, List.mem_map] at he
    obtain ⟨r, hr, rfl⟩ := he
    exact tr _ (h4 r (List.mem_of_mem_take hr))
  · intro e he
    simp only [processTroubleshooting, List.mem_map] at he
    obtain ⟨r, hr, rfl⟩ := he
    exact tr _ (h5 r hr)
  · intro fuel recs h e he
    simp only [processConfiguration, List.mem_map] at he
    obtain ⟨r, hr, rfl⟩ := he
    exact tr _ (h6 fuel recs h r hr)
  · intro concepts hc e he
    simp only [processConcepts, List.mem_map] at he
    obtain ⟨r, hr, rfl⟩ := he
    exact h7 concepts hc r (List.mem_of_mem_take hr)

/-- Claim C17, as the code has it, on the two scenario pages: the Examples record made
for the page `/api/users` refers to exactly one of the two pages. -/
theorem knowledge_back_references_witness :
    ([gettingStartedPage, apiUsersPage].map (fun p => p.url)).Nodup ∧
    (extractExamples plainHost [gettingStartedPage, apiUsersPage]).map (fun r => r.source) =
      ["https://ex.com/api/users"] ∧
    ∀ r ∈ extractExamples plainHost [gettingStartedPage, apiUsersPage],
      TracedTo [gettingStartedPage, apiUsersPage] r.source :=
  ⟨by decide, by decide,
    (knowledge_back_references plainHost [gettingStartedPage, apiUsersPage]
      (by decide)).1.2.2.1⟩

/-- Claim C17 fails for the concepts bucket. The record made for the heading of the
"Getting Started" page carries `https://ex.com/docs#getting-started`, also as
`source_url` after the generator's processing, and no page record has that url. -/
theorem concept_reference_is_no_page_url :
    (extractConcepts plainHost [gettingStartedPage]).map
        (fun concepts => concepts.map (fun r => r.url)) =
      some ["https://ex.com/docs#getting-started"] ∧
    (extractConcepts plainHost [gettingStartedPage]).map
        (fun concepts => (processConcepts concepts).map (fun e => e.source_url)) =
      some ["https://ex.com/docs#getting-started"] ∧
    ([gettingStartedPage].map (fun p => p.url)).count
        "https://ex.com/docs#getting-started" = 0 ∧
    ¬ TracedTo [gettingStartedPage] "https://ex.com/docs#getting-started" := by
  refine ⟨by decide, by decide, by decide, ?_⟩
  unfold TracedTo
  decide

end BackReferenceClaim
/-! ## Crawl statistics -/

theorem foldl_add_length {α β : Type} (f : α → List β) (l : List α) (n : Nat) :
    l.foldl (fun sum page => sum + (f page).length) n = n + (l.map (fun p => (f p).length)).sum := by
  induction l generalizing n with
  | nil => simp
  | cons a l ih => simp [ih, Nat.add_assoc]

theorem mathRoundDiv_roundsHalfUp (total count : Nat) (h : 0 < count) :
    RoundsHalfUp (mathRoundDiv total count) total count := by
  have hc : (0 : ℚ) < (count : ℚ) := by exact_mod_cast h
  have h1 : mathRoundDiv total count * (2 * count) ≤ 2 * total + count :=
    Nat.div_mul_le_self _ _
  have h2 : 2 * total + count < (mathRoundDiv total count + 1) * (2 * count) := by
    unfold mathRoundDiv
    have h := Nat.lt_mul_div_succ (2 * total + count) (show 0 < 2 * count by omega)
    rw [Nat.mul_comm (2 * count)] at h
    exact h
  have h1q : ((mathRoundDiv total count : ℕ) : ℚ) * (2 * count) ≤ 2 * total + count := by
    exact_mod_cast h1
  have h2q : (2 * total + count : ℚ) < ((mathRoundDiv total count : ℕ) + 1) * (2 * count) := by
    exact_mod_cast h2
  constructor
  · rw [le_div_iff₀ hc]; nlinarith
  · rw [div_lt_iff₀ hc]; nlinarith

/-- C23: `getStats` leaves the controller's state as it was; `totalPages` is the number
of collected records, `totalLinks` and `totalCodeBlocks` are the sums of the lengths of
their `links` and `codeBlocks`; with no record both averages are 0, and otherwise each
average is the total divided by `totalPages`, rounded to the nearest integer with halves
rounded up. -/
theorem getStats_spec {σ : Type} (s : Crawler σ) :
    (getStats s).2 = s ∧
    (getStats s).1.totalPages = s.pages.length ∧
    (getStats s).1.totalLinks = (s.pages.map (fun page => page.links.length)).sum ∧
    (getStats s).1.totalCodeBlocks = (s.pages.map (fun page => page.codeBlocks.length)).sum ∧
    (s.pages.length = 0 →
      (getStats s).1.avgLinksPerPage = 0 ∧ (getStats s).1.avgCodeBlocksPerPage = 0) ∧
    (0 < s.pages.length →
      RoundsHalfUp (getStats s).1.avgLinksPerPage (getStats s).1.totalLinks
        (getStats s).1.totalPages ∧
      RoundsHalfUp (getStats s).1.avgCodeBlocksPerPage (getStats s).1.totalCodeBlocks
        (getStats s).1.totalPages) := by
  refine ⟨rfl, rfl, ?_, ?_, ?_, ?_⟩
  · simp [getStats, foldl_add_length]
  · simp [getStats, foldl_add_length]
  · intro h
    simp [getStats, h]
  · intro h
    simp only [getStats, gt_iff_lt, h, if_true]
    exact ⟨mathRoundDiv_roundsHalfUp _ _ h, mathRoundDiv_roundsHalfUp _ _ h⟩

/-- Three links and one code block over two pages: the averages are 2 (1.5 rounded up)
and 1 (0.5 rounded up). -/
theorem getStats_spec_witness :
    (getStats statsCrawler).1 =
        { totalPages := 2, totalLinks := 3, totalCodeBlocks := 1, avgLinksPerPage := 2,
          avgCodeBlocksPerPage := 1 } ∧
      RoundsHalfUp 2 3 2 ∧ RoundsHalfUp 1 1 2 :=
  ⟨by decide, (getStats_spec statsCrawler).2.2.2.2.2 (by decide)⟩

/-! ## Links of a document -/

theorem orElse_empty (a : Option String) : orElse a "" = a.getD "" := by
  cases a with
  | none => rfl
  | some x =>
    by_cases h : x = ""
    · simp [orElse, h]
    · simp [orElse, h]

theorem pushLink_eq (links : List Link) (el : AnchorElement) :
    pushLink links el = if keptAnchor el = true then links ++ [linkOfAnchor el] else links := by
  cases hh : el.href with
  | none => simp [pushLink, keptAnchor, hh, orElse]
  | some href =>
    by_cases h : href = ""
    · simp [pushLink, keptAnchor, hh, orElse, h]
    · simp [pushLink, keptAnchor, linkOfAnchor, hh, orElse, h, startsWith, and_assoc]

theorem links_of_document (lower : String → String) (doc : Document) :
    (extractContent lower doc).links =
      ((doc.anchorElements.filter keptAnchor).map linkOfAnchor).take 50 := by
  have h : doc.anchorElements.foldl pushLink [] =
      (doc.anchorElements.filter keptAnchor).map linkOfAnchor := by
    have h1 : pushLink = fun acc b => if keptAnchor b = true then acc ++ [linkOfAnchor b] else acc := by
      funext acc b; exact pushLink_eq acc b
    rw [h1, foldl_push_filter_map]; simp
  simp only [extractContent, h]

/-- C24: the links returned by `extractContent` are the first 50, in document order, of
the anchors that have a non-empty `href`, a non-empty trimmed text and an `href` not
starting with `#`, `mailto:` or `tel:`, each recorded with its `href` and trimmed text;
so there are at most 50 of them and none has an empty or excluded target. -/
theorem extractContent_links (lower : String → String) (doc : Document) :
    (extractContent lower doc).links =
        ((doc.anchorElements.filter keptAnchor).map linkOfAnchor).take 50 ∧
      (extractContent lower doc).links.length ≤ 50 ∧
      ∀ link ∈ (extractContent lower doc).links,
        link.href ≠ "" ∧ link.text ≠ "" ∧ ¬ "#".data <+: link.href.data ∧
          ¬ "mailto:".data <+: link.href.data ∧ ¬ "tel:".data <+: link.href.data := by
  refine ⟨links_of_document lower doc, ?_, ?_⟩
  · rw [links_of_document]
    exact (List.length_take_le _ _)
  · intro link hl
    rw [links_of_document] at hl
    have hl1 := List.mem_of_mem_take hl
    obtain ⟨el, hel, rfl⟩ := List.mem_map.1 hl1
    have hk := (List.mem_filter.1 hel).2
    cases hh : el.href with
    | none => simp [keptAnchor, hh] at hk
    | some href =>
      simp only [keptAnchor, hh, Bool.and_eq_true, decide_eq_true_eq, Bool.not_eq_true',
        ← Bool.not_eq_true, List.isPrefixOf_iff_prefix] at hk
      simp only [linkOfAnchor, hh, Option.getD_some]
      exact ⟨hk.1.1.1.1, hk.1.1.1.2, hk.1.1.2, hk.1.2, hk.2⟩

/-- Of six anchors only the first is kept: the others point to a fragment, a mail
address or a telephone number, or have an empty `href` or text. -/
theorem extractContent_links_witness :
    (extractContent toLowerCase anchorsDocument).links = [{ href := "/docs/a", text := "A" }] ∧
      ({ href := "/docs/a", text := "A" } : Link).href ≠ "" :=
  ⟨by decide,
    ((extractContent_links toLowerCase anchorsDocument).2.2 { href := "/docs/a", text := "A" }
      (by decide)).1⟩

/-! ## Code blocks of a document -/

theorem pushCodeBlock_eq (codeBlocks : List CodeBlock) (el : CodeElement) :
    pushCodeBlock codeBlocks el =
      if decide (10 < (jsTrim el.text).length) = true then codeBlocks ++ [codeBlockOf el]
      else codeBlocks := by
  by_cases h : 10 < (jsTrim el.text).length
  · have hne : jsTrim el.text ≠ "" := by
      intro h0; rw [h0] at h; simp at h
    simp [pushCodeBlock, codeBlockOf, h, hne]
  · simp [pushCodeBlock, h]

theorem codeBlocks_of_document (lower : String → String) (doc : Document) :
    (extractContent lower doc).codeBlocks =
      (doc.codeElements.filter (fun el => decide (10 < (jsTrim el.text).length))).map
        codeBlockOf := by
  have h1 : pushCodeBlock = fun acc b =>
      if (fun el : CodeElement => decide (10 < (jsTrim el.text).length)) b = true
      then acc ++ [codeBlockOf b] else acc := by
    funext acc b; exact pushCodeBlock_eq acc b
  simp only [extractContent]
  rw [h1, foldl_push_filter_map]; simp

/-- C29, as the code has it: the code blocks of a document are, in document order, those
of the matched elements whose trimmed text is longer than 10 characters; an element of
trimmed length 10 or less gives no block. -/
theorem extractContent_codeBlocks (lower : String → String) (doc : Document) :
    (extractContent lower doc).codeBlocks =
        (doc.codeElements.filter (fun el => decide (10 < (jsTrim el.text).length))).map
          codeBlockOf ∧
      (∀ el ∈ doc.codeElements, 10 < (jsTrim el.text).length →
        codeBlockOf el ∈ (extractContent lower doc).codeBlocks) ∧
      (∀ block ∈ (extractContent lower doc).codeBlocks, 10 < block.code.length) := by
  refine ⟨codeBlocks_of_document lower doc, ?_, ?_⟩
  · intro el hel hlen
    rw [codeBlocks_of_document]
    exact List.mem_map.2 ⟨el, List.mem_filter.2 ⟨hel, by simpa using hlen⟩, rfl⟩
  · intro block hb
    rw [codeBlocks_of_document] at hb
    obtain ⟨el, hel, rfl⟩ := List.mem_map.1 hb
    simpa [codeBlockOf] using (List.mem_filter.1 hel).2

/-- Of the four code elements two are longer than 10 characters, and both are kept. -/
theorem extractContent_codeBlocks_witness :
    ((extractContent toLowerCase codeDocument).codeBlocks.map (fun b => b.code)) =
        ["console.log('hello world')", "print('hello world')"] ∧
      codeBlockOf pythonElement ∈ (extractContent toLowerCase codeDocument).codeBlocks :=
  ⟨by decide,
    (extractContent_codeBlocks toLowerCase codeDocument).2.1 pythonElement
      (by decide) (by decide)⟩

/-- C29, as stated, fails for a block of exactly 10 characters: the third code element
of the document has trimmed text `0123456789`, yet no block holds that code. -/
theorem code_block_of_length_ten_dropped :
    (jsTrim tenCharElement.text).length = 10 ∧
      tenCharElement ∈ codeDocument.codeElements ∧
      ∀ block ∈ (extractContent toLowerCase codeDocument).codeBlocks,
        block.code ≠ "0123456789" := by
  decide

/-- C28: a code element with class `language-javascript` is recorded with language
`text`, and so is one whose parent has class `lang-py`; a class such as
`language-www`, made of the letter `w`, is read. -/
theorem language_class_not_detected :
    (extractContent toLowerCase codeDocument).codeBlocks =
        [{ code := "console.log('hello world')", language := "text" },
         { code := "print('hello world')", language := "text" }] ∧
      detectLanguage "language-javascript" = "text" ∧ detectLanguage "lang-py" = "text" ∧
      detectLanguage "language-www" = "www" := by
  decide

/-! ## Text cleaning and heading slugs -/

theorem cleanText_length_le (text : String) : (cleanText text).length ≤ 10000 := by
  simp only [cleanText, jsSubstring, String.length]
  exact List.length_take_le _ _

theorem generateId_length_le (lower : String → String) (text : String) :
    (generateId lower text).length ≤ 50 := by
  simp only [generateId, jsSubstring, String.length]
  exact List.length_take_le _ _

/-- C25: `cleanText` returns the text `a  b`, with its two spaces, as it is, which is no
beginning of the normalised text `a b`. -/
theorem cleanText_not_normalised :
    cleanText "a  b" = "a  b" ∧ normaliseWhitespace "a  b" = "a b" ∧
      ¬ (cleanText "a  b").data <+: (normaliseWhitespace "a  b").data := by
  decide

/-- C26: `cleanText` returns the text `a   b\n\n\tc` as it is, with its run of three
spaces and its run of two newlines and a tab. -/
theorem cleanText_keeps_whitespace_runs :
    cleanText "a   b\n\n\tc" = "a   b\n\n\tc" ∧
      hasWhitespaceRun (cleanText "a   b\n\n\tc").data = true := by
  decide

/-- C27: the slug of `Getting Started` is `gettingstarted`, with no hyphen, and the slug
of a text with a backslash keeps the backslash. -/
theorem generateId_drops_whitespace :
    generateId toLowerCase "Getting Started" = "gettingstarted" ∧
      generateId toLowerCase "a\\b" = "a\\b" := by
  decide

/-! ## Caps on the API entries -/

theorem extractAPIs_examples_length (host : Host) (pages : List PageData) :
    ∀ r ∈ extractAPIs host pages,
      ∃ page ∈ pages, r.url = page.url ∧ r.examples.length = page.codeBlocks.length := by
  intro r hr
  simp only [extractAPIs, List.mem_map, List.mem_filter] at hr
  obtain ⟨page, ⟨hp, _⟩, rfl⟩ := hr
  exact ⟨page, hp, rfl, by simp [extractCodeExamples]⟩

/-- C22, as the code has it: the caps are those of `processAPIs`. Every entry it makes
of a record of the APIs bucket carries the first 10 code examples, the first 20 methods
and the first 30 parameters of the record, so at most that many; a record of the bucket
itself carries one code example per code block of its page. -/
theorem processAPIs_caps (host : Host) (pages : List PageData) :
    List.Forall₂
        (fun (r : ApiRecord) (e : ApiEntry) =>
          e.examples = r.examples.take 10 ∧ e.methods = r.methods.take 20 ∧
            e.parameters = r.parameters.take 30)
        (extractAPIs host pages) (processAPIs (extractAPIs host pages)) ∧
      (∀ e ∈ processAPIs (extractAPIs host pages),
        e.examples.length ≤ 10 ∧ e.methods.length ≤ 20 ∧ e.parameters.length ≤ 30) ∧
      (∀ r ∈ extractAPIs host pages,
        ∃ page ∈ pages, r.url = page.url ∧ r.examples.length = page.codeBlocks.length) := by
  refine ⟨?_, ?_, extractAPIs_examples_length host pages⟩
  · simp only [processAPIs, List.forall₂_map_right_iff]
    exact List.forall₂_same.2 (fun r _ => ⟨rfl, rfl, rfl⟩)
  · intro e he
    simp only [processAPIs, List.mem_map] at he
    obtain ⟨r, _, rfl⟩ := he
    exact ⟨List.length_take_le _ _, List.length_take_le _ _, List.length_take_le _ _⟩

/-- The page with eleven code blocks gives one entry, with ten code examples. -/
theorem processAPIs_caps_witness :
    (processAPIs (extractAPIs plainHost [manyBlocksPage])).map (fun e => e.examples.length) =
        [10] ∧
      ∃ page ∈ [manyBlocksPage], "https://ex.com/api/many" = page.url ∧
        11 = page.codeBlocks.length :=
  ⟨by decide,
    (processAPIs_caps plainHost [manyBlocksPage]).2.2
      { title := "Many", url := "https://ex.com/api/many", methods := [], parameters := [],
        examples :=
          List.replicate 11 { language := "javascript", code := "fetch('/users')", runnable := true },
        endpoints := [] }
      (by decide)⟩

/-- C22, as stated, fails: the page with eleven code blocks gives a record of the APIs
bucket with eleven code examples. -/
theorem api_record_with_eleven_examples :
    (extractAPIs plainHost [manyBlocksPage]).map (fun r => r.examples.length) = [11] := by
  decide

/-! ## The matcher only answers texts of the pattern -/

theorem Regex.starRun_sound (a : Regex)
    (f : List Char → Captures → List (List Char × Captures))
    (hf : ∀ s caps res, res ∈ f s caps → ∃ pre, s = pre ++ res.1 ∧ Regex.Matches a pre) :
    ∀ (fuel : Nat) (s : List Char) (caps : Captures) (res : List Char × Captures),
      res ∈ Regex.starRun f fuel s caps →
        ∃ pre, s = pre ++ res.1 ∧ Regex.Matches (Regex.star a) pre := by
  intro fuel
  induction fuel with
  | zero =>
    intro s caps res h
    simp only [Regex.starRun, List.mem_singleton] at h
    exact ⟨[], by rw [h]; rfl, Regex.Matches.starNil a⟩
  | succ n ih =>
    intro s caps res h
    simp only [Regex.starRun, List.mem_append, List.mem_flatMap, List.mem_filter,
      List.mem_singleton] at h
    rcases h with ⟨r1, ⟨hr1, -⟩, hres⟩ | h
    · obtain ⟨x, hx, hmx⟩ := hf s caps r1 hr1
      obtain ⟨y, hy, hmy⟩ := ih r1.1 r1.2 res hres
      exact ⟨x ++ y, by rw [hx, hy, List.append_assoc], Regex.Matches.starCons a x y hmx hmy⟩
    · exact ⟨[], by rw [h]; rfl, Regex.Matches.starNil a⟩

/-- Every result of the matcher has read a text of the pattern. -/
theorem Regex.run_sound (r : Regex) :
    ∀ (s : List Char) (caps : Captures) (res : List Char × Captures),
      res ∈ Regex.run r s caps → ∃ pre, s = pre ++ res.1 ∧ Regex.Matches r pre := by
  induction r with
  | eps =>
    intro s caps res h
    simp only [Regex.run, List.mem_singleton] at h
    exact ⟨[], by rw [h]; rfl, Regex.Matches.eps⟩
  | cls p =>
    intro s caps res h
    cases s with
    | nil => simp [Regex.run] at h
    | cons c s =>
      simp only [Regex.run] at h
      by_cases hp : p c = true
      · simp only [hp, if_true, List.mem_singleton] at h
        exact ⟨[c], by rw [h]; rfl, Regex.Matches.cls p c hp⟩
      · simp [hp] at h
  | seq a b iha ihb =>
    intro s caps res h
    simp only [Regex.run, List.mem_flatMap] at h
    obtain ⟨r1, hr1, hres⟩ := h
    obtain ⟨x, hx, hmx⟩ := iha s caps r1 hr1
    obtain ⟨y, hy, hmy⟩ := ihb r1.1 r1.2 res hres
    exact ⟨x ++ y, by rw [hx, hy, List.append_assoc], Regex.Matches.seq a b x y hmx hmy⟩
  | alt a b iha ihb =>
    intro s caps res h
    simp only [Regex.run, List.mem_append] at h
    rcases h with h | h
    · obtain ⟨x, hx, hmx⟩ := iha s caps res h
      exact ⟨x, hx, Regex.Matches.altLeft a b x hmx⟩
    · obtain ⟨x, hx, hmx⟩ := ihb s caps res h
      exact ⟨x, hx, Regex.Matches.altRight a b x hmx⟩
  | star a iha =>
    intro s caps res h
    simp only [Regex.run] at h
    exact Regex.starRun_sound a _ iha s.length s caps res h
  | group i a iha =>
    intro s caps res h
    simp only [Regex.run, List.mem_map] at h
    obtain ⟨r1, hr1, rfl⟩ := h
    obtain ⟨x, hx, hmx⟩ := iha s caps r1 hr1
    exact ⟨x, hx, Regex.Matches.group i a x hmx⟩

theorem Regex.matchAt_sound (r : Regex) (s : List Char) (m : RegexMatch) (rest : List Char)
    (h : Regex.matchAt r s = some (m, rest)) : Regex.Matches r m.text := by
  unfold Regex.matchAt at h
  rcases hrun : Regex.run r s [] with _ | ⟨res, others⟩
  · simp [hrun] at h
  · simp only [hrun, Option.some.injEq, Prod.mk.injEq] at h
    obtain ⟨hm, -⟩ := h
    have hmem : res ∈ Regex.run r s [] := by
      rw [hrun]
      exact List.mem_cons_self _ _
    obtain ⟨pre, hpre, hmatch⟩ := Regex.run_sound r s [] res hmem
    have htext : m.text = pre := by
      rw [← hm, hpre]
      simp
    rw [htext]
    exact hmatch

/-- Every match collected by `match` is a text of the pattern. -/
theorem Regex.scan_sound (r : Regex) :
    ∀ (s : List Char) (k : Nat), ∀ m ∈ Regex.scan r k s, Regex.Matches r m.text := by
  intro s
  induction s with
  | nil =>
    intro k m hm
    cases k with
    | zero =>
      rcases h0 : Regex.matchAt r [] with _ | ⟨m0, rest⟩
      · simp [Regex.scan, h0] at hm
      · simp only [Regex.scan, h0, List.mem_singleton] at hm
        rw [hm]
        exact Regex.matchAt_sound r [] m0 rest h0
    | succ k => simp [Regex.scan] at hm
  | cons c s ih =>
    intro k m hm
    cases k with
    | succ k =>
      rw [Regex.scan] at hm
      exact ih k m hm
    | zero =>
      rcases h0 : Regex.matchAt r (c :: s) with _ | ⟨m0, rest⟩
      · simp only [Regex.scan, h0] at hm
        exact ih 0 m hm
      · simp only [Regex.scan, h0, List.mem_cons] at hm
        rcases hm with hm | hm
        · rw [hm]
          exact Regex.matchAt_sound r (c :: s) m0 rest h0
        · exact ih _ m hm

/-! ## Reading a match of a pattern back -/

theorem Regex.matches_eps (t : List Char) : Regex.Matches Regex.eps t ↔ t = [] := by
  constructor
  · intro h; cases h; rfl
  · intro h; rw [h]; exact Regex.Matches.eps

theorem Regex.matches_cls (p : Char → Bool) (t : List Char) :
    Regex.Matches (Regex.cls p) t ↔ ∃ c, t = [c] ∧ p c = true := by
  constructor
  · intro h
    cases h with
    | cls _ c hc => exact ⟨c, rfl, hc⟩
  · rintro ⟨c, rfl, hc⟩
    exact Regex.Matches.cls p c hc

theorem Regex.matches_seq (a b : Regex) (t : List Char) :
    Regex.Matches (Regex.seq a b) t ↔
      ∃ x y, t = x ++ y ∧ Regex.Matches a x ∧ Regex.Matches b y := by
  constructor
  · intro h
    cases h with
    | seq _ _ x y hx hy => exact ⟨x, y, rfl, hx, hy⟩
  · rintro ⟨x, y, rfl, hx, hy⟩
    exact Regex.Matches.seq a b x y hx hy

theorem Regex.matches_alt (a b : Regex) (t : List Char) :
    Regex.Matches (Regex.alt a b) t ↔ Regex.Matches a t ∨ Regex.Matches b t := by
  constructor
  · intro h
    cases h with
    | altLeft _ _ _ h => exact Or.inl h
    | altRight _ _ _ h => exact Or.inr h
  · rintro (h | h)
    · exact Regex.Matches.altLeft a b t h
    · exact Regex.Matches.altRight a b t h

theorem Regex.matches_group (i : Nat) (a : Regex) (t : List Char) :
    Regex.Matches (Regex.group i a) t ↔ Regex.Matches a t := by
  constructor
  · intro h
    cases h with
    | group _ _ _ h => exact h
  · exact Regex.Matches.group i a t

theorem Regex.matches_star_cls_aux (r : Regex) (t : List Char) (h : Regex.Matches r t) :
    ∀ p, r = Regex.star (Regex.cls p) → ∀ c ∈ t, p c = true := by
  induction h with
  | eps => intro p hr; cases hr
  | cls q c hc => intro p hr; cases hr
  | seq a b x y hx hy ihx ihy => intro p hr; cases hr
  | altLeft a b x hx ih => intro p hr; cases hr
  | altRight a b x hx ih => intro p hr; cases hr
  | starNil a => intro p _ c hc; cases hc
  | starCons a x y hx hy ihx ihy =>
    intro p hr c hc
    cases hr
    obtain ⟨d, rfl, hd⟩ := (Regex.matches_cls p x).1 hx
    rcases List.mem_append.1 hc with h1 | h1
    · rw [List.mem_singleton.1 h1]; exact hd
    · exact ihy p rfl c h1
  | group i a x hx ih => intro p hr; cases hr

/-- A match of `[p]+` is a non-empty text of characters of class `p`. -/
theorem Regex.matches_plus_cls (p : Char → Bool) (t : List Char)
    (h : Regex.Matches (Regex.plus (Regex.cls p)) t) : t ≠ [] ∧ ∀ c ∈ t, p c = true := by
  obtain ⟨x, y, rfl, hx, hy⟩ := (Regex.matches_seq _ _ t).1 h
  obtain ⟨d, rfl, hd⟩ := (Regex.matches_cls p x).1 hx
  refine ⟨by simp, ?_⟩
  intro c hc
  rcases List.mem_append.1 hc with h1 | h1
  · rw [List.mem_singleton.1 h1]; exact hd
  · exact Regex.matches_star_cls_aux _ y hy p rfl c h1

theorem Regex.matches_seqs_cons (a : Regex) (l : List Regex) (t : List Char) :
    Regex.Matches (Regex.seqs (a :: l)) t ↔
      ∃ x y, t = x ++ y ∧ Regex.Matches a x ∧ Regex.Matches (Regex.seqs l) y := by
  cases l with
  | nil =>
    simp only [Regex.seqs, Regex.matches_eps]
    constructor
    · intro h; exact ⟨t, [], by simp, h, rfl⟩
    · rintro ⟨x, y, rfl, hx, rfl⟩; simpa using hx
  | cons b l =>
    simp only [Regex.seqs]
    exact Regex.matches_seq _ _ t

/-- A match of a literal under the flag `i` has, letter by letter, one of the two cases
of the literal. -/
theorem Regex.matches_litCI (l : List Char) :
    ∀ t : List Char,
      Regex.Matches
          (Regex.seqs (l.map (fun c => Regex.cls (fun x => x == c.toLower || x == c.toUpper)))) t →
        List.Forall₂ (fun c x => x = c.toLower ∨ x = c.toUpper) l t := by
  induction l with
  | nil =>
    intro t h
    simp only [List.map_nil, Regex.seqs, Regex.matches_eps] at h
    rw [h]
    exact List.Forall₂.nil
  | cons c l ih =>
    intro t h
    rw [List.map_cons, Regex.matches_seqs_cons] at h
    obtain ⟨x, y, rfl, hx, hy⟩ := h
    obtain ⟨d, rfl, hd⟩ := (Regex.matches_cls _ x).1 hx
    simp only [Bool.or_eq_true, beq_iff_eq] at hd
    exact List.Forall₂.cons hd (ih y hy)

/-! ## Endpoints -/

theorem methodLetter_upper (c x : Char) (hc : c ∈ "GETPOSUDLACH".data)
    (hx : x = c.toLower ∨ x = c.toUpper) : x.toUpper = c ∧ isWordChar x = true := by
  simp only [List.mem_cons, List.mem_singleton, List.not_mem_nil, or_false] at hc
  rcases hc with rfl | rfl | rfl | rfl | rfl | rfl | rfl | rfl | rfl | rfl | rfl | rfl <;>
    rcases hx with rfl | rfl <;> decide

theorem methodLetters_upper (l t : List Char)
    (h : List.Forall₂ (fun c x => x = c.toLower ∨ x = c.toUpper) l t) :
    (∀ c ∈ l, c ∈ "GETPOSUDLACH".data) →
      t.map Char.toUpper = l ∧ ∀ x ∈ t, isWordChar x = true := by
  induction h with
  | nil => intro _; exact ⟨rfl, by simp⟩
  | cons hx _ ih =>
    intro hl
    obtain ⟨h1, h2⟩ := methodLetter_upper _ _ (hl _ (List.mem_cons_self _ _)) hx
    obtain ⟨h3, h4⟩ := ih (fun c hc => hl c (List.mem_cons_of_mem _ hc))
    refine ⟨by simp [h1, h3], ?_⟩
    intro x hx
    rcases List.mem_cons.1 hx with rfl | hx
    · exact h2
    · exact h4 x hx

theorem matches_method_name (name : String) (hname : ∀ c ∈ name.data, c ∈ "GETPOSUDLACH".data)
    (t : List Char) (h : Regex.Matches (Regex.litCI name) t) :
    toUpperCase ⟨t⟩ = name ∧ ∀ x ∈ t, isWordChar x = true := by
  obtain ⟨h1, h2⟩ := methodLetters_upper _ _ (Regex.matches_litCI name.data t h) hname
  refine ⟨?_, h2⟩
  simp only [toUpperCase, h1]

theorem isWordChar_not_whitespace (c : Char) (h : isWordChar c = true) :
    isJsWhitespace c = false := by
  simp only [isWordChar, Bool.or_eq_true, Bool.and_eq_true, decide_eq_true_eq] at h
  simp only [isJsWhitespace, Bool.or_eq_false_iff, Bool.and_eq_false_iff, decide_eq_false_iff_not]
  omega

theorem isPathChar_not_whitespace (c : Char) (h : isPathChar c = true) :
    isJsWhitespace c = false := by
  simp only [isPathChar, Bool.or_eq_true, beq_iff_eq] at h
  rcases h with (h | rfl) | rfl
  · exact isWordChar_not_whitespace c h
  · decide
  · decide

theorem splitOnRunsAux_word (p : Char → Bool) (rest : List Char) :
    ∀ (xs cur : List Char), (∀ c ∈ xs, p c = false) →
      splitOnRunsAux p cur false (xs ++ rest) = splitOnRunsAux p (xs.reverse ++ cur) false rest := by
  intro xs
  induction xs with
  | nil => intro cur _; rfl
  | cons x xs ih =>
    intro cur h
    have hx : p x = false := h x (List.mem_cons_self _ _)
    simp only [List.cons_append, splitOnRunsAux, hx, Bool.false_eq_true, if_false,
      List.append_eq]
    rw [ih (x :: cur) (fun c hc => h c (List.mem_cons_of_mem _ hc))]
    simp

theorem splitOnRunsAux_space (p : Char → Bool) (rest : List Char) :
    ∀ (ws : List Char), (∀ c ∈ ws, p c = true) →
      splitOnRunsAux p [] true (ws ++ rest) = splitOnRunsAux p [] true rest := by
  intro ws
  induction ws with
  | nil => intro _; rfl
  | cons w ws ih =>
    intro h
    have hw : p w = true := h w (List.mem_cons_self _ _)
    simp only [List.cons_append, splitOnRunsAux, hw, if_true, List.append_eq]
    exact ih (fun c hc => h c (List.mem_cons_of_mem _ hc))

/-- Splitting `word space path` at the white space gives the word and the path. -/
theorem splitOnRuns_word_space_path (p : Char → Bool) (word space path : List Char)
    (hword : ∀ c ∈ word, p c = false) (hspace : ∀ c ∈ space, p c = true)
    (hne : space ≠ []) (hpath : ∀ c ∈ path, p c = false) (hpne : path ≠ []) :
    splitOnRuns p ⟨word ++ space ++ path⟩ = [⟨word⟩, ⟨path⟩] := by
  obtain ⟨w, ws, rfl⟩ := List.exists_cons_of_ne_nil hne
  obtain ⟨c, cs, rfl⟩ := List.exists_cons_of_ne_nil hpne
  have hw : p w = true := hspace w (List.mem_cons_self _ _)
  have hc : p c = false := hpath c (List.mem_cons_self _ _)
  simp only [splitOnRuns, List.append_assoc]
  rw [splitOnRunsAux_word p _ word [] hword]
  simp only [List.cons_append, splitOnRunsAux, hw, if_true, Bool.false_eq_true, if_false,
    List.append_nil, List.reverse_reverse, List.append_eq]
  rw [splitOnRunsAux_space p _ ws (fun c hc => hspace c (List.mem_cons_of_mem _ hc))]
  simp only [splitOnRunsAux, hc, Bool.false_eq_true, if_false]
  have h2 := splitOnRunsAux_word p [] cs [c] (fun d hd => hpath d (List.mem_cons_of_mem _ hd))
  rw [List.append_nil] at h2
  rw [h2]
  simp [splitOnRunsAux]

/-- A match of the endpoint pattern is a method name in either case, white space, and a
slash followed by path characters. -/
theorem matches_endpointRegex (t : List Char) (h : Regex.Matches endpointRegex t) :
    ∃ word space path : List Char,
      t = word ++ space ++ ('/' :: path) ∧
        toUpperCase ⟨word⟩ ∈ endpointMethods ∧ (∀ c ∈ word, isWordChar c = true) ∧
        space ≠ [] ∧ (∀ c ∈ space, isJsWhitespace c = true) ∧
        path ≠ [] ∧ ∀ c ∈ path, isPathChar c = true := by
  obtain ⟨word, y, rfl, hword, hy⟩ := (Regex.matches_seq _ _ t).1 h
  obtain ⟨space, path, rfl, hspace, hpath⟩ := (Regex.matches_seq _ _ y).1 hy
  rw [Regex.matches_group] at hword
  have hpath : Regex.Matches (Regex.seq (Regex.cls (fun c => c == '/'))
      (Regex.plus (Regex.cls isPathChar))) path := (Regex.matches_group _ _ path).1 hpath
  obtain ⟨hsne, hsall⟩ := Regex.matches_plus_cls _ space hspace
  obtain ⟨s1, p1, rfl, hs1, hp1⟩ := (Regex.matches_seq _ _ path).1 hpath
  obtain ⟨d, rfl, hd⟩ := (Regex.matches_cls _ s1).1 hs1
  simp only [beq_iff_eq] at hd
  subst hd
  obtain ⟨hpne, hpall⟩ := Regex.matches_plus_cls _ p1 hp1
  have hm : toUpperCase ⟨word⟩ ∈ endpointMethods ∧ ∀ c ∈ word, isWordChar c = true := by
    simp only [Regex.matches_alt] at hword
    rcases hword with h | h | h | h | h
    · obtain ⟨h1, h2⟩ := matches_method_name "GET" (by decide) word h
      exact ⟨by rw [h1]; decide, h2⟩
    · obtain ⟨h1, h2⟩ := matches_method_name "POST" (by decide) word h
      exact ⟨by rw [h1]; decide, h2⟩
    · obtain ⟨h1, h2⟩ := matches_method_name "PUT" (by decide) word h
      exact ⟨by rw [h1]; decide, h2⟩
    · obtain ⟨h1, h2⟩ := matches_method_name "DELETE" (by decide) word h
      exact ⟨by rw [h1]; decide, h2⟩
    · obtain ⟨h1, h2⟩ := matches_method_name "PATCH" (by decide) word h
      exact ⟨by rw [h1]; decide, h2⟩
  exact ⟨word, space, p1, by simp, hm.1, hm.2, hsne, hsall, hpne, hpall⟩

theorem weave_cons_first (c : Char) (g0 : List Char) (gaps ms : List (List Char)) :
    weave ((c :: g0) :: gaps) ms = c :: weave (g0 :: gaps) ms := by
  cases ms with
  | nil => simp [weave]
  | cons m ms => simp [weave]

/-- The matches collected by `match` lie in the text one after the other, without
overlap: the text read is the matches in order, with a gap before, between and after
them. -/
theorem Regex.scan_weave (r : Regex) :
    ∀ (s : List Char) (k : Nat), k ≤ s.length →
      ∃ g0 gaps, gaps.length = (Regex.scan r k s).length ∧
        s.drop k = weave (g0 :: gaps) ((Regex.scan r k s).map (fun m => m.text)) := by
  intro s
  induction s with
  | nil =>
    intro k hk
    have hk0 : k = 0 := by simpa using hk
    subst hk0
    rcases h0 : Regex.matchAt r [] with _ | ⟨m0, rest⟩
    · exact ⟨[], [], by simp [Regex.scan, h0], by simp [Regex.scan, h0, weave]⟩
    · have hsplit := (Regex.matchAt_eq_some r [] m0 rest h0).1
      have ht : m0.text = [] := (List.append_eq_nil.1 hsplit.symm).1
      exact ⟨[], [[]], by simp [Regex.scan, h0], by simp [Regex.scan, h0, weave, ht]⟩
  | cons c s ih =>
    intro k hk
    cases k with
    | succ k =>
      simp only [List.length_cons, Nat.add_le_add_iff_right] at hk
      obtain ⟨g0, gaps, hlen, hw⟩ := ih k hk
      exact ⟨g0, gaps, by rw [Regex.scan]; exact hlen, by
        rw [Regex.scan, List.drop_succ_cons]; exact hw⟩
    | zero =>
      rcases h0 : Regex.matchAt r (c :: s) with _ | ⟨m0, rest⟩
      · obtain ⟨g0, gaps, hlen, hw⟩ := ih 0 (Nat.zero_le _)
        refine ⟨c :: g0, gaps, by simp only [Regex.scan, h0]; exact hlen, ?_⟩
        simp only [Regex.scan, h0, List.drop_zero] at hw ⊢
        rw [weave_cons_first, ← hw]
      · have hsplit := (Regex.matchAt_eq_some r (c :: s) m0 rest h0).1
        have hk : m0.text.length - 1 ≤ s.length := by
          have := congrArg List.length hsplit
          simp only [List.length_cons, List.length_append] at this
          omega
        obtain ⟨g0, gaps, hlen, hw⟩ := ih (m0.text.length - 1) hk
        rcases hm : m0.text with _ | ⟨d, ds⟩
        · rw [hm] at hlen hw
          simp only [List.length_nil, Nat.zero_sub, List.drop_zero] at hlen hw
          refine ⟨[], (c :: g0) :: gaps, by
            simp only [Regex.scan, h0, hm, List.length_cons, List.length_nil, Nat.zero_sub]
            omega, ?_⟩
          simp only [Regex.scan, h0, hm, List.drop_zero, List.map_cons, weave, List.nil_append,
            List.length_nil, Nat.zero_sub]
          rw [weave_cons_first, ← hw]
        · rw [hm] at hsplit hlen hw
          simp only [List.cons_append, List.cons.injEq] at hsplit
          simp only [List.length_cons, Nat.add_sub_cancel] at hlen hw
          refine ⟨[], g0 :: gaps, by
            simp only [Regex.scan, h0, hm, List.length_cons, Nat.add_sub_cancel]
            omega, ?_⟩
          simp only [Regex.scan, h0, hm, List.drop_zero, List.map_cons, weave, List.nil_append,
            List.length_cons, Nat.add_sub_cancel]
          rw [← hw, hsplit.2]
          simp [hsplit.1]
theorem endpoint_of_match (content : String) (m : String)
    (hm : m ∈ jsMatchAll endpointRegex content) :
    ∃ word space path : List Char,
      m.data = word ++ space ++ ('/' :: path) ∧
        splitOnRuns isJsWhitespace m = [⟨word⟩, ⟨'/' :: path⟩] ∧
        toUpperCase ⟨word⟩ ∈ endpointMethods ∧
        space ≠ [] ∧ (∀ c ∈ space, isJsWhitespace c = true) ∧
        ∀ c ∈ path, isPathChar c = true := by
  simp only [jsMatchAll, List.mem_map] at hm
  obtain ⟨mm, hmm, rfl⟩ := hm
  obtain ⟨word, space, path, ht, hmeth, hword, hsne, hsall, -, hpall⟩ :=
    matches_endpointRegex mm.text (Regex.scan_sound endpointRegex content.data 0 mm hmm)
  have hpath : ∀ c ∈ '/' :: path, isJsWhitespace c = false := by
    intro c hc
    rcases List.mem_cons.1 hc with rfl | hc
    · decide
    · exact isPathChar_not_whitespace c (hpall c hc)
  refine ⟨word, space, path, ht, ?_, hmeth, hsne, hsall, hpall⟩
  rw [ht]
  exact splitOnRuns_word_space_path isJsWhitespace word space ('/' :: path)
    (fun c hc => isWordChar_not_whitespace c (hword c hc)) hsall hsne hpath (by simp)

/-- C21: `extractEndpoints` returns one record per match of the endpoint pattern that
`String.prototype.match` finds, in the same order, each made of the method and the path
of its match; every record has a method among `GET`, `POST`, `PUT`, `DELETE`, `PATCH` and
a path that starts with a slash and consists of word characters, slashes and hyphens.
The matches lie in the text in that order, without overlap. -/
theorem extractEndpoints_spec (content : String) :
    List.Forall₂ IsEndpointOf (jsMatchAll endpointRegex content) (extractEndpoints content) ∧
      (∃ g0 gaps, gaps.length = (jsMatchAll endpointRegex content).length ∧
        content.data =
          weave (g0 :: gaps) ((jsMatchAll endpointRegex content).map (fun m => m.data))) ∧
      ∀ e ∈ extractEndpoints content,
        e.method ∈ endpointMethods ∧
          ∃ (path : String) (rest : List Char),
            e.path = some path ∧ path.data = '/' :: rest ∧
              ∀ c ∈ path.data, isPathChar c = true := by
  refine ⟨?_, ?_, ?_⟩
  · simp only [extractEndpoints, List.forall₂_map_right_iff]
    refine List.forall₂_same.2 (fun m hm => ?_)
    obtain ⟨word, space, path, ht, hsplit, -, hsne, hsall, -⟩ := endpoint_of_match content m hm
    refine ⟨word, space, '/' :: path, ht, hsne, hsall, ?_, ?_⟩
    · simp [hsplit]
    · simp [hsplit]
  · obtain ⟨g0, gaps, hlen, hw⟩ := Regex.scan_weave endpointRegex content.data 0 (Nat.zero_le _)
    refine ⟨g0, gaps, by simpa [jsMatchAll] using hlen, ?_⟩
    simpa [jsMatchAll, List.map_map, Function.comp_def] using hw
  · intro e he
    simp only [extractEndpoints, List.mem_map] at he
    obtain ⟨m, hm, rfl⟩ := he
    obtain ⟨word, space, path, -, hsplit, hmeth, -, -, hpall⟩ := endpoint_of_match content m hm
    refine ⟨by simpa [hsplit] using hmeth, ⟨'/' :: path⟩, path, by simp [hsplit], rfl, ?_⟩
    intro c hc
    rcases List.mem_cons.1 hc with rfl | hc
    · decide
    · exact hpall c hc

/-- A text with two endpoints, the second in lower case, gives the two records. -/
theorem extractEndpoints_spec_witness :
    extractEndpoints "GET /users lists, post  /users/new-one adds" =
        [{ method := "GET", path := some "/users" },
         { method := "POST", path := some "/users/new-one" }] ∧
      ({ method := "POST", path := some "/users/new-one" } : Endpoint).method ∈
        endpointMethods :=
  ⟨by decide,
    ((extractEndpoints_spec "GET /users lists, post  /users/new-one adds").2.2
      { method := "POST", path := some "/users/new-one" } (by decide)).1⟩

/-! ## Choosing the longest examples of each group -/

/-- Taking the first three of each group, then the first `n` overall, when each group is
listed longest first and no key occurs in two groups: what is left out is never longer
than what is kept under the same key, what is kept is listed longest first under each
key, and no key is kept more than three times. -/
theorem take_groups_spec {α κ : Type} [DecidableEq κ] (key : α → κ) (len : α → Nat) :
    ∀ (gs : List (List α)),
      (∀ g ∈ gs, g.Pairwise (fun a b => len b ≤ len a)) →
      gs.Pairwise (fun g g' => ∀ x ∈ g, ∀ y ∈ g', key x ≠ key y) →
      ∀ n : Nat, ∃ dropped : List α,
        (((gs.flatMap (fun g => g.take 3)).take n) ++ dropped).Perm gs.flatten ∧
        (∀ x ∈ dropped, ∀ y ∈ (gs.flatMap (fun g => g.take 3)).take n,
          key x = key y → len x ≤ len y) ∧
        ((gs.flatMap (fun g => g.take 3)).take n).Pairwise
          (fun a b => key a = key b → len b ≤ len a) ∧
        ∀ k : κ,
          (((gs.flatMap (fun g => g.take 3)).take n).filter
            (fun x => decide (key x = k))).length ≤ 3 := by
  intro gs
  induction gs with
  | nil =>
    intro _ _ n
    exact ⟨[], by simp, by simp, by simp, by simp⟩
  | cons g gs ih =>
    intro hsorted hdisj n
    rw [List.pairwise_cons] at hdisj
    obtain ⟨hg, hdisj'⟩ := hdisj
    obtain ⟨dropped', hperm, hdrop, hpair, hcount⟩ :=
      ih (fun g' hg' => hsorted g' (List.mem_cons_of_mem _ hg')) hdisj'
        (n - (g.take 3).length)
    have hgs : g.Pairwise (fun a b => len b ≤ len a) := hsorted g (List.mem_cons_self _ _)
    have hkept_eq : ((g :: gs).flatMap (fun g => g.take 3)).take n =
        g.take (min n 3) ++ (gs.flatMap (fun g => g.take 3)).take (n - (g.take 3).length) := by
      rw [List.flatMap_cons, List.take_append_eq_append_take, List.take_take]
    have hsplit : g.take (min n 3) ++ g.drop (min n 3) = g := List.take_append_drop _ _
    have hkept_mem : ∀ y ∈ (gs.flatMap (fun g => g.take 3)).take (n - (g.take 3).length),
        ∃ g' ∈ gs, y ∈ g' := by
      intro y hy
      obtain ⟨g', hg', hy'⟩ := List.mem_flatMap.1 (List.mem_of_mem_take hy)
      exact ⟨g', hg', List.mem_of_mem_take hy'⟩
    have hdrop_mem : ∀ x ∈ dropped', ∃ g' ∈ gs, x ∈ g' := by
      intro x hx
      have : x ∈ gs.flatten := hperm.subset (List.mem_append_right _ hx)
      exact List.mem_flatten.1 this
    have hsorted2 : (g.take (min n 3) ++ g.drop (min n 3)).Pairwise
        (fun a b => len b ≤ len a) := by rw [hsplit]; exact hgs
    rw [List.pairwise_append] at hsorted2
    refine ⟨g.drop (min n 3) ++ dropped', ?_, ?_, ?_, ?_⟩
    · rw [hkept_eq, List.flatten_cons, List.append_assoc]
      refine ((List.perm_append_comm_assoc _ _ _).append_left _).trans ?_
      rw [← List.append_assoc, hsplit]
      exact hperm.append_left g
    · intro x hx y hy hxy
      rw [hkept_eq] at hy
      rcases List.mem_append.1 hx with hx | hx <;> rcases List.mem_append.1 hy with hy | hy
      · exact hsorted2.2.2 y hy x hx
      · obtain ⟨g', hg', hy'⟩ := hkept_mem y hy
        exact absurd hxy (hg g' hg' x (List.mem_of_mem_drop hx) y hy')
      · obtain ⟨g', hg', hx'⟩ := hdrop_mem x hx
        exact absurd hxy.symm (hg g' hg' y (List.mem_of_mem_take hy) x hx')
      · exact hdrop x hx y hy hxy
    · rw [hkept_eq, List.pairwise_append]
      have h1 : (g.take (min n 3)).Pairwise (fun a b => key a = key b → len b ≤ len a) := by
        refine List.Pairwise.imp ?_ hsorted2.1
        intro a b h _
        exact h
      refine ⟨h1, hpair, ?_⟩
      intro a ha b hb hab
      obtain ⟨g', hg', hb'⟩ := hkept_mem b hb
      exact absurd hab (hg g' hg' a (List.mem_of_mem_take ha) b hb')
    · intro k
      rw [hkept_eq, List.filter_append, List.length_append]
      by_cases hk : ∃ x ∈ g, key x = k
      · obtain ⟨x, hx, hxk⟩ := hk
        have hnil : ((gs.flatMap (fun g => g.take 3)).take (n - (g.take 3).length)).filter
            (fun x => decide (key x = k)) = [] := by
          rw [List.filter_eq_nil_iff]
          intro y hy
          obtain ⟨g', hg', hy'⟩ := hkept_mem y hy
          have := hg g' hg' x hx y hy'
          simp only [decide_eq_true_eq]
          intro hyk
          exact this (hxk.trans hyk.symm)
        rw [hnil, List.length_nil, Nat.add_zero]
        refine (List.length_filter_le _ _).trans ?_
        rw [List.length_take]
        omega
      · have hnil : (g.take (min n 3)).filter (fun x => decide (key x = k)) = [] := by
          rw [List.filter_eq_nil_iff]
          intro y hy
          simp only [decide_eq_true_eq]
          intro hyk
          exact hk ⟨y, List.mem_of_mem_take hy, hyk⟩
        rw [hnil, List.length_nil, Nat.zero_add]
        exact hcount k

/-! ## Grouping the examples -/

theorem groupExample_eq (acc : List (String × List ExampleRecord)) (item : ExampleRecord) :
    groupExample acc item =
      if exampleKey item ∈ acc.map Prod.fst then
        acc.map (fun g => if g.1 = exampleKey item then (g.1, g.2 ++ [item]) else g)
      else acc ++ [(exampleKey item, [item])] := by
  have hany : acc.any (fun g => g.1 == exampleKey item) = true ↔
      exampleKey item ∈ acc.map Prod.fst := by
    simp only [List.any_eq_true, beq_iff_eq, List.mem_map]
  by_cases h : exampleKey item ∈ acc.map Prod.fst
  · have h1 := hany.2 h
    simp only [groupExample, exampleKey, beq_iff_eq] at h1 ⊢
    simp only [exampleKey] at h
    simp [h1, h]
  · have h1 : ¬ acc.any (fun g => g.1 == exampleKey item) = true := fun h2 => h (hany.1 h2)
    simp only [groupExample, exampleKey, beq_iff_eq] at h1 ⊢
    simp only [exampleKey] at h
    simp only [h1, h, if_false]
    simp

theorem groupUpdate_id (key : String) (item : ExampleRecord) :
    ∀ rest : List (String × List ExampleRecord), key ∉ rest.map Prod.fst →
      rest.map (fun g => if g.1 = key then (g.1, g.2 ++ [item]) else g) = rest := by
  intro rest
  induction rest with
  | nil => intro _; rfl
  | cons g rest ih =>
    intro h
    simp only [List.map_cons, List.mem_cons, not_or] at h
    have hg : ¬ g.1 = key := fun e => h.1 e.symm
    simp only [List.map_cons, hg, if_false, ih h.2]

theorem groupUpdate_keys (key : String) (item : ExampleRecord)
    (acc : List (String × List ExampleRecord)) :
    (acc.map (fun g => if g.1 = key then (g.1, g.2 ++ [item]) else g)).map Prod.fst =
      acc.map Prod.fst := by
  rw [List.map_map]
  refine List.map_congr_left (fun g _ => ?_)
  by_cases hg : g.1 = key
  · simp [hg]
  · simp [hg]

theorem groupUpdate_perm (key : String) (item : ExampleRecord) :
    ∀ acc : List (String × List ExampleRecord), (acc.map Prod.fst).Nodup →
      key ∈ acc.map Prod.fst →
      ((acc.map (fun g => if g.1 = key then (g.1, g.2 ++ [item]) else g)).flatMap
        Prod.snd).Perm (acc.flatMap Prod.snd ++ [item]) := by
  intro acc
  induction acc with
  | nil => intro _ h; simp at h
  | cons g acc ih =>
    intro hnd hmem
    rw [List.map_cons, List.nodup_cons] at hnd
    by_cases hg : g.1 = key
    · have hrest : key ∉ acc.map Prod.fst := by rw [← hg]; exact hnd.1
      rw [List.map_cons, groupUpdate_id key item acc hrest]
      simp only [hg, if_true, List.flatMap_cons, List.append_assoc]
      exact (List.perm_append_comm).append_left g.2
    · have hmem' : key ∈ acc.map Prod.fst := by
        rw [List.map_cons, List.mem_cons] at hmem
        rcases hmem with h | h
        · exact absurd h.symm hg
        · exact h
      simp only [List.map_cons, hg, if_false, List.flatMap_cons, List.append_assoc]
      exact (ih hnd.2 hmem').append_left g.2

/-- One step of the grouping keeps the keys distinct and each example under its own key,
and adds the example to the examples grouped so far. -/
theorem groupExample_inv (acc : List (String × List ExampleRecord)) (item : ExampleRecord)
    (hnd : (acc.map Prod.fst).Nodup)
    (hkeys : ∀ g ∈ acc, ∀ x ∈ g.2, exampleKey x = g.1) :
    ((groupExample acc item).map Prod.fst).Nodup ∧
      (∀ g ∈ groupExample acc item, ∀ x ∈ g.2, exampleKey x = g.1) ∧
      ((groupExample acc item).flatMap Prod.snd).Perm (acc.flatMap Prod.snd ++ [item]) := by
  rw [groupExample_eq]
  by_cases h : exampleKey item ∈ acc.map Prod.fst
  · simp only [h, if_true]
    refine ⟨by rw [groupUpdate_keys]; exact hnd, ?_, groupUpdate_perm _ item acc hnd h⟩
    intro g hg x hx
    obtain ⟨g0, hg0, rfl⟩ := List.mem_map.1 hg
    by_cases hk : g0.1 = exampleKey item
    · simp only [hk, if_true] at hx ⊢
      rcases List.mem_append.1 hx with hx | hx
      · rw [← hk]; exact hkeys g0 hg0 x hx
      · rw [List.mem_singleton.1 hx]
    · simp only [hk, if_false] at hx ⊢
      exact hkeys g0 hg0 x hx
  · simp only [h, if_false]
    refine ⟨?_, ?_, ?_⟩
    · rw [List.map_append, List.nodup_append]
      refine ⟨hnd, by simp, ?_⟩
      intro k hk hk'
      simp only [List.map_cons, List.map_nil, List.mem_singleton] at hk'
      exact h (hk' ▸ hk)
    · intro g hg x hx
      rcases List.mem_append.1 hg with hg | hg
      · exact hkeys g hg x hx
      · rw [List.mem_singleton.1 hg] at hx ⊢
        rw [List.mem_singleton.1 hx]
    · rw [List.flatMap_append]
      simp

theorem foldl_groupExample_inv :
    ∀ (l : List ExampleRecord) (acc : List (String × List ExampleRecord)),
      (acc.map Prod.fst).Nodup → (∀ g ∈ acc, ∀ x ∈ g.2, exampleKey x = g.1) →
      ((l.foldl groupExample acc).map Prod.fst).Nodup ∧
        (∀ g ∈ l.foldl groupExample acc, ∀ x ∈ g.2, exampleKey x = g.1) ∧
        ((l.foldl groupExample acc).flatMap Prod.snd).Perm (acc.flatMap Prod.snd ++ l) := by
  intro l
  induction l with
  | nil => intro acc hnd hkeys; exact ⟨hnd, hkeys, by simp⟩
  | cons item l ih =>
    intro acc hnd hkeys
    obtain ⟨h1, h2, h3⟩ := groupExample_inv acc item hnd hkeys
    obtain ⟨h4, h5, h6⟩ := ih (groupExample acc item) h1 h2
    refine ⟨h4, h5, ?_⟩
    rw [List.foldl_cons]
    refine h6.trans ?_
    have := h3.append_right l
    simpa [List.append_assoc] using this

/-! ## The examples of the knowledge base -/

theorem sortByCodeLength_sorted (group : List ExampleRecord) :
    (sortByCodeLength group).Pairwise (fun a b => b.code.length ≤ a.code.length) := by
  haveI : IsTotal ExampleRecord (fun a b => b.code.length ≤ a.code.length) :=
    ⟨fun a b => Nat.le_total _ _⟩
  haveI : IsTrans ExampleRecord (fun a b => b.code.length ≤ a.code.length) :=
    ⟨fun a b c hab hbc => Nat.le_trans hbc hab⟩
  exact List.sorted_insertionSort (fun a b : ExampleRecord => b.code.length ≤ a.code.length) group

theorem sortByCodeLength_perm (group : List ExampleRecord) :
    (sortByCodeLength group).Perm group :=
  List.perm_insertionSort _ group

theorem processExamples_eq (examples : List ExampleRecord) :
    processExamples examples =
      ((((examples.foldl groupExample []).map (fun g => sortByCodeLength g.2)).flatMap
        (fun g => g.take 3)).take 50).map entryOfExample := by
  have h := foldl_eq_append_flatMap
    (fun (processed : List ExampleRecord) (group : String × List ExampleRecord) =>
      processed ++ (sortByCodeLength group.2).take 3)
    (fun g => (sortByCodeLength g.2).take 3) (fun _ _ => rfl)
    (examples.foldl groupExample []) []
  simp only [processExamples]
  rw [h, List.flatMap_map, List.nil_append]
  rfl

theorem samePair_key (a b : ExampleRecord) (h : SamePair a b) : exampleKey a = exampleKey b := by
  simp only [exampleKey, h.1, h.2]

/-- C30: `processExamples` returns the entries of a list `kept` of examples, the other
examples of the input being `dropped`: at most 50 are kept, at most 3 of each (category,
language) pair; a dropped example never has longer code than a kept example of its pair;
the kept examples of a pair are listed longest first; each entry repeats its example,
with `source` as `source_url`. -/
theorem processExamples_spec (examples : List ExampleRecord) :
    ∃ kept dropped : List ExampleRecord,
      processExamples examples = kept.map entryOfExample ∧
        (kept ++ dropped).Perm examples ∧
        kept.length ≤ 50 ∧
        (∀ category language : String,
          (kept.filter
            (fun x => decide (x.category = category ∧ x.language = language))).length ≤ 3) ∧
        (∀ d ∈ dropped, ∀ k ∈ kept, SamePair d k → d.code.length ≤ k.code.length) ∧
        kept.Pairwise (fun a b => SamePair a b → b.code.length ≤ a.code.length) := by
  obtain ⟨hnd, hkeys, hperm⟩ := foldl_groupExample_inv examples [] (by simp) (by simp)
  have hsorted : ∀ g ∈ (examples.foldl groupExample []).map (fun g => sortByCodeLength g.2),
      g.Pairwise (fun a b => b.code.length ≤ a.code.length) := by
    intro g hg
    obtain ⟨g0, _, rfl⟩ := List.mem_map.1 hg
    exact sortByCodeLength_sorted g0.2
  have hdisj : ((examples.foldl groupExample []).map (fun g => sortByCodeLength g.2)).Pairwise
      (fun g g' => ∀ x ∈ g, ∀ y ∈ g', exampleKey x ≠ exampleKey y) := by
    rw [List.pairwise_map]
    have hne : (examples.foldl groupExample []).Pairwise (fun a b => a.1 ≠ b.1) :=
      List.pairwise_map.1 hnd
    refine List.Pairwise.imp_of_mem ?_ hne
    intro a b ha hb hab x hx y hy
    rw [hkeys a ha x ((sortByCodeLength_perm a.2).mem_iff.1 hx),
      hkeys b hb y ((sortByCodeLength_perm b.2).mem_iff.1 hy)]
    exact hab
  obtain ⟨dropped, hp, hdrop, hpair, hcount⟩ :=
    take_groups_spec exampleKey (fun x => x.code.length) _ hsorted hdisj 50
  refine ⟨_, dropped, processExamples_eq examples, ?_, List.length_take_le _ _, ?_, ?_, ?_⟩
  · refine hp.trans ?_
    rw [← List.flatMap_def]
    have h1 : ((examples.foldl groupExample []).flatMap (fun g => sortByCodeLength g.2)).Perm
        ((examples.foldl groupExample []).flatMap Prod.snd) :=
      List.Perm.flatMap_left _ (fun g _ => sortByCodeLength_perm g.2)
    simpa using h1.trans hperm
  · intro category language
    refine le_trans ?_ (hcount (category ++ "-" ++ language))
    refine (List.monotone_filter_right _ ?_).length_le
    intro x hx
    simp only [decide_eq_true_eq] at hx ⊢
    simp only [exampleKey, hx.1, hx.2]
  · intro d hd k hk hsame
    exact hdrop d hd k hk (samePair_key d k hsame)
  · refine List.Pairwise.imp ?_ hpair
    intro a b h hsame
    exact h (samePair_key a b hsame)

/-- Of the four examples of the pair (usage, js) the three longest are kept, longest
first, and then the one example of (setup, sh). -/
theorem processExamples_spec_witness :
    (processExamples demoExamples).map (fun e => (e.code, e.category, e.source_url)) =
        [("abcd", "usage", "https://ex.com/docs"), ("abc", "usage", "https://ex.com/docs"),
         ("ab", "usage", "https://ex.com/docs"), ("x", "setup", "https://ex.com/docs")] ∧
      ∃ kept dropped : List ExampleRecord,
        processExamples demoExamples = kept.map entryOfExample ∧
          (kept ++ dropped).Perm demoExamples ∧
          kept.length ≤ 50 ∧
          (∀ category language : String,
            (kept.filter
              (fun x => decide (x.category = category ∧ x.language = language))).length ≤ 3) ∧
          (∀ d ∈ dropped, ∀ k ∈ kept, SamePair d k → d.code.length ≤ k.code.length) ∧
          kept.Pairwise (fun a b => SamePair a b → b.code.length ≤ a.code.length) :=
  ⟨by decide, processExamples_spec demoExamples⟩

/-! ## Length of the main text under the direct HTTP strategy -/

theorem fetchAndExtract_text_length {ν : Type} (lower : String → String)
    (fetchDocument : ν → String → ν × Option Document) (w : SimpleWorld ν) (url : String)
    (c : PageContent)
    (h : (SimpleScraper.getPageContent (fetchAndExtract lower fetchDocument) w url).2 = some c) :
    c.text.length ≤ 10000 := by
  simp only [SimpleScraper.getPageContent, fetchAndExtract] at h
  rcases hd : (fetchDocument w.net url).2 with _ | doc
  · simp [hd] at h
  · simp only [hd, Option.map_some', Option.some.injEq] at h
    rw [← h]
    exact cleanText_length_le _

/-- The main text of every record collected by a crawl over the direct HTTP strategy
has at most 10,000 characters. -/
theorem direct_http_content_length {ν : Type} (lower : String → String)
    (fetchDocument : ν → String → ν × Option Document)
    (parseUrl : String → Option ParsedUrl) (resolveUrl : String → String → Option String)
    (clock : ν → String) (o : Options) (fuel : Nat) (s s' : Crawler (SimpleWorld ν))
    (startUrl : String) (hs : ∀ p ∈ s.pages, p.content.length ≤ 10000)
    (h : crawl (simpleScraper (fetchAndExtract lower fetchDocument) parseUrl resolveUrl clock)
      parseUrl o fuel s startUrl = CrawlResult.returned s') :
    ∀ p ∈ s'.pages, p.content.length ≤ 10000 := by
  refine crawl_invariant _ parseUrl o (fun t => ∀ p ∈ t.pages, p.content.length ≤ 10000) ?_
    fuel s s' startUrl ?_ h
  · intro t ht hcond
    obtain ⟨current, rest, -, -, hcase⟩ := loopBody_cases _ parseUrl o t hcond
    rcases hcase with ⟨hb, -⟩ | ⟨-, -, w, newPages, links, disc, hb, -, hnone, hsome, -⟩
    · rw [hb]; exact ht
    · rw [hb]
      intro p hp
      rcases List.mem_append.1 hp with hp | hp
      · exact ht p hp
      · rcases hc : ((simpleScraper (fetchAndExtract lower fetchDocument) parseUrl resolveUrl
            clock).getPageContent t.world current.url).2 with _ | c
        · rw [(hnone hc).1] at hp
          cases hp
        · rw [hsome c hc, List.mem_singleton] at hp
          rw [hp]
          exact fetchAndExtract_text_length lower fetchDocument t.world current.url c hc
  · intro u _
    simpa [pushSeed] using hs

/-! ## The seed and the remote browser strategy -/

theorem depthLimit_pos (o : Options) (h : 0 ≤ o.depth) : 0 < depthLimit o := by
  unfold depthLimit
  by_cases h0 : o.depth = 0
  · simp [h0]
  · rw [if_neg h0]; omega

theorem maxPagesLimit_pos (o : Options) (h : 0 ≤ o.maxPages) : 0 < maxPagesLimit o := by
  unfold maxPagesLimit
  by_cases h0 : o.maxPages = 0
  · simp [h0]
  · rw [if_neg h0]; omega

/-- The first pass of the loop of a crawl on a fresh controller runs `crawlPage` on the
seed at depth 0, whatever the URL filter says of the seed. -/
theorem loopBody_seed {σ : Type} (sc : Scraper σ) (parseUrl : String → Option ParsedUrl)
    (o : Options) (w : σ) (origin startUrl : String) (hd : 0 ≤ o.depth) :
    loopBody sc parseUrl o (pushSeed { Crawler.fresh w with baseUrl := origin } startUrl) =
      crawlPage sc parseUrl o
        { visited := [], queue := [], pages := [], baseUrl := origin, world := w,
          trace := { fetched := [], discovered := [], pushed := [{ url := startUrl, depth := 0 }] } }
        startUrl 0 := by
  have h := depthLimit_pos o hd
  have h2 : ¬ (0 : Int) > depthLimit o := by omega
  simp [loopBody, pushSeed, Crawler.fresh, h2]

theorem isValidDocumentationUrl_of_parse_none (parseUrl : String → Option ParsedUrl)
    (o : Options) (baseUrl url : String) (h : parseUrl url = none) :
    isValidDocumentationUrl parseUrl o baseUrl url = false := by
  simp [isValidDocumentationUrl, h]

theorem newEntries_of_rejected (parseUrl : String → Option ParsedUrl) (o : Options)
    (baseUrl : String) (visited : List String) (depth : Nat) (links : List String)
    (h : ∀ link ∈ links, isValidDocumentationUrl parseUrl o baseUrl link = false) :
    newEntries parseUrl o baseUrl visited depth links = [] := by
  unfold newEntries
  rw [List.map_eq_nil_iff, List.filter_eq_nil_iff]
  intro link hl
  simp [h link hl]

/-- The effect of `crawlPage` under the remote browser strategy, when no link of the mock
list parses: the page is recorded and nothing is pushed. -/
theorem crawlPage_playwrightMCP {σ : Type} (clock : σ → String)
    (parseUrl : String → Option ParsedUrl) (o : Options) (s : Crawler σ) (url : String)
    (depth : Nat) (hv : url ∉ s.visited)
    (hrel : ∀ link ∈ mockPageLinks, parseUrl link = none) :
    (crawlPage (playwrightMCP clock) parseUrl o s url depth).pages =
        s.pages ++ [pageDataOf url depth (mockPageContent url) (clock s.world)] ∧
      (crawlPage (playwrightMCP clock) parseUrl o s url depth).queue = s.queue ∧
      (crawlPage (playwrightMCP clock) parseUrl o s url depth).trace.pushed = s.trace.pushed ∧
      (crawlPage (playwrightMCP clock) parseUrl o s url depth).trace.fetched =
        s.trace.fetched ++ [url] := by
  have hnew : ∀ visited, newEntries parseUrl o s.baseUrl visited depth mockPageLinks = [] :=
    fun visited => newEntries_of_rejected parseUrl o s.baseUrl visited depth mockPageLinks
      (fun link hl => isValidDocumentationUrl_of_parse_none parseUrl o s.baseUrl link
        (hrel link hl))
  unfold crawlPage
  simp only [contains_eq_decide, hv, decide_False, Bool.false_eq_true, if_false, playwrightMCP,
    PlaywrightMCP.getPageContent, PlaywrightMCP.getPageLinks]
  by_cases hd : (depth : Int) < depthLimit o
  · simp only [hd, if_true, enqueueLink_foldl, hnew, List.append_nil]
    refine ⟨?_, ?_, ?_, ?_⟩ <;> first | rfl | trivial
  · simp only [hd, if_false]
    refine ⟨?_, ?_, ?_, ?_⟩ <;> first | rfl | trivial

/-- C31: under the remote browser strategy every link returned by link discovery is one
of six paths starting with a slash; when `new URL` rejects them, as it does a path with
no scheme, the URL filter rejects each of them, and a crawl with a seed that parses and
with `depth` and `maxPages` unset or positive returns exactly the record of the seed at
depth 0, having pushed nothing but the seed. -/
theorem playwright_crawl_returns_seed_only {σ : Type} (clock : σ → String)
    (parseUrl : String → Option ParsedUrl) (o : Options) (w : σ) (startUrl : String)
    (hrel : ∀ link ∈ mockPageLinks, parseUrl link = none)
    (hseed : parseUrl startUrl ≠ none) (hd : 0 ≤ o.depth) (hm : 0 ≤ o.maxPages) :
    (∀ (w1 : σ) (url baseUrl : String),
      ((playwrightMCP clock).getPageLinks w1 url baseUrl).2 = some mockPageLinks) ∧
    (∀ link ∈ mockPageLinks, "/".data <+: link.data ∧
      ∀ baseUrl, isValidDocumentationUrl parseUrl o baseUrl link = false) ∧
    ∀ fuel : Nat, 1 ≤ fuel →
      ∃ s', crawl (playwrightMCP clock) parseUrl o fuel (Crawler.fresh w) startUrl =
          CrawlResult.returned s' ∧
        s'.pages = [pageDataOf startUrl 0 (mockPageContent startUrl) (clock w)] ∧
        s'.trace.pushed = [{ url := startUrl, depth := 0 }] ∧ s'.queue = [] := by
  refine ⟨fun _ _ _ => rfl, ?_, ?_⟩
  · intro link hl
    refine ⟨?_, fun baseUrl =>
      isValidDocumentationUrl_of_parse_none parseUrl o baseUrl link (hrel link hl)⟩
    revert link
    decide
  · intro fuel hfuel
    rcases hu : parseUrl startUrl with _ | u
    · exact absurd hu hseed
    · obtain ⟨f, rfl⟩ : ∃ f, fuel = f + 1 := ⟨fuel - 1, by omega⟩
      have hc := loopCond_pushSeed_fresh o w u.origin startUrl (maxPagesLimit_pos o hm)
      obtain ⟨hpages, hqueue, hpushed, -⟩ := crawlPage_playwrightMCP clock parseUrl o
        { visited := [], queue := [], pages := [], baseUrl := u.origin, world := w,
          trace := { fetched := [], discovered := [], pushed := [{ url := startUrl, depth := 0 }] } }
        startUrl 0 (by simp) hrel
      refine ⟨crawlPage (playwrightMCP clock) parseUrl o
          { visited := [], queue := [], pages := [], baseUrl := u.origin, world := w,
            trace :=
              { fetched := [], discovered := [], pushed := [{ url := startUrl, depth := 0 }] } }
          startUrl 0,
        crawl_eq_of_loop _ parseUrl o (f + 1) (Crawler.fresh w) _ startUrl u hu ?_, ?_, ?_, ?_⟩
      · rw [crawlLoop]
        simp only [hc, if_true]
        rw [loopBody_seed _ parseUrl o w u.origin startUrl hd]
        refine crawlLoop_of_loopCond_false _ parseUrl o f _ ?_
        simp [loopCond, hqueue]
      · simpa using hpages
      · exact hpushed
      · exact hqueue

/-- On the example site, whose `new URL` rejects every path of the mock list, the crawl
from `https://x.com/docs/a` with nothing set returns the record of the seed alone. -/
theorem playwright_crawl_returns_seed_only_witness :
    (∀ link ∈ mockPageLinks, demoParseUrl link = none) ∧
      demoParseUrl "https://x.com/docs/a" ≠ none ∧
      ∃ s', crawl (playwrightMCP (fun _ : Unit => "t")) demoParseUrl unsetOptions 1
            (Crawler.fresh ()) "https://x.com/docs/a" = CrawlResult.returned s' ∧
        s'.pages =
          [pageDataOf "https://x.com/docs/a" 0 (mockPageContent "https://x.com/docs/a") "t"] ∧
        s'.trace.pushed = [{ url := "https://x.com/docs/a", depth := 0 }] ∧ s'.queue = [] :=
  ⟨by decide, by decide,
    (playwright_crawl_returns_seed_only (fun _ : Unit => "t") demoParseUrl unsetOptions ()
      "https://x.com/docs/a" (by decide) (by decide) (by decide) (by decide)).2.2 1
      (Nat.le_refl 1)⟩

theorem loopBody_fetched_grow {σ : Type} (sc : Scraper σ)
    (parseUrl : String → Option ParsedUrl) (o : Options) (s : Crawler σ)
    (h : loopCond o s = true) :
    s.trace.fetched <+: (loopBody sc parseUrl o s).trace.fetched := by
  obtain ⟨current, rest, -, -, hcase⟩ := loopBody_cases sc parseUrl o s h
  rcases hcase with ⟨hb, -⟩ | ⟨-, -, w, newPages, links, disc, hb, -⟩
  · rw [hb]
  · rw [hb]
    exact List.prefix_append _ _

theorem crawlLoop_fetched_grow {σ : Type} (sc : Scraper σ)
    (parseUrl : String → Option ParsedUrl) (o : Options) (fuel : Nat) (s s' : Crawler σ)
    (h : crawlLoop sc parseUrl o fuel s = some s') : s.trace.fetched <+: s'.trace.fetched :=
  crawlLoop_invariant sc parseUrl o (fun t => s.trace.fetched <+: t.trace.fetched)
    (fun t ht hc => ht.trans (loopBody_fetched_grow sc parseUrl o t hc)) fuel s s'
    (List.prefix_refl _) h

theorem crawl_baseUrl {σ : Type} (sc : Scraper σ) (parseUrl : String → Option ParsedUrl)
    (o : Options) (fuel : Nat) (s s' : Crawler σ) (startUrl : String) (u : ParsedUrl)
    (hu : parseUrl startUrl = some u)
    (h : crawl sc parseUrl o fuel s startUrl = CrawlResult.returned s') :
    s'.baseUrl = u.origin := by
  refine crawl_invariant sc parseUrl o (fun t => t.baseUrl = u.origin) ?_ fuel s s' startUrl
    ?_ h
  · intro t ht _
    rw [(loopBody_discovered sc parseUrl o t).1]
    exact ht
  · intro u' hu'
    rw [hu] at hu'
    cases hu'
    rfl

theorem head_of_cons_start {α : Type} (a : α) (l l' : List α) (h : (a :: l) <+: l') :
    l'.head? = some a := by
  obtain ⟨t, rfl⟩ := h
  rfl

/-- C32: the seed is pushed without being passed through the URL filter. Whatever
`isValidDocumentationUrl` says of a seed that parses, a crawl with `depth` and `maxPages`
unset or positive hands the seed first to `getPageContent` and, when that fetch succeeds,
records it first, at depth 0. When the filter rejects the seed, the same URL met as a
link is not pushed: `links.forEach` leaves the controller as it is, and no push after the
seed's carries it. -/
theorem seed_bypasses_url_filter {σ : Type} (sc : Scraper σ)
    (parseUrl : String → Option ParsedUrl) (o : Options) (w : σ) (startUrl : String)
    (u : ParsedUrl) (hu : parseUrl startUrl = some u) (hd : 0 ≤ o.depth)
    (hm : 0 ≤ o.maxPages) :
    (∃ n : Nat, ∀ fuel : Nat, n ≤ fuel →
      ∃ s', crawl sc parseUrl o fuel (Crawler.fresh w) startUrl = CrawlResult.returned s') ∧
    (∀ (fuel : Nat) (s' : Crawler σ),
      crawl sc parseUrl o fuel (Crawler.fresh w) startUrl = CrawlResult.returned s' →
      s'.trace.fetched.head? = some startUrl ∧
      (∀ c, (sc.getPageContent w startUrl).2 = some c →
        s'.pages.head? =
          some (pageDataOf startUrl 0 c (sc.now (sc.getPageContent w startUrl).1))) ∧
      (isValidDocumentationUrl parseUrl o u.origin startUrl = false →
        ∀ e ∈ s'.trace.pushed.tail, e.url ≠ startUrl)) ∧
    (isValidDocumentationUrl parseUrl o u.origin startUrl = false →
      ∀ (s : Crawler σ) (depth : Nat), s.baseUrl = u.origin →
        enqueueLink parseUrl o depth s startUrl = s) := by
  refine ⟨crawl_returns sc parseUrl o (Crawler.fresh w) startUrl (by rw [hu]; simp), ?_, ?_⟩
  · intro fuel s' hr
    obtain ⟨u', hu', hl⟩ := crawl_returned sc parseUrl o fuel _ s' startUrl hr
    rw [hu] at hu'
    cases hu'
    have hc := loopCond_pushSeed_fresh o w u.origin startUrl (maxPagesLimit_pos o hm)
    obtain ⟨f, -, hl'⟩ := crawlLoop_of_loopCond_true sc parseUrl o fuel _ s' hc hl
    rw [loopBody_seed sc parseUrl o w u.origin startUrl hd] at hl'
    obtain ⟨w1, newPages, links, disc, hb, -, -, hsome, -⟩ := crawlPage_cases sc parseUrl o
      { visited := [], queue := [], pages := [], baseUrl := u.origin, world := w,
        trace := { fetched := [], discovered := [], pushed := [{ url := startUrl, depth := 0 }] } }
      startUrl 0 (by simp)
    have hf := crawlLoop_fetched_grow sc parseUrl o f _ s' hl'
    have hp := crawlLoop_pages_grow sc parseUrl o f _ s' hl'
    rw [hb] at hf hp
    refine ⟨head_of_cons_start startUrl [] _ (by simpa using hf), ?_, ?_⟩
    · intro c hc'
      have hnew := hsome c hc'
      rw [hnew] at hp
      exact head_of_cons_start _ [] _ (by simpa using hp)
    · intro hrej e he heq
      have hinv := pushInv_crawl sc parseUrl o fuel w s' startUrl hr
      have hbase := crawl_baseUrl sc parseUrl o fuel _ s' startUrl u hu hr
      have := hinv.2 e he
      rw [hbase, heq, hrej] at this
      cases this
  · intro hrej s depth hbase
    simp [enqueueLink, hbase, hrej]

/-- The seed `https://x.com/blog/post` is rejected by the default exclude patterns, yet
the crawl fetches it and returns its record. -/
theorem seed_bypasses_url_filter_witness :
    isValidDocumentationUrl demoParseUrl unsetOptions "https://x.com"
        "https://x.com/blog/post" = false ∧
      (crawl (playwrightMCP (fun _ : Unit => "t")) demoParseUrl unsetOptions 1
          (Crawler.fresh ()) "https://x.com/blog/post").pages =
        some [pageDataOf "https://x.com/blog/post" 0 (mockPageContent "https://x.com/blog/post")
          "t"] ∧
      ∃ n : Nat, ∀ fuel : Nat, n ≤ fuel →
        ∃ s', crawl (playwrightMCP (fun _ : Unit => "t")) demoParseUrl unsetOptions fuel
          (Crawler.fresh ()) "https://x.com/blog/post" = CrawlResult.returned s' :=
  ⟨by decide, by decide,
    (seed_bypasses_url_filter (playwrightMCP (fun _ : Unit => "t")) demoParseUrl unsetOptions ()
      "https://x.com/blog/post" (ParsedUrl.mk "https://x.com" "/blog/post") (by decide)
      (by decide) (by decide)).1⟩

/-! ## Summaries -/

/-- The value of `lastIndexOf`: `-1` when the character does not occur, else the last
position that holds it. -/
theorem jsLastIndexOf_spec (s : String) (c : Char) :
    (jsLastIndexOf s c = -1 ∧ c ∉ s.data) ∨
      ∃ i : Nat, jsLastIndexOf s c = (i : Int) ∧ i < s.data.length ∧ s.data[i]? = some c ∧
        ∀ j : Nat, i < j → s.data[j]? ≠ some c := by
  unfold jsLastIndexOf
  rcases h : s.data.reverse.indexOf? c with _ | k
  · left
    refine ⟨rfl, ?_⟩
    have h1 := List.findIdx?_eq_none_iff.1 h
    intro hc
    have := h1 c (List.mem_reverse.2 hc)
    simp at this
  · right
    obtain ⟨hk, hck, hlt⟩ := List.findIdx?_eq_some_iff_getElem.1 h
    have hk' : k < s.data.length := by simpa using hk
    refine ⟨s.data.length - 1 - k, ?_, by omega, ?_, ?_⟩
    · simp only
      omega
    · have h1 := List.getElem?_reverse (l := s.data) (i := k) hk'
      rw [← h1, List.getElem?_eq_getElem hk]
      simpa using hck
    · intro j hj hcj
      by_cases hjl : j < s.data.length
      · have hidx : s.data.length - 1 - j < k := by omega
        have hidx' : s.data.length - 1 - j < s.data.length := by omega
        have h1 := List.getElem?_reverse (l := s.data) (i := s.data.length - 1 - j) hidx'
        have h2 : s.data.length - 1 - (s.data.length - 1 - j) = j := by omega
        rw [h2, hcj] at h1
        have hlen : s.data.length - 1 - j < s.data.reverse.length := by simpa using hidx'
        rw [List.getElem?_eq_getElem hlen] at h1
        simp only [Option.some.injEq] at h1
        exact hlt (s.data.length - 1 - j) hidx (by rw [beq_iff_eq]; exact h1)
      · rw [List.getElem?_eq_none (by omega)] at hcj
        cases hcj

theorem summarizeContent_of_long (content : String) (maxLength : Nat)
    (h : maxLength < content.length) :
    summarizeContent content maxLength =
      if 5 * jsLastIndexOf (jsSubstring content maxLength) ' ' > 4 * (maxLength : Int) then
        jsSubstring (jsSubstring content maxLength)
          (jsLastIndexOf (jsSubstring content maxLength) ' ').toNat ++ "..."
      else jsSubstring content maxLength ++ "..." := by
  have hne : content ≠ "" := by
    intro h0
    rw [h0] at h
    simp at h
  have hlen : ¬ content.length ≤ maxLength := by omega
  simp only [summarizeContent, hne, hlen, or_self, if_false]

/-- C36: `summarizeContent` returns a content of at most `maxLength` characters as it is;
a longer one becomes `p` followed by three dots, where `p` is the first `maxLength`
characters of the content, or, when the last space among them lies beyond 80% of
`maxLength`, the characters before that space. So `p` is a beginning of the content of at
most `maxLength` characters and the result has at most `maxLength + 3`. -/
theorem summarizeContent_spec (content : String) (maxLength : Nat) :
    (content.length ≤ maxLength → summarizeContent content maxLength = content) ∧
    (maxLength < content.length →
      ∃ p : String, summarizeContent content maxLength = p ++ "..." ∧
        p.data <+: content.data ∧ p.length ≤ maxLength ∧
        ((p = jsSubstring content maxLength ∧
            ∀ i : Nat, IsLastSpace content maxLength i → 5 * i ≤ 4 * maxLength) ∨
          ∃ i : Nat, IsLastSpace content maxLength i ∧ 4 * maxLength < 5 * i ∧
            p = jsSubstring content i)) ∧
    (summarizeContent content maxLength).length ≤ maxLength + 3 := by
  have hlong : maxLength < content.length →
      ∃ p : String, summarizeContent content maxLength = p ++ "..." ∧
        p.data <+: content.data ∧ p.length ≤ maxLength ∧
        ((p = jsSubstring content maxLength ∧
            ∀ i : Nat, IsLastSpace content maxLength i → 5 * i ≤ 4 * maxLength) ∨
          ∃ i : Nat, IsLastSpace content maxLength i ∧ 4 * maxLength < 5 * i ∧
            p = jsSubstring content i) := by
    intro h
    have hh : maxLength < content.data.length := h
    rw [summarizeContent_of_long content maxLength h]
    have htl : (jsSubstring content maxLength).data.length = maxLength := by
      simp only [jsSubstring, List.length_take]
      omega
    have hget : ∀ j : Nat, j < maxLength →
        (jsSubstring content maxLength).data[j]? = content.data[j]? := by
      intro j hj
      simp only [jsSubstring]
      rw [List.getElem?_take, if_pos hj]
    rcases jsLastIndexOf_spec (jsSubstring content maxLength) ' ' with ⟨hneg, hno⟩ | ⟨i, hi, hlt, hsp, hlast⟩
    · have hcond : ¬ 5 * jsLastIndexOf (jsSubstring content maxLength) ' ' > 4 * (maxLength : Int) := by
        rw [hneg]; omega
      rw [if_neg hcond]
      refine ⟨jsSubstring content maxLength, rfl, List.take_prefix _ _, le_of_eq htl, Or.inl ⟨rfl, ?_⟩⟩
      intro i hi
      exfalso
      apply hno
      have := hget i hi.1
      rw [hi.2.1] at this
      exact List.mem_iff_getElem?.2 ⟨i, this⟩
    · rw [htl] at hlt
      have hlastSpace : IsLastSpace content maxLength i := by
        refine ⟨hlt, by rw [← hget i hlt]; exact hsp, ?_⟩
        intro j hij hj
        rw [← hget j hj]
        exact hlast j hij
      by_cases hcond : 5 * jsLastIndexOf (jsSubstring content maxLength) ' ' > 4 * (maxLength : Int)
      · rw [if_pos hcond]
        rw [hi] at hcond
        have hp : jsSubstring (jsSubstring content maxLength)
            (jsLastIndexOf (jsSubstring content maxLength) ' ').toNat = jsSubstring content i := by
          rw [hi]
          simp only [jsSubstring, Int.toNat_ofNat, List.take_take]
          rw [min_eq_left (le_of_lt hlt)]
        rw [hp]
        refine ⟨jsSubstring content i, rfl, List.take_prefix _ _, ?_, Or.inr ⟨i, hlastSpace, by omega, rfl⟩⟩
        simp only [jsSubstring, String.length, List.length_take]
        omega
      · rw [if_neg hcond]
        rw [hi] at hcond
        refine ⟨jsSubstring content maxLength, rfl, List.take_prefix _ _, le_of_eq htl, Or.inl ⟨rfl, ?_⟩⟩
        intro i' hi'
        have heq : i' = i := by
          rcases Nat.lt_trichotomy i' i with hlt' | heq | hgt
          · exact absurd hlastSpace.2.1 (hi'.2.2 i hlt' hlt)
          · exact heq
          · exact absurd hi'.2.1 (hlastSpace.2.2 i' hgt hi'.1)
        rw [heq]
        omega
  refine ⟨?_, hlong, ?_⟩
  · intro h
    simp [summarizeContent, h]
  · by_cases h : content.length ≤ maxLength
    · have : summarizeContent content maxLength = content := by simp [summarizeContent, h]
      rw [this]
      omega
    · obtain ⟨p, hp, -, hlen, -⟩ := hlong (by omega)
      rw [hp, String.length_append]
      have : "...".length = 3 := rfl
      omega

/-- With a limit of 10, the text `hello brave new world` is cut at 10 characters, its
last space among them being at position 5, not beyond 8; the text `hello bra ve new` is
cut at its space in position 9. -/
theorem summarizeContent_spec_witness :
    summarizeContent "hello brave new world" 10 = "hello brav..." ∧
      summarizeContent "hello bra ve new" 10 = "hello bra..." ∧
      (summarizeContent "hello brave new world" 10).length ≤ 10 + 3 :=
  ⟨by decide, by decide, (summarizeContent_spec "hello brave new world" 10).2.2⟩

/-! ## Confidence level -/

theorem percentage_ge_iff (score maxScore k : Nat) (h : 0 < maxScore) :
    ((k : ℚ) * 20 ≤ (score : ℚ) / (maxScore : ℚ) * 100) ↔ k * maxScore ≤ 5 * score := by
  have hm : (0 : ℚ) < (maxScore : ℚ) := by exact_mod_cast h
  rw [div_mul_eq_mul_div, le_div_iff₀ hm]
  constructor
  · intro hq
    have h1 : ((k * maxScore : ℕ) : ℚ) ≤ ((5 * score : ℕ) : ℚ) := by
      push_cast
      linarith
    exact_mod_cast h1
  · intro hn
    have h1 : ((k * maxScore : ℕ) : ℚ) ≤ ((5 * score : ℕ) : ℚ) := by exact_mod_cast hn
    push_cast at h1
    linarith

theorem confidenceMaxScore_pos_iff (knowledge : Knowledge) :
    0 < confidenceMaxScore knowledge ↔
      ¬ (knowledge.apis = [] ∧ knowledge.examples = [] ∧ knowledge.concepts = []) := by
  unfold confidenceMaxScore
  rcases ha : knowledge.apis with _ | ⟨a, as⟩ <;> rcases he : knowledge.examples with _ | ⟨e, es⟩ <;>
    rcases hc : knowledge.concepts with _ | ⟨c, cs⟩ <;> simp

theorem calculateConfidenceLevel_eq (knowledge : Knowledge)
    (h : 0 < confidenceMaxScore knowledge) :
    calculateConfidenceLevel knowledge =
      if 4 * confidenceMaxScore knowledge ≤ 5 * confidenceScore knowledge then "high"
      else if 3 * confidenceMaxScore knowledge ≤ 5 * confidenceScore knowledge then "medium"
      else "basic" := by
  have h80 := percentage_ge_iff (confidenceScore knowledge) (confidenceMaxScore knowledge) 4 h
  have h60 := percentage_ge_iff (confidenceScore knowledge) (confidenceMaxScore knowledge) 3 h
  norm_num at h80 h60
  simp only [calculateConfidenceLevel, gt_iff_lt, h, if_true, ge_iff_le, h80, h60]

/-- C34: with `apis`, `examples` and `concepts` all empty the level is `basic`;
otherwise it is `high` exactly when `5 * score ≥ 4 * maxScore`, `medium` exactly when
that fails and `5 * score ≥ 3 * maxScore`, and `basic` in the remaining case. The level
is not monotone: five API records give `high` (50 of 50), the same records with one
example added give `medium` (55 of 80). -/
theorem calculateConfidenceLevel_spec :
    (∀ knowledge : Knowledge,
      (knowledge.apis = [] ∧ knowledge.examples = [] ∧ knowledge.concepts = [] →
        calculateConfidenceLevel knowledge = "basic") ∧
      (¬ (knowledge.apis = [] ∧ knowledge.examples = [] ∧ knowledge.concepts = []) →
        (calculateConfidenceLevel knowledge = "high" ↔
          4 * confidenceMaxScore knowledge ≤ 5 * confidenceScore knowledge) ∧
        (calculateConfidenceLevel knowledge = "medium" ↔
          5 * confidenceScore knowledge < 4 * confidenceMaxScore knowledge ∧
            3 * confidenceMaxScore knowledge ≤ 5 * confidenceScore knowledge) ∧
        (calculateConfidenceLevel knowledge = "basic" ↔
          5 * confidenceScore knowledge < 3 * confidenceMaxScore knowledge))) ∧
    (fiveApis.apis = fiveApisOneExample.apis ∧
      List.Sublist fiveApis.examples fiveApisOneExample.examples ∧
      fiveApis.concepts = fiveApisOneExample.concepts ∧
      confidenceScore fiveApis = 50 ∧ confidenceMaxScore fiveApis = 50 ∧
      calculateConfidenceLevel fiveApis = "high" ∧
      confidenceScore fiveApisOneExample = 55 ∧ confidenceMaxScore fiveApisOneExample = 80 ∧
      calculateConfidenceLevel fiveApisOneExample = "medium") := by
  constructor
  · intro knowledge
    constructor
    · rintro ⟨ha, he, hc⟩
      simp only [calculateConfidenceLevel, confidenceMaxScore, ha, he, hc, List.length_nil,
        gt_iff_lt, lt_self_iff_false, if_false]
      norm_num
    · intro hne
      have hpos := (confidenceMaxScore_pos_iff knowledge).2 hne
      rw [calculateConfidenceLevel_eq knowledge hpos]
      by_cases h4 : 4 * confidenceMaxScore knowledge ≤ 5 * confidenceScore knowledge
      · rw [if_pos h4]
        exact ⟨⟨fun _ => h4, fun _ => rfl⟩,
          ⟨fun h => absurd h (by decide), fun h => by omega⟩,
          ⟨fun h => absurd h (by decide), fun h => by omega⟩⟩
      · rw [if_neg h4]
        by_cases h3 : 3 * confidenceMaxScore knowledge ≤ 5 * confidenceScore knowledge
        · rw [if_pos h3]
          exact ⟨⟨fun h => absurd h (by decide), fun h => absurd h h4⟩,
            ⟨fun _ => ⟨by omega, h3⟩, fun _ => rfl⟩,
            ⟨fun h => absurd h (by decide), fun h => by omega⟩⟩
        · rw [if_neg h3]
          exact ⟨⟨fun h => absurd h (by decide), fun h => absurd h h4⟩,
            ⟨fun h => absurd h (by decide), fun h => absurd h.2 h3⟩,
            ⟨fun _ => by omega, fun _ => rfl⟩⟩
  · have h1 : confidenceMaxScore fiveApis = 50 := by decide
    have h2 : confidenceScore fiveApis = 50 := by decide
    have h3 : confidenceMaxScore fiveApisOneExample = 80 := by decide
    have h4 : confidenceScore fiveApisOneExample = 55 := by decide
    refine ⟨rfl, by decide, rfl, h2, h1, ?_, h4, h3, ?_⟩
    · rw [calculateConfidenceLevel_eq fiveApis (by rw [h1]; omega), h1, h2]
      decide
    · rw [calculateConfidenceLevel_eq fiveApisOneExample (by rw [h3]; omega), h3, h4]
      decide

/-- The empty aggregate has level `basic`, and for the five API records with one example
the level is `medium` because 275 is less than 320 and at least 240. -/
theorem calculateConfidenceLevel_spec_witness :
    calculateConfidenceLevel emptyKnowledge = "basic" ∧
      (calculateConfidenceLevel fiveApisOneExample = "medium" ↔
        5 * confidenceScore fiveApisOneExample < 4 * confidenceMaxScore fiveApisOneExample ∧
          3 * confidenceMaxScore fiveApisOneExample ≤ 5 * confidenceScore fiveApisOneExample) :=
  ⟨(calculateConfidenceLevel_spec.1 emptyKnowledge).1 ⟨rfl, rfl, rfl⟩,
    ((calculateConfidenceLevel_spec.1 fiveApisOneExample).2 (by decide)).2.1⟩

/-! ## Primary focus -/

/-- After a stable sort by decreasing score, the first element is the first element of
the list, in its original order, whose score is maximal. -/
theorem head_insertionSort_firstMax {α : Type} (score : α → Nat) :
    ∀ l : List α, l ≠ [] →
      ∃ (pre : List α) (x : α) (post : List α),
        l = pre ++ x :: post ∧ (∀ a ∈ pre, score a < score x) ∧
          (∀ a ∈ post, score a ≤ score x) ∧
          (l.insertionSort (fun a b => score b ≤ score a)).head? = some x := by
  intro l
  induction l with
  | nil => intro h; exact absurd rfl h
  | cons a l ih =>
    intro _
    cases l with
    | nil => exact ⟨[], a, [], rfl, by simp, by simp, rfl⟩
    | cons b l2 =>
      obtain ⟨pre, x, post, hl, hpre, hpost, hhead⟩ := ih (by simp)
      have hsort : (a :: b :: l2).insertionSort (fun a b => score b ≤ score a) =
          List.orderedInsert (fun a b => score b ≤ score a) a
            ((b :: l2).insertionSort (fun a b => score b ≤ score a)) := rfl
      rcases hS : (b :: l2).insertionSort (fun a b => score b ≤ score a) with _ | ⟨y, S⟩
      · rw [hS] at hhead
        cases hhead
      · rw [hS] at hhead
        simp only [List.head?_cons, Option.some.injEq] at hhead
        subst hhead
        rw [hsort, hS]
        by_cases hxa : score y ≤ score a
        · refine ⟨[], a, b :: l2, rfl, by simp, ?_, by simp [List.orderedInsert, hxa]⟩
          intro c hc
          rw [hl] at hc
          rcases List.mem_append.1 hc with hc | hc
          · exact le_trans (le_of_lt (hpre c hc)) hxa
          · rcases List.mem_cons.1 hc with rfl | hc
            · exact hxa
            · exact le_trans (hpost c hc) hxa
        · refine ⟨a :: pre, y, post, by rw [hl]; rfl, ?_, hpost,
            by simp [List.orderedInsert, hxa]⟩
          intro c hc
          rcases List.mem_cons.1 hc with rfl | hc
          · exact lt_of_not_le hxa
          · exact hpre c hc

/-! ## Primary focus: rounding to double precision -/

/-- The rounded quotient, multiplied back, is within half a divisor of the dividend. -/
theorem roundHalfEven_near (num den : Nat) (hden : 0 < den) :
    2 * (roundHalfEven num den * den) ≤ 2 * num + den ∧
      2 * num ≤ 2 * (roundHalfEven num den * den) + den := by
  have h1 := Nat.div_add_mod num den
  have h2 := Nat.mod_lt num hden
  have e1 : (num / den + 1) * den = den * (num / den) + den := by ring
  have e2 : num / den * den = den * (num / den) := Nat.mul_comm _ _
  unfold roundHalfEven
  simp only
  generalize den * (num / den) = m at h1 e1 e2
  split_ifs <;> simp only [e1, e2] <;> omega

/-- With enough halvings, `bitLengthAux` counts the binary digits: a number that is not
zero lies between `2 ^ (d - 1)` and `2 ^ d` for its number of digits `d`. -/
theorem bitLengthAux_spec (fuel : Nat) : ∀ n : Nat, n ≤ fuel → n ≠ 0 →
    2 ^ (bitLengthAux fuel n - 1) ≤ n ∧ n < 2 ^ bitLengthAux fuel n := by
  induction fuel with
  | zero => intro n h h0; omega
  | succ fuel ih =>
    intro n hn h0
    unfold bitLengthAux
    rw [if_neg h0]
    by_cases h2 : n / 2 = 0
    · have h1 : n = 1 := by omega
      have hz : bitLengthAux fuel (n / 2) = 0 := by
        rw [h2]
        cases fuel <;> simp [bitLengthAux]
      rw [hz, h1]
      decide
    · obtain ⟨l, u⟩ := ih (n / 2) (by omega) h2
      have hpos : bitLengthAux fuel (n / 2) ≠ 0 := by
        intro hb
        rw [hb] at u
        simp at u
        exact h2 u
      have e1 : 2 ^ (bitLengthAux fuel (n / 2)) =
          2 * 2 ^ (bitLengthAux fuel (n / 2) - 1) := by
        rw [← Nat.pow_succ']
        congr 1
        omega
      rw [Nat.add_sub_cancel, Nat.pow_succ]
      omega

/-- The number of binary digits of `n`: a number that is not zero lies between
`2 ^ (d - 1)` and `2 ^ d` for `d = bitLength n`. -/
theorem bitLength_spec (n : Nat) (h0 : n ≠ 0) :
    2 ^ (bitLength n - 1) ≤ n ∧ n < 2 ^ bitLength n :=
  bitLengthAux_spec n n (Nat.le_refl n) h0

/-- A number below `2 ^ k` has at most `k` binary digits. -/
theorem bitLengthAux_le (fuel : Nat) : ∀ n k : Nat, n < 2 ^ k → bitLengthAux fuel n ≤ k := by
  induction fuel with
  | zero => intro n k _; simp [bitLengthAux]
  | succ fuel ih =>
    intro n k hn
    unfold bitLengthAux
    by_cases h0 : n = 0
    · simp [h0]
    · rw [if_neg h0]
      cases k with
      | zero => simp at hn; exact absurd hn h0
      | succ k =>
        have : n / 2 < 2 ^ k := by
          rw [Nat.pow_succ] at hn
          omega
        have := ih (n / 2) k this
        omega

/-- Rounding a number below `2 ^ (53 + k)` units to double precision moves it by at most
half of `2 ^ k` units. -/
theorem roundToDouble_near (v k : Nat) (hv : v < 2 ^ (53 + k)) :
    2 * roundToDouble v 1 ≤ 2 * v + 2 ^ k ∧ 2 * v ≤ 2 * roundToDouble v 1 + 2 ^ k := by
  have hb : bitLength v ≤ 53 + k := bitLengthAux_le v v (53 + k) hv
  have hs : bitLength v - 53 ≤ k := by omega
  have hp : 2 ^ (bitLength v - 53) ≤ 2 ^ k := Nat.pow_le_pow_right (by decide) hs
  have hpos : 0 < 2 ^ (bitLength v - 53) := Nat.two_pow_pos _
  have h := roundHalfEven_near v (2 ^ (bitLength v - 53)) hpos
  unfold roundToDouble
  simp only [Nat.div_one, Nat.one_mul]
  omega

/-- The product of a length below `2 ^ 32` and a number below 4 is computed to within
`2 ^ 33` units of `2^-53`. -/
theorem timesDouble_near (n w : Nat) (hn : n < 2 ^ 32) (hw : w < 2 ^ 55) :
    2 * timesDouble n w ≤ 2 * (n * w) + 2 ^ 34 ∧ 2 * (n * w) ≤ 2 * timesDouble n w + 2 ^ 34 := by
  have hv : n * w < 2 ^ (53 + 34) := by
    calc n * w < 2 ^ 32 * 2 ^ 55 := by
          exact Nat.mul_lt_mul_of_lt_of_le hn (Nat.le_of_lt hw) (Nat.two_pow_pos _)
      _ = 2 ^ (53 + 34) := by norm_num
  exact roundToDouble_near (n * w) 34 hv

/-- The doubles denoted by the four weights `2`, `1.5`, `1.2` and `0.8`, in units of
`2^-53`. -/
theorem decimalLiteral_values :
    decimalLiteral 2 1 = 18014398509481984 ∧ decimalLiteral 15 10 = 13510798882111488 ∧
      decimalLiteral 12 10 = 10808639105689190 ∧ decimalLiteral 8 10 = 7205759403792794 := by
  decide
/-- The computed score of each area, for a bucket of fewer than `2 ^ 32` records, is
within `2 ^ 38` tenths of a unit of the exact weighted score. -/
theorem weighted_scores_near (n : Nat) (hn : n < 2 ^ 32) :
    (10 * timesDouble n (decimalLiteral 2 1) ≤ 20 * n * 2 ^ 53 + 2 ^ 38 ∧
      20 * n * 2 ^ 53 ≤ 10 * timesDouble n (decimalLiteral 2 1) + 2 ^ 38) ∧
    (10 * timesDouble n (decimalLiteral 15 10) ≤ 15 * n * 2 ^ 53 + 2 ^ 38 ∧
      15 * n * 2 ^ 53 ≤ 10 * timesDouble n (decimalLiteral 15 10) + 2 ^ 38) ∧
    (10 * timesDouble n (decimalLiteral 12 10) ≤ 12 * n * 2 ^ 53 + 2 ^ 38 ∧
      12 * n * 2 ^ 53 ≤ 10 * timesDouble n (decimalLiteral 12 10) + 2 ^ 38) ∧
    (10 * timesDouble n (decimalLiteral 8 10) ≤ 8 * n * 2 ^ 53 + 2 ^ 38 ∧
      8 * n * 2 ^ 53 ≤ 10 * timesDouble n (decimalLiteral 8 10) + 2 ^ 38) := by
  obtain ⟨h2, h15, h12, h8⟩ := decimalLiteral_values
  rw [h2, h15, h12, h8]
  have b2 := timesDouble_near n 18014398509481984 hn (by norm_num)
  have b15 := timesDouble_near n 13510798882111488 hn (by norm_num)
  have b12 := timesDouble_near n 10808639105689190 hn (by norm_num)
  have b8 := timesDouble_near n 7205759403792794 hn (by norm_num)
  have hn2 : n < 4294967296 := by simpa using hn
  norm_num at b2 b15 b12 b8 ⊢
  omega

/-- Two rationals compare as their tenfolds do. -/
theorem rat_le_of_tenths (x y : ℚ) (X Y : Nat) (hx : 10 * x = (X : ℚ)) (hy : 10 * y = (Y : ℚ))
    (h : X ≤ Y) : x ≤ y := by
  have h2 : (X : ℚ) ≤ (Y : ℚ) := by exact_mod_cast h
  linarith

/-- Claim C35 fails on the code. With two troubleshooting records and three concept
records the exact weighted scores of the two areas are equal (`2 * 1.2` and `3 * 0.8` are
both 12/5) and maximal, and `Troubleshooting & Support` is declared first; the code
computes `3 * 0.8` in double precision as the next double above `2 * 1.2`, and returns
`Concepts & Theory`. -/
theorem primary_focus_breaks_exact_tie :
    specWeightedScores twoIssuesThreeConcepts =
      [("API Development", 0), ("Configuration Management", 0),
        ("Code Examples & Tutorials", 0), ("Troubleshooting & Support", 12 / 5),
        ("Concepts & Theory", 12 / 5)] ∧
    (focusAreas twoIssuesThreeConcepts).map (fun area => area.score) =
      [0, 0, 0, 21617278211378380, 21617278211378384] ∧
    determinePrimaryFocus twoIssuesThreeConcepts = "Concepts & Theory" ∧
    determinePrimaryFocus twoIssuesThreeConcepts ≠ "Troubleshooting & Support" := by
  refine ⟨?_, by decide, by decide, by decide⟩
  simp only [specWeightedScores, twoIssuesThreeConcepts, List.length_nil, List.length_cons]
  norm_num

/-- Claim C35, as the code has it. `determinePrimaryFocus` returns the name of the first
area, in the order of the declaration, whose score as computed in double precision (the
number of records times the weight 2, 1.5, 1, 1.2 or 0.8) is maximal; the name is one of
the five and never the fallback `General Documentation`; it is `API Development` when
every bucket is empty; and for buckets of fewer than `2 ^ 32` records, the size of a
JavaScript array, the area returned has the maximal exact weighted score. -/
theorem determinePrimaryFocus_computed (knowledge : Knowledge) :
    (∃ (pre : List FocusArea) (area : FocusArea) (post : List FocusArea),
      focusAreas knowledge = pre ++ area :: post ∧
        (∀ a ∈ pre, a.score < area.score) ∧ (∀ a ∈ post, a.score ≤ area.score) ∧
        determinePrimaryFocus knowledge = area.name) ∧
    determinePrimaryFocus knowledge ∈
      ["API Development", "Configuration Management", "Code Examples & Tutorials",
        "Troubleshooting & Support", "Concepts & Theory"] ∧
    determinePrimaryFocus knowledge ≠ "General Documentation" ∧
    (knowledge.apis = [] → knowledge.configuration = [] → knowledge.examples = [] →
      knowledge.troubleshooting = [] → knowledge.concepts = [] →
      determinePrimaryFocus knowledge = "API Development") ∧
    (knowledge.apis.length < 2 ^ 32 → knowledge.configuration.length < 2 ^ 32 →
      knowledge.examples.length < 2 ^ 32 → knowledge.troubleshooting.length < 2 ^ 32 →
      knowledge.concepts.length < 2 ^ 32 →
      ∃ score : ℚ, (determinePrimaryFocus knowledge, score) ∈ specWeightedScores knowledge ∧
        ∀ p ∈ specWeightedScores knowledge, p.2 ≤ score) := by
  obtain ⟨pre, area, post, hl, hpre, hpost, hhead⟩ :=
    head_insertionSort_firstMax (fun a : FocusArea => a.score) (focusAreas knowledge)
      (by simp [focusAreas])
  have hmem : area ∈ focusAreas knowledge := by
    rw [hl]; simp
  have hname : area.name ∈
      ["API Development", "Configuration Management", "Code Examples & Tutorials",
        "Troubleshooting & Support", "Concepts & Theory"] := by
    simp only [focusAreas, List.mem_cons, List.mem_singleton, List.not_mem_nil, or_false] at hmem
    rcases hmem with h | h | h | h | h <;> rw [h] <;> simp
  have hne : area.name ≠ "" := by
    intro h0
    rw [h0] at hname
    revert hname
    decide
  have hhead2 : (sortByScore (focusAreas knowledge)).head? = some area := hhead
  have hres : determinePrimaryFocus knowledge = area.name := by
    unfold determinePrimaryFocus
    rw [hhead2]
    exact if_pos hne
  have hmax : ∀ x ∈ focusAreas knowledge, x.score ≤ area.score := by
    intro x hx
    rw [hl] at hx
    rcases List.mem_append.1 hx with hx | hx
    · exact Nat.le_of_lt (hpre x hx)
    · rcases List.mem_cons.1 hx with rfl | hx
      · exact Nat.le_refl _
      · exact hpost x hx
  refine ⟨⟨pre, area, post, hl, hpre, hpost, hres⟩, by rw [hres]; exact hname, ?_, ?_, ?_⟩
  · rw [hres]
    intro h0
    rw [h0] at hname
    revert hname
    decide
  · intro ha hc he ht hk
    have hf : focusAreas knowledge = focusAreas emptyKnowledge := by
      simp only [focusAreas, ha, hc, he, ht, hk, emptyKnowledge]
    have he2 : determinePrimaryFocus knowledge = determinePrimaryFocus emptyKnowledge := by
      unfold determinePrimaryFocus
      rw [hf]
    rw [he2]
    decide
  · intro ha hc he ht hk
    obtain ⟨⟨a1, a2⟩, -, -, -⟩ := weighted_scores_near knowledge.apis.length ha
    obtain ⟨-, ⟨c1, c2⟩, -, -⟩ := weighted_scores_near knowledge.configuration.length hc
    obtain ⟨-, -, ⟨t1, t2⟩, -⟩ := weighted_scores_near knowledge.troubleshooting.length ht
    obtain ⟨-, -, -, ⟨k1, k2⟩⟩ := weighted_scores_near knowledge.concepts.length hk
    have m1 := hmax _ (show (⟨"API Development",
      timesDouble knowledge.apis.length (decimalLiteral 2 1)⟩ : FocusArea) ∈
        focusAreas knowledge from by simp [focusAreas])
    have m2 := hmax _ (show (⟨"Configuration Management",
      timesDouble knowledge.configuration.length (decimalLiteral 15 10)⟩ : FocusArea) ∈
        focusAreas knowledge from by simp [focusAreas])
    have m3 := hmax _ (show (⟨"Code Examples & Tutorials",
      knowledge.examples.length * 2 ^ 53⟩ : FocusArea) ∈
        focusAreas knowledge from by simp [focusAreas])
    have m4 := hmax _ (show (⟨"Troubleshooting & Support",
      timesDouble knowledge.troubleshooting.length (decimalLiteral 12 10)⟩ : FocusArea) ∈
        focusAreas knowledge from by simp [focusAreas])
    have m5 := hmax _ (show (⟨"Concepts & Theory",
      timesDouble knowledge.concepts.length (decimalLiteral 8 10)⟩ : FocusArea) ∈
        focusAreas knowledge from by simp [focusAreas])
    simp only at m1 m2 m3 m4 m5
    rw [hres]
    simp only [focusAreas, List.mem_cons, List.mem_singleton, List.not_mem_nil, or_false] at hmem
    unfold specWeightedScores
    generalize timesDouble knowledge.apis.length (decimalLiteral 2 1) = Ca at *
    generalize timesDouble knowledge.configuration.length (decimalLiteral 15 10) = Cc at *
    generalize timesDouble knowledge.troubleshooting.length (decimalLiteral 12 10) = Ct at *
    generalize timesDouble knowledge.concepts.length (decimalLiteral 8 10) = Ck at *
    generalize knowledge.apis.length = a at *
    generalize knowledge.configuration.length = c at *
    generalize knowledge.examples.length = e at *
    generalize knowledge.troubleshooting.length = t at *
    generalize knowledge.concepts.length = k at *
    norm_num at a1 a2 c1 c2 t1 t2 k1 k2 m1 m2 m3 m4 m5
    rcases hmem with h | h | h | h | h <;> subst h <;> simp only at m1 m2 m3 m4 m5
    · have j0 : 15 * c ≤ 20 * a := by omega
      have j1 : 10 * e ≤ 20 * a := by omega
      have j2 : 12 * t ≤ 20 * a := by omega
      have j3 : 8 * k ≤ 20 * a := by omega
      have q0 : ((15 * c : ℕ) : ℚ) ≤ ((20 * a : ℕ) : ℚ) := by exact_mod_cast j0
      have q1 : ((10 * e : ℕ) : ℚ) ≤ ((20 * a : ℕ) : ℚ) := by exact_mod_cast j1
      have q2 : ((12 * t : ℕ) : ℚ) ≤ ((20 * a : ℕ) : ℚ) := by exact_mod_cast j2
      have q3 : ((8 * k : ℕ) : ℚ) ≤ ((20 * a : ℕ) : ℚ) := by exact_mod_cast j3
      push_cast at q0 q1 q2 q3
      refine ⟨(a : ℚ) * 2, by simp, ?_⟩
      intro p hp
      simp only [List.mem_cons, List.mem_singleton, List.not_mem_nil, or_false] at hp
      rcases hp with rfl | rfl | rfl | rfl | rfl <;> norm_num <;> linarith
    · have j0 : 20 * a ≤ 15 * c := by omega
      have j1 : 10 * e ≤ 15 * c := by omega
      have j2 : 12 * t ≤ 15 * c := by omega
      have j3 : 8 * k ≤ 15 * c := by omega
      have q0 : ((20 * a : ℕ) : ℚ) ≤ ((15 * c : ℕ) : ℚ) := by exact_mod_cast j0
      have q1 : ((10 * e : ℕ) : ℚ) ≤ ((15 * c : ℕ) : ℚ) := by exact_mod_cast j1
      have q2 : ((12 * t : ℕ) : ℚ) ≤ ((15 * c : ℕ) : ℚ) := by exact_mod_cast j2
      have q3 : ((8 * k : ℕ) : ℚ) ≤ ((15 * c : ℕ) : ℚ) := by exact_mod_cast j3
      push_cast at q0 q1 q2 q3
      refine ⟨(c : ℚ) * 1.5, by simp, ?_⟩
      intro p hp
      simp only [List.mem_cons, List.mem_singleton, List.not_mem_nil, or_false] at hp
      rcases hp with rfl | rfl | rfl | rfl | rfl <;> norm_num <;> linarith
    · have j0 : 20 * a ≤ 10 * e := by omega
      have j1 : 15 * c ≤ 10 * e := by omega
      have j2 : 12 * t ≤ 10 * e := by omega
      have j3 : 8 * k ≤ 10 * e := by omega
      have q0 : ((20 * a : ℕ) : ℚ) ≤ ((10 * e : ℕ) : ℚ) := by exact_mod_cast j0
      have q1 : ((15 * c : ℕ) : ℚ) ≤ ((10 * e : ℕ) : ℚ) := by exact_mod_cast j1
      have q2 : ((12 * t : ℕ) : ℚ) ≤ ((10 * e : ℕ) : ℚ) := by exact_mod_cast j2
      have q3 : ((8 * k : ℕ) : ℚ) ≤ ((10 * e : ℕ) : ℚ) := by exact_mod_cast j3
      push_cast at q0 q1 q2 q3
      refine ⟨(e : ℚ), by simp, ?_⟩
      intro p hp
      simp only [List.mem_cons, List.mem_singleton, List.not_mem_nil, or_false] at hp
      rcases hp with rfl | rfl | rfl | rfl | rfl <;> norm_num <;> linarith
    · have j0 : 20 * a ≤ 12 * t := by omega
      have j1 : 15 * c ≤ 12 * t := by omega
      have j2 : 10 * e ≤ 12 * t := by omega
      have j3 : 8 * k ≤ 12 * t := by omega
      have q0 : ((20 * a : ℕ) : ℚ) ≤ ((12 * t : ℕ) : ℚ) := by exact_mod_cast j0
      have q1 : ((15 * c : ℕ) : ℚ) ≤ ((12 * t : ℕ) : ℚ) := by exact_mod_cast j1
      have q2 : ((10 * e : ℕ) : ℚ) ≤ ((12 * t : ℕ) : ℚ) := by exact_mod_cast j2
      have q3 : ((8 * k : ℕ) : ℚ) ≤ ((12 * t : ℕ) : ℚ) := by exact_mod_cast j3
      push_cast at q0 q1 q2 q3
      refine ⟨(t : ℚ) * 1.2, by simp, ?_⟩
      intro p hp
      simp only [List.mem_cons, List.mem_singleton, List.not_mem_nil, or_false] at hp
      rcases hp with rfl | rfl | rfl | rfl | rfl <;> norm_num <;> linarith
    · have j0 : 20 * a ≤ 8 * k := by omega
      have j1 : 15 * c ≤ 8 * k := by omega
      have j2 : 10 * e ≤ 8 * k := by omega
      have j3 : 12 * t ≤ 8 * k := by omega
      have q0 : ((20 * a : ℕ) : ℚ) ≤ ((8 * k : ℕ) : ℚ) := by exact_mod_cast j0
      have q1 : ((15 * c : ℕ) : ℚ) ≤ ((8 * k : ℕ) : ℚ) := by exact_mod_cast j1
      have q2 : ((10 * e : ℕ) : ℚ) ≤ ((8 * k : ℕ) : ℚ) := by exact_mod_cast j2
      have q3 : ((12 * t : ℕ) : ℚ) ≤ ((8 * k : ℕ) : ℚ) := by exact_mod_cast j3
      push_cast at q0 q1 q2 q3
      refine ⟨(k : ℚ) * 0.8, by simp, ?_⟩
      intro p hp
      simp only [List.mem_cons, List.mem_singleton, List.not_mem_nil, or_false] at hp
      rcases hp with rfl | rfl | rfl | rfl | rfl <;> norm_num <;> linarith

/-- Claim C35, as the code has it, on two aggregates: with nothing in the aggregate the
focus is `API Development`; with two troubleshooting records and three concept records
the area returned has the maximal exact weighted score. -/
theorem determinePrimaryFocus_computed_witness :
    (emptyKnowledge.apis = [] ∧ emptyKnowledge.configuration = [] ∧
      emptyKnowledge.examples = [] ∧ emptyKnowledge.troubleshooting = [] ∧
      emptyKnowledge.concepts = []) ∧
    determinePrimaryFocus emptyKnowledge = "API Development" ∧
    (twoIssuesThreeConcepts.apis.length < 2 ^ 32 ∧
      twoIssuesThreeConcepts.configuration.length < 2 ^ 32 ∧
      twoIssuesThreeConcepts.examples.length < 2 ^ 32 ∧
      twoIssuesThreeConcepts.troubleshooting.length < 2 ^ 32 ∧
      twoIssuesThreeConcepts.concepts.length < 2 ^ 32) ∧
    ∃ score : ℚ,
      (determinePrimaryFocus twoIssuesThreeConcepts, score) ∈
          specWeightedScores twoIssuesThreeConcepts ∧
        ∀ p ∈ specWeightedScores twoIssuesThreeConcepts, p.2 ≤ score :=
  ⟨⟨rfl, rfl, rfl, rfl, rfl⟩,
    (determinePrimaryFocus_computed emptyKnowledge).2.2.2.1 rfl rfl rfl rfl rfl,
    ⟨by decide, by decide, by decide, by decide, by decide⟩,
    (determinePrimaryFocus_computed twoIssuesThreeConcepts).2.2.2.2
      (by decide) (by decide) (by decide) (by decide) (by decide)⟩

/-! ## Cleaning of the page text by the extractor -/

theorem replaceRunsAux_of_no_match (p : Char → Bool) (repl : List Char) :
    ∀ (l : List Char) (b : Bool), (∀ c ∈ l, p c = false) →
      replaceRunsAux p repl b l = l := by
  intro l
  induction l with
  | nil => intro b _; rfl
  | cons c cs ih =>
    intro b h
    have hc : p c = false := h c (List.mem_cons_self _ _)
    simp only [replaceRunsAux, hc, Bool.false_eq_true, if_false]
    rw [ih false (fun d hd => h d (List.mem_cons_of_mem _ hd))]

theorem newline_isJsWhitespace (c : Char) (h : (c.toNat == 10) = true) :
    isJsWhitespace c = true := by
  simp only [beq_iff_eq] at h
  simp [isJsWhitespace, h]

/-- Collapsing the runs of newlines first changes nothing to the collapsing of the runs
of white space. -/
theorem replaceRunsAux_after_newlines (repl : List Char) :
    ∀ (l : List Char) (b b' : Bool), (b' = true → b = true) →
      replaceRunsAux isJsWhitespace repl b
          (replaceRunsAux (fun c => c.toNat == 10) ['\n'] b' l) =
        replaceRunsAux isJsWhitespace repl b l := by
  intro l
  induction l with
  | nil => intro b b' _; rfl
  | cons c cs ih =>
    intro b b' hb
    by_cases hn : (c.toNat == 10) = true
    · have hw := newline_isJsWhitespace c hn
      have hw' : isJsWhitespace '\n' = true := by decide
      cases b' with
      | true =>
        have hbt : b = true := hb rfl
        subst hbt
        simp only [replaceRunsAux, hn, hw, if_true]
        exact ih true true (fun _ => rfl)
      | false =>
        cases b with
        | true =>
          simp only [replaceRunsAux, hn, hw, hw', if_true, Bool.false_eq_true, if_false,
            List.singleton_append]
          exact ih true true (fun _ => rfl)
        | false =>
          simp only [replaceRunsAux, hn, hw, hw', if_true, Bool.false_eq_true, if_false,
            List.singleton_append]
          rw [ih true true (fun _ => rfl)]
    · have hn' : (c.toNat == 10) = false := by simpa using hn
      by_cases hw : isJsWhitespace c = true
      · cases b with
        | true =>
          simp only [replaceRunsAux, hn', hw, if_true, Bool.false_eq_true, if_false]
          exact ih true false (fun h => absurd h (by decide))
        | false =>
          simp only [replaceRunsAux, hn', hw, if_true, Bool.false_eq_true, if_false]
          rw [ih true false (fun h => absurd h (by decide))]
      · have hw' : isJsWhitespace c = false := by simpa using hw
        simp only [replaceRunsAux, hn', hw', Bool.false_eq_true, if_false]
        rw [ih false false (fun h => absurd h (by decide))]

theorem replaceRunsAux_head (repl : List Char) :
    ∀ (l : List Char) (c : Char),
      (replaceRunsAux isJsWhitespace repl true l).head? = some c → isJsWhitespace c = false := by
  intro l
  induction l with
  | nil => intro c h; cases h
  | cons d ds ih =>
    intro c h
    by_cases hw : isJsWhitespace d = true
    · simp only [replaceRunsAux, hw, if_true] at h
      exact ih c h
    · have hw' : isJsWhitespace d = false := by simpa using hw
      simp only [replaceRunsAux, hw', Bool.false_eq_true, if_false, List.head?_cons,
        Option.some.injEq] at h
      rw [← h]
      exact hw'

theorem hasWhitespaceRun_cons (a : Char) (l : List Char)
    (hl : hasWhitespaceRun l = false)
    (h : isJsWhitespace a = false ∨ ∀ x, l.head? = some x → isJsWhitespace x = false) :
    hasWhitespaceRun (a :: l) = false := by
  cases l with
  | nil => rfl
  | cons x xs =>
    simp only [hasWhitespaceRun, Bool.or_eq_false_iff, Bool.and_eq_false_iff]
    refine ⟨?_, hl⟩
    rcases h with h | h
    · exact Or.inl h
    · exact Or.inr (h x rfl)

/-- After the runs of white space are replaced by one space, no two white space
characters are adjacent and every white space character is a space. -/
theorem replaceRunsAux_normal :
    ∀ (l : List Char) (b : Bool),
      hasWhitespaceRun (replaceRunsAux isJsWhitespace [' '] b l) = false ∧
        ∀ c ∈ replaceRunsAux isJsWhitespace [' '] b l, isJsWhitespace c = true → c = ' ' := by
  intro l
  induction l with
  | nil => intro b; exact ⟨rfl, by simp [replaceRunsAux]⟩
  | cons d ds ih =>
    intro b
    by_cases hw : isJsWhitespace d = true
    · cases b with
      | true =>
        simp only [replaceRunsAux, hw, if_true]
        exact ih true
      | false =>
        simp only [replaceRunsAux, hw, if_true, Bool.false_eq_true, if_false,
          List.singleton_append]
        refine ⟨hasWhitespaceRun_cons _ _ (ih true).1
          (Or.inr (replaceRunsAux_head [' '] ds)), ?_⟩
        intro c hc hcw
        rcases List.mem_cons.1 hc with rfl | hc
        · rfl
        · exact (ih true).2 c hc hcw
    · have hw' : isJsWhitespace d = false := by simpa using hw
      simp only [replaceRunsAux, hw', Bool.false_eq_true, if_false]
      refine ⟨hasWhitespaceRun_cons _ _ (ih false).1 (Or.inl hw'), ?_⟩
      intro c hc hcw
      rcases List.mem_cons.1 hc with rfl | hc
      · rw [hw'] at hcw; cases hcw
      · exact (ih false).2 c hc hcw

/-- A text whose white space is single spaces is left as it is when the runs of white
space are replaced by one space. -/
theorem replaceRunsAux_fixed :
    ∀ (l : List Char) (b : Bool), hasWhitespaceRun l = false →
      (∀ c ∈ l, isJsWhitespace c = true → c = ' ') →
      (b = true → ∀ x, l.head? = some x → isJsWhitespace x = false) →
      replaceRunsAux isJsWhitespace [' '] b l = l := by
  intro l
  induction l with
  | nil => intro b _ _ _; rfl
  | cons d ds ih =>
    intro b hrun hsp hhead
    have hrun' : hasWhitespaceRun ds = false := by
      cases ds with
      | nil => rfl
      | cons x xs =>
        simp only [hasWhitespaceRun, Bool.or_eq_false_iff] at hrun
        exact hrun.2
    have hsp' : ∀ c ∈ ds, isJsWhitespace c = true → c = ' ' :=
      fun c hc => hsp c (List.mem_cons_of_mem _ hc)
    by_cases hw : isJsWhitespace d = true
    · have hd : d = ' ' := hsp d (List.mem_cons_self _ _) hw
      have hb : b = false := by
        cases b with
        | false => rfl
        | true =>
          have := hhead rfl d rfl
          rw [hw] at this
          cases this
      subst hb
      have hnext : ∀ x, ds.head? = some x → isJsWhitespace x = false := by
        intro x hx
        cases ds with
        | nil => cases hx
        | cons y ys =>
          simp only [List.head?_cons, Option.some.injEq] at hx
          subst hx
          simp only [hasWhitespaceRun, Bool.or_eq_false_iff, Bool.and_eq_false_iff, hw] at hrun
          rcases hrun.1 with h | h
          · cases h
          · exact h
      simp only [replaceRunsAux, hw, if_true, Bool.false_eq_true, if_false,
        List.singleton_append]
      rw [ih true hrun' hsp' (fun _ => hnext), hd]
    · have hw' : isJsWhitespace d = false := by simpa using hw
      simp only [replaceRunsAux, hw', Bool.false_eq_true, if_false]
      rw [ih false hrun' hsp' (fun h => absurd h (by decide))]

theorem head_dropWhile_not (p : Char → Bool) (l : List Char) (x : Char)
    (h : (l.dropWhile p).head? = some x) : p x = false := by
  have := List.head?_dropWhile_not p l
  rw [h] at this
  exact this

theorem trimmed_within (p : Char → Bool) (l : List Char) :
    ((l.dropWhile p).reverse.dropWhile p).reverse <:+: l := by
  have h1 : (l.dropWhile p).reverse.dropWhile p <:+ (l.dropWhile p).reverse :=
    List.dropWhile_suffix p
  have h2 : ((l.dropWhile p).reverse.dropWhile p).reverse <+: l.dropWhile p := by
    have := List.reverse_prefix.2 h1
    rwa [List.reverse_reverse] at this
  exact h2.isInfix.trans (List.dropWhile_suffix p).isInfix

theorem trimmed_head (p : Char → Bool) (l : List Char) (x : Char)
    (h : (((l.dropWhile p).reverse.dropWhile p).reverse).head? = some x) : p x = false := by
  rw [List.head?_reverse] at h
  obtain ⟨t, ht⟩ : (l.dropWhile p).reverse.dropWhile p <:+ (l.dropWhile p).reverse :=
    List.dropWhile_suffix p
  have hne : (l.dropWhile p).reverse.dropWhile p ≠ [] := by
    intro h0
    rw [h0] at h
    cases h
  have h1 := List.getLast?_append_of_ne_nil t hne
  rw [ht, List.getLast?_reverse, h] at h1
  exact head_dropWhile_not p l x h1

theorem trimmed_last (p : Char → Bool) (l : List Char) (x : Char)
    (h : (((l.dropWhile p).reverse.dropWhile p).reverse).getLast? = some x) : p x = false := by
  rw [List.getLast?_reverse] at h
  exact head_dropWhile_not p _ x h

theorem dropWhile_of_head (p : Char → Bool) (l : List Char)
    (h : ∀ x, l.head? = some x → p x = false) : l.dropWhile p = l := by
  cases l with
  | nil => rfl
  | cons a as => simp [List.dropWhile, h a rfl]

/-- A text with no white space at either end is left as it is by `trim`. -/
theorem trimmed_fixed (p : Char → Bool) (l : List Char)
    (hhead : ∀ x, l.head? = some x → p x = false)
    (hlast : ∀ x, l.getLast? = some x → p x = false) :
    ((l.dropWhile p).reverse.dropWhile p).reverse = l := by
  rw [dropWhile_of_head p l hhead, dropWhile_of_head p l.reverse, List.reverse_reverse]
  intro x hx
  rw [List.head?_reverse] at hx
  exact hlast x hx

theorem hasWhitespaceRun_eq_false_iff (l : List Char) :
    hasWhitespaceRun l = false ↔
      List.Chain' (fun a b => ¬ (isJsWhitespace a = true ∧ isJsWhitespace b = true)) l := by
  induction l with
  | nil => simp [hasWhitespaceRun]
  | cons a l ih =>
    cases l with
    | nil => simp [hasWhitespaceRun]
    | cons b l =>
      rw [List.chain'_cons, ← ih]
      simp only [hasWhitespaceRun, Bool.or_eq_false_iff, Bool.and_eq_false_iff, not_and,
        Bool.not_eq_true]
      constructor
      · rintro ⟨h1, h2⟩
        refine ⟨fun ha => ?_, h2⟩
        rcases h1 with h | h
        · rw [ha] at h; cases h
        · exact h
      · rintro ⟨h1, h2⟩
        refine ⟨?_, h2⟩
        by_cases ha : isJsWhitespace a = true
        · exact Or.inr (h1 ha)
        · exact Or.inl (by simpa using ha)

theorem hasWhitespaceRun_of_part (t l : List Char) (h : t <:+: l)
    (hl : hasWhitespaceRun l = false) : hasWhitespaceRun t = false :=
  (hasWhitespaceRun_eq_false_iff t).2
    ( List.Chain'.infix ((hasWhitespaceRun_eq_false_iff l).1 hl) h)

/-- The text `cleanContent` returns, as a list of characters: the runs of white space
replaced by one space, then the ends trimmed. -/
theorem cleanContent_data (s : String) :
    (cleanContent s).data =
      (((replaceRunsAux isJsWhitespace [' '] false s.data).dropWhile
        isJsWhitespace).reverse.dropWhile isJsWhitespace).reverse := by
  simp only [cleanContent, jsTrim, replaceRuns]
  have h := replaceRunsAux_after_newlines [' '] s.data false false (fun h => absurd h (by decide))
  rw [h]

/-- C37: `cleanContent` applied twice gives what it gives applied once; its result has no
newline, no two adjacent white space characters, and no white space at either end; and
it is the result of replacing the runs of white space by one space and trimming, so the
step that collapses the newlines changes nothing. -/
theorem cleanContent_spec (s : String) :
    cleanContent (cleanContent s) = cleanContent s ∧
    (∀ c ∈ (cleanContent s).data, c ≠ '\n' ∧ (isJsWhitespace c = true → c = ' ')) ∧
    hasWhitespaceRun (cleanContent s).data = false ∧
    (∀ c, (cleanContent s).data.head? = some c → isJsWhitespace c = false) ∧
    (∀ c, (cleanContent s).data.getLast? = some c → isJsWhitespace c = false) ∧
    cleanContent s = jsTrim (replaceRuns isJsWhitespace " " s) := by
  have hinf := trimmed_within isJsWhitespace (replaceRunsAux isJsWhitespace [' '] false s.data)
  obtain ⟨hrun, hsp⟩ := replaceRunsAux_normal s.data false
  rw [← cleanContent_data s] at hinf
  have hrun' : hasWhitespaceRun (cleanContent s).data = false :=
    hasWhitespaceRun_of_part _ _ hinf hrun
  have hsp' : ∀ c ∈ (cleanContent s).data, isJsWhitespace c = true → c = ' ' :=
    fun c hc => hsp c (hinf.subset hc)
  have hhead : ∀ c, (cleanContent s).data.head? = some c → isJsWhitespace c = false := by
    intro c hc
    rw [cleanContent_data] at hc
    exact trimmed_head isJsWhitespace _ c hc
  have hlast : ∀ c, (cleanContent s).data.getLast? = some c → isJsWhitespace c = false := by
    intro c hc
    rw [cleanContent_data] at hc
    exact trimmed_last isJsWhitespace _ c hc
  refine ⟨?_, ?_, hrun', hhead, hlast, ?_⟩
  · apply String.ext
    rw [cleanContent_data (cleanContent s),
      replaceRunsAux_fixed _ false hrun' hsp' (fun h => absurd h (by decide)),
      trimmed_fixed isJsWhitespace _ hhead hlast]
  · intro c hc
    refine ⟨?_, hsp' c hc⟩
    intro hn
    have h1 := hsp' c hc (by rw [hn]; decide)
    rw [hn] at h1
    revert h1
    decide
  · apply String.ext
    rw [cleanContent_data]
    rfl

/-- The text of two lines with spaces around them is cleaned to one line, and cleaning
it again changes nothing. -/
theorem cleanContent_spec_witness :
    cleanContent "  a \n\n  b\tc  " = "a b c" ∧
      cleanContent (cleanContent "  a \n\n  b\tc  ") = cleanContent "  a \n\n  b\tc  " ∧
      ∀ c, (cleanContent "  a \n\n  b\tc  ").data.head? = some c → isJsWhitespace c = false :=
  ⟨by decide, (cleanContent_spec "  a \n\n  b\tc  ").1,
    (cleanContent_spec "  a \n\n  b\tc  ").2.2.2.1⟩

/-! ## Descriptions of the patterns -/

theorem toLower_of_not_upper (c : Char) (h : ¬ (65 ≤ c.toNat ∧ c.toNat ≤ 90)) :
    c.toLower = c := by
  simp only [Char.toLower]
  rw [if_neg]
  simpa using h

theorem toLower_of_sentenceEnd (c : Char) (h : isSentenceEnd c = true) : c.toLower = c := by
  apply toLower_of_not_upper
  simp only [isSentenceEnd, Bool.or_eq_true, decide_eq_true_eq] at h
  omega

theorem toLower_of_whitespace (c : Char) (h : isJsWhitespace c = true) : c.toLower = c := by
  apply toLower_of_not_upper
  simp only [isJsWhitespace, Bool.or_eq_true, Bool.and_eq_true, decide_eq_true_eq] at h
  omega

theorem splitOnRunsAux_after (p : Char → Bool) (rest : List Char) :
    ∀ (x cur : List Char) (b : Bool),
      ∃ (pre : List (List Char)) (cur' : List Char) (b' : Bool),
        splitOnRunsAux p cur b (x ++ rest) = pre ++ splitOnRunsAux p cur' b' rest := by
  intro x
  induction x with
  | nil => intro cur b; exact ⟨[], cur, b, rfl⟩
  | cons c cs ih =>
    intro cur b
    by_cases hc : p c = true
    · cases b with
      | true =>
        obtain ⟨pre, cur', b', h⟩ := ih [] true
        exact ⟨pre, cur', b', by
          simp only [List.cons_append, splitOnRunsAux, hc, if_true, List.append_eq]
          exact h⟩
      | false =>
        obtain ⟨pre, cur', b', h⟩ := ih [] true
        exact ⟨cur.reverse :: pre, cur', b', by
          simp only [List.cons_append, splitOnRunsAux, hc, if_true, Bool.false_eq_true,
            if_false, List.append_eq]
          rw [h]⟩
    · have hc' : p c = false := by simpa using hc
      obtain ⟨pre, cur', b', h⟩ := ih (c :: cur) false
      exact ⟨pre, cur', b', by
        simp only [List.cons_append, splitOnRunsAux, hc', Bool.false_eq_true, if_false,
          List.append_eq]
        exact h⟩

theorem splitOnRunsAux_first (p : Char → Bool) :
    ∀ (y cur : List Char),
      ∃ (z : List Char) (rest : List (List Char)),
        splitOnRunsAux p cur false y = (cur.reverse ++ z) :: rest := by
  intro y
  induction y with
  | nil => intro cur; exact ⟨[], [], by simp [splitOnRunsAux]⟩
  | cons c cs ih =>
    intro cur
    by_cases hc : p c = true
    · exact ⟨[], splitOnRunsAux p [] true cs, by
        simp only [splitOnRunsAux, hc, if_true, Bool.false_eq_true, if_false, List.append_nil]⟩
    · have hc' : p c = false := by simpa using hc
      obtain ⟨z, rest, h⟩ := ih (c :: cur)
      exact ⟨c :: z, rest, by
        simp only [splitOnRunsAux, hc', Bool.false_eq_true, if_false]
        rw [h]
        simp⟩

theorem splitOnRunsAux_mem (p : Char → Bool) :
    ∀ (t cur : List Char) (b : Bool), ∀ piece ∈ splitOnRunsAux p cur b t,
      ∀ c ∈ piece, c ∈ cur ∨ c ∈ t := by
  intro t
  induction t with
  | nil =>
    intro cur b piece hp c hc
    simp only [splitOnRunsAux, List.mem_singleton] at hp
    rw [hp] at hc
    exact Or.inl (List.mem_reverse.1 hc)
  | cons d ds ih =>
    intro cur b piece hp c hc
    by_cases hd : p d = true
    · cases b with
      | true =>
        simp only [splitOnRunsAux, hd, if_true] at hp
        rcases ih [] true piece hp c hc with h | h
        · cases h
        · exact Or.inr (List.mem_cons_of_mem _ h)
      | false =>
        simp only [splitOnRunsAux, hd, if_true, Bool.false_eq_true, if_false,
          List.mem_cons] at hp
        rcases hp with rfl | hp
        · exact Or.inl (List.mem_reverse.1 hc)
        · rcases ih [] true piece hp c hc with h | h
          · cases h
          · exact Or.inr (List.mem_cons_of_mem _ h)
    · have hd' : p d = false := by simpa using hd
      simp only [splitOnRunsAux, hd', Bool.false_eq_true, if_false] at hp
      rcases ih (d :: cur) false piece hp c hc with h | h
      · rcases List.mem_cons.1 h with rfl | h
        · exact Or.inr (List.mem_cons_self _ _)
        · exact Or.inl h
      · exact Or.inr (List.mem_cons_of_mem _ h)

/-- A text with no separator that occurs in a lower-cased content occurs in one of its
lower-cased sentences. -/
theorem sentence_of_occurrence (content ind : List Char) (hne : ind ≠ [])
    (hind : ∀ c ∈ ind, isSentenceEnd c = false)
    (h : ind <:+: content.map Char.toLower) :
    ∃ sentence ∈ splitOnRunsAux isSentenceEnd [] false content,
      ind <:+: sentence.map Char.toLower := by
  obtain ⟨x, y, hxy⟩ := h
  obtain ⟨xi, y0, hc1, hxi, -⟩ := List.map_eq_append_iff.1 hxy.symm
  obtain ⟨x0, i0, hc2, -, hi0⟩ := List.map_eq_append_iff.1 hxi
  have hi0ne : i0 ≠ [] := by
    intro h0
    rw [h0] at hi0
    exact hne hi0.symm
  have hi0p : ∀ c ∈ i0, isSentenceEnd c = false := by
    intro c hc
    by_cases hp : isSentenceEnd c = true
    · have hmem : c.toLower ∈ ind := by
        rw [← hi0]
        exact List.mem_map.2 ⟨c, hc, rfl⟩
      rw [toLower_of_sentenceEnd c hp] at hmem
      exact hind c hmem
    · simpa using hp
  obtain ⟨c, i1, rfl⟩ := List.exists_cons_of_ne_nil hi0ne
  have hcp : isSentenceEnd c = false := hi0p c (List.mem_cons_self _ _)
  obtain ⟨pre, cur', b', h1⟩ :=
    splitOnRunsAux_after isSentenceEnd ((c :: i1) ++ y0) x0 [] false
  have h2 : splitOnRunsAux isSentenceEnd cur' b' ((c :: i1) ++ y0) =
      splitOnRunsAux isSentenceEnd (i1.reverse ++ c :: cur') false y0 := by
    simp only [List.cons_append, splitOnRunsAux, hcp, Bool.false_eq_true, if_false,
      List.append_eq]
    exact splitOnRunsAux_word isSentenceEnd y0 i1 (c :: cur')
      (fun d hd => hi0p d (List.mem_cons_of_mem _ hd))
  obtain ⟨z, rest, h3⟩ := splitOnRunsAux_first isSentenceEnd y0 (i1.reverse ++ c :: cur')
  refine ⟨(i1.reverse ++ c :: cur').reverse ++ z, ?_, ?_⟩
  · rw [hc1, hc2, List.append_assoc, h1, h2, h3]
    simp
  · rw [← hi0]
    refine ⟨cur'.reverse.map Char.toLower, z.map Char.toLower, ?_⟩
    simp

theorem dropWhile_keeps (p : Char → Bool) (c : Char) (r : List Char) (hc : p c = false) :
    ∀ a : List Char, ∃ a' : List Char, (a ++ c :: r).dropWhile p = a' ++ c :: r := by
  intro a
  induction a with
  | nil => exact ⟨[], by simp [List.dropWhile, hc]⟩
  | cons d ds ih =>
    by_cases hd : p d = true
    · obtain ⟨a', h⟩ := ih
      exact ⟨a', by simp only [List.cons_append, List.dropWhile, hd, List.append_eq]; exact h⟩
    · have hd' : p d = false := by simpa using hd
      exact ⟨d :: ds, by simp only [List.cons_append, List.dropWhile, hd', List.append_eq]⟩

/-- Trimming keeps a part of the text that neither begins nor ends with a character
that `trim` removes. -/
theorem trimmed_keeps (p : Char → Bool) (a core b : List Char) (hne : core ≠ [])
    (hhead : ∀ x, core.head? = some x → p x = false)
    (hlast : ∀ x, core.getLast? = some x → p x = false) :
    ∃ a' b' : List Char,
      (((a ++ core ++ b).dropWhile p).reverse.dropWhile p).reverse = a' ++ core ++ b' := by
  obtain ⟨c, r, hcore⟩ := List.exists_cons_of_ne_nil hne
  have hc : p c = false := hhead c (by rw [hcore]; rfl)
  obtain ⟨a', h1⟩ := dropWhile_keeps p c (r ++ b) hc a
  have h1' : (a ++ core ++ b).dropWhile p = a' ++ core ++ b := by
    rw [hcore]
    simpa [List.append_assoc] using h1
  have hrne : core.reverse ≠ [] := by simpa using hne
  obtain ⟨l, r', hrev⟩ := List.exists_cons_of_ne_nil hrne
  have hl : p l = false := by
    apply hlast l
    rw [← List.head?_reverse, hrev]
    rfl
  obtain ⟨b', h2⟩ := dropWhile_keeps p l (r' ++ a'.reverse) hl b.reverse
  refine ⟨a', b'.reverse, ?_⟩
  rw [h1']
  have h3 : (a' ++ core ++ b).reverse = b.reverse ++ l :: (r' ++ a'.reverse) := by
    simp [List.reverse_append, hrev]
  rw [h3, h2]
  have h4 : l :: (r' ++ a'.reverse) = core.reverse ++ a'.reverse := by
    rw [hrev]; rfl
  rw [h4]
  simp [List.reverse_append, List.append_assoc]

theorem head_of_map_toLower (core : List Char)
    (h : ∀ x, (core.map Char.toLower).head? = some x → isJsWhitespace x = false) :
    ∀ x, core.head? = some x → isJsWhitespace x = false := by
  intro x hx
  by_cases hw : isJsWhitespace x = true
  · have h1 := h x.toLower (by simp [List.head?_map, hx])
    rw [toLower_of_whitespace x hw, hw] at h1
    cases h1
  · simpa using hw

theorem last_of_map_toLower (core : List Char)
    (h : ∀ x, (core.map Char.toLower).getLast? = some x → isJsWhitespace x = false) :
    ∀ x, core.getLast? = some x → isJsWhitespace x = false := by
  intro x hx
  by_cases hw : isJsWhitespace x = true
  · have h1 := h x.toLower (by simp [List.getLast?_map, hx])
    rw [toLower_of_whitespace x hw, hw] at h1
    cases h1
  · simpa using hw

theorem jsJoin_cons_data (sep s1 : String) (rest : List String) :
    ∃ tail : List Char, (jsJoin sep (s1 :: rest)).data = s1.data ++ tail := by
  cases rest with
  | nil => exact ⟨[], by simp [jsJoin]⟩
  | cons s2 rest =>
    exact ⟨sep.data ++ (jsJoin sep (s2 :: rest)).data, by
      simp [jsJoin, String.data_append, List.append_assoc]⟩

theorem patternIndicators_shape :
    ∀ ind ∈ patternIndicators,
      ind.data ≠ [] ∧ (∀ c ∈ ind.data, isSentenceEnd c = false) ∧
        (∀ x, ind.data.head? = some x → isJsWhitespace x = false) ∧
        (∀ x, ind.data.getLast? = some x → isJsWhitespace x = false) := by
  have h : ∀ ind ∈ patternIndicators,
      ind.data ≠ [] ∧ ind.data.all (fun c => !isSentenceEnd c) = true ∧
        ind.data.head?.all (fun c => !isJsWhitespace c) = true ∧
        ind.data.getLast?.all (fun c => !isJsWhitespace c) = true := by decide
  intro ind hind
  obtain ⟨h1, h2, h3, h4⟩ := h ind hind
  refine ⟨h1, ?_, ?_, ?_⟩
  · intro c hc
    have := List.all_eq_true.1 h2 c hc
    simpa using this
  · intro x hx
    rw [hx] at h3
    simpa using h3
  · intro x hx
    rw [hx] at h4
    simpa using h4

theorem includes_toLowerCase_iff (s indicator : String) :
    includes (toLowerCase s) indicator = true ↔
      indicator.data <:+: s.data.map Char.toLower := by
  simp [includes, toLowerCase]

/-- The description built for an indicator that occurs in the lower-cased text of a page
of ASCII characters: some sentence is relevant, and the description contains, once
lower-cased, the indicator. -/
theorem extractPatternDescription_contains (host : Host)
    (hlow : ∀ s : String, (∀ c ∈ s.data, c.toNat < 128) → host.toLowerCase s = toLowerCase s)
    (content indicator : String) (hascii : ∀ c ∈ content.data, c.toNat < 128)
    (hind : indicator ∈ patternIndicators)
    (hinc : includes (host.toLowerCase content) indicator = true) :
    (splitOnRuns isSentenceEnd content).filter
        (fun sentence => includes (host.toLowerCase sentence) indicator) ≠ [] ∧
      extractPatternDescription host content indicator ≠ "" ∧
      indicator.data <:+:
        (toLowerCase (extractPatternDescription host content indicator)).data := by
  obtain ⟨hne, hsep, hhead, hlast⟩ := patternIndicators_shape indicator hind
  have hsent_ascii : ∀ s ∈ splitOnRuns isSentenceEnd content, ∀ c ∈ s.data, c.toNat < 128 := by
    intro s hs c hc
    simp only [splitOnRuns, List.mem_map] at hs
    obtain ⟨piece, hp, rfl⟩ := hs
    rcases splitOnRunsAux_mem isSentenceEnd content.data [] false piece hp c hc with h | h
    · cases h
    · exact hascii c h
  rw [hlow content hascii, includes_toLowerCase_iff] at hinc
  obtain ⟨sentence, hsmem, hsinc⟩ := sentence_of_occurrence content.data indicator.data hne hsep hinc
  have hrel : (⟨sentence⟩ : String) ∈ (splitOnRuns isSentenceEnd content).filter
      (fun sentence => includes (host.toLowerCase sentence) indicator) := by
    have hmem : (⟨sentence⟩ : String) ∈ splitOnRuns isSentenceEnd content :=
      List.mem_map.2 ⟨sentence, hsmem, rfl⟩
    refine List.mem_filter.2 ⟨hmem, ?_⟩
    rw [hlow _ (hsent_ascii _ hmem), includes_toLowerCase_iff]
    exact hsinc
  rcases hfil : (splitOnRuns isSentenceEnd content).filter
      (fun sentence => includes (host.toLowerCase sentence) indicator) with _ | ⟨s1, rest⟩
  · rw [hfil] at hrel
    cases hrel
  · have hs1 : s1 ∈ (splitOnRuns isSentenceEnd content).filter
        (fun sentence => includes (host.toLowerCase sentence) indicator) := by
      rw [hfil]
      exact List.mem_cons_self _ _
    obtain ⟨hs1mem, hs1inc⟩ := List.mem_filter.1 hs1
    rw [hlow _ (hsent_ascii _ hs1mem), includes_toLowerCase_iff] at hs1inc
    obtain ⟨x, y, hxy⟩ := hs1inc
    obtain ⟨xi, b, hd1, hxi, -⟩ := List.map_eq_append_iff.1 hxy.symm
    obtain ⟨a, core, hd2, -, hcore⟩ := List.map_eq_append_iff.1 hxi
    have hcne : core ≠ [] := by
      intro h0
      rw [h0] at hcore
      exact hne hcore.symm
    obtain ⟨tail, hjoin⟩ := jsJoin_cons_data ". " s1 (rest.take 1)
    obtain ⟨a', b', htrim⟩ := trimmed_keeps isJsWhitespace a core (b ++ tail) hcne
      (head_of_map_toLower core (by rw [hcore]; exact hhead))
      (last_of_map_toLower core (by rw [hcore]; exact hlast))
    have hdesc : (extractPatternDescription host content indicator).data = a' ++ core ++ b' := by
      simp only [extractPatternDescription, hfil, jsTrim]
      have htake : (s1 :: rest).take 2 = s1 :: rest.take 1 := rfl
      rw [htake, hjoin, hd1, hd2, ← htrim]
      simp [List.append_assoc]
    refine ⟨by simp, ?_, ?_⟩
    · intro h0
      rw [h0] at hdesc
      have h1 : ([] : List Char) = a' ++ core ++ b' := hdesc
      have h2 := congrArg List.length h1
      simp only [List.length_nil, List.length_append] at h2
      exact hcne (List.length_eq_zero.1 (by omega))
    · simp only [toLowerCase, hdesc, List.map_append, hcore]
      exact ⟨a'.map Char.toLower, b'.map Char.toLower, rfl⟩

/-- C33: for pages of ASCII text, every record of `extractPatterns` has a description
that is not empty and that contains, once lower-cased, the indicator of the record; for
the page of the record, the list of the sentences that contain the indicator is not
empty. -/
theorem extractPatterns_description (host : Host)
    (hlow : ∀ s : String, (∀ c ∈ s.data, c.toNat < 128) → host.toLowerCase s = toLowerCase s)
    (pages : List PageData)
    (hascii : ∀ page ∈ pages, ∀ c ∈ page.content.data, c.toNat < 128) :
    ∀ r ∈ extractPatterns host pages,
      r.description ≠ "" ∧ r.type.data <:+: (toLowerCase r.description).data ∧
        r.type ∈ patternIndicators ∧
        ∃ page ∈ pages, r.source = page.url ∧
          (splitOnRuns isSentenceEnd page.content).filter
            (fun sentence => includes (host.toLowerCase sentence) r.type) ≠ [] := by
  intro r hr
  rw [extractPatterns_eq] at hr
  obtain ⟨page, hpage, hr⟩ := List.mem_flatMap.1 hr
  simp only [patternsOfPage, List.mem_map, List.mem_filter] at hr
  obtain ⟨indicator, ⟨hind, hinc⟩, rfl⟩ := hr
  obtain ⟨h1, h2, h3⟩ := extractPatternDescription_contains host hlow page.content indicator
    (hascii page hpage) hind hinc
  exact ⟨h2, h3, hind, page, hpage, rfl, h1⟩

/-- The page with `You SHOULD avoid globals` gives two records, for `should` and for
`avoid`, both described by that sentence. -/
theorem extractPatterns_description_witness :
    (extractPatterns plainHost [patternsPage]).map (fun r => (r.type, r.description)) =
        [("should", "You SHOULD avoid globals"), ("avoid", "You SHOULD avoid globals")] ∧
      ∀ r ∈ extractPatterns plainHost [patternsPage],
        r.description ≠ "" ∧ r.type.data <:+: (toLowerCase r.description).data ∧
          r.type ∈ patternIndicators ∧
          ∃ page ∈ [patternsPage], r.source = page.url ∧
            (splitOnRuns isSentenceEnd page.content).filter
              (fun sentence => includes (plainHost.toLowerCase sentence) r.type) ≠ [] :=
  ⟨by decide,
    extractPatterns_description plainHost (fun _ _ => rfl) [patternsPage] (by decide)⟩


end ClaudeAgentGen
